import Mathlib

/-!
Verification of the provider-abstraction / fallback-routing / response-repair
core of the bible-study-scribby repository, as a shallow embedding in Lean.

The embedding follows the Python source:
  services/llm_providers/__init__.py   (create_error_study, parse_json_response)
  services/llm_router.py               (generate_study_with_fallback)
  services/llm_providers/*.py          (the four concrete providers)
  services/claude_api.py               (legacy cache-backed generation path)

Python dicts/lists parsed from JSON are modelled by the inductive type `J`;
`json.loads` is modelled by a recursive-descent parser `jvalue` that follows
CPython's `json` module semantics (strict mode: unescaped control characters
inside string literals are rejected; whitespace is space/tab/LF/CR; numbers
follow the json NUMBER_RE regex; NaN/Infinity accepted as constants).
Numbers are kept as their lexemes, so no floating-point semantics is needed.
One modelled restriction: a `\uXXXX` escape denoting a lone UTF-16 surrogate
makes the modelled parse fail (Lean `Char` cannot hold a lone surrogate);
no claim concerns such inputs.

Network calls performed by providers are modelled by outcome oracles passed
as explicit arguments, and the sequence of provider/network invocations is
returned as an explicit trace, so that call-count claims become statements
about the trace.
-/

namespace Scribby

/-- JSON-like values (model of the Python objects produced by `json.loads`).
Numbers are represented by their source lexeme. -/
inductive J where
  | null : J
  | bool : Bool → J
  | num : String → J
  | str : String → J
  | arr : List J → J
  | obj : List (String × J) → J
deriving Repr

mutual

/-- Boolean equality on `J` (structural). -/
def J.beq : J → J → Bool
  | .null, .null => true
  | .bool a, .bool b => a == b
  | .num a, .num b => a == b
  | .str a, .str b => a == b
  | .arr a, .arr b => J.beqList a b
  | .obj a, .obj b => J.beqFields a b
  | _, _ => false

/-- Boolean equality on lists of `J`. -/
def J.beqList : List J → List J → Bool
  | [], [] => true
  | a :: as, b :: bs => J.beq a b && J.beqList as bs
  | _, _ => false

/-- Boolean equality on association lists of `J`. -/
def J.beqFields : List (String × J) → List (String × J) → Bool
  | [], [] => true
  | (ka, va) :: as, (kb, vb) :: bs => ka == kb && J.beq va vb && J.beqFields as bs
  | _, _ => false

end

/-! ### Python string primitives -/

/-- JSON whitespace (CPython `json`: space, tab, LF, CR). -/
def isJsonWs (c : Char) : Bool := c = ' ' || c = '\t' || c = '\n' || c = '\r'

/-- Drop leading JSON whitespace (CPython `_w(s, idx)`). -/
def skipWs (s : List Char) : List Char := s.dropWhile isJsonWs

/-- Python `str` whitespace, as stripped by `str.strip()` with no argument. -/
def isPyWs (c : Char) : Bool :=
  c.toNat = 0x20 || c.toNat = 0x9 || c.toNat = 0xa || c.toNat = 0xb ||
  c.toNat = 0xc || c.toNat = 0xd || c.toNat = 0x1c || c.toNat = 0x1d ||
  c.toNat = 0x1e || c.toNat = 0x1f || c.toNat = 0x85 || c.toNat = 0xa0 ||
  c.toNat = 0x1680 || (0x2000 ≤ c.toNat && c.toNat ≤ 0x200a) ||
  c.toNat = 0x2028 || c.toNat = 0x2029 || c.toNat = 0x202f ||
  c.toNat = 0x205f || c.toNat = 0x3000

/-- Python `str.lstrip()`. -/
def pyLStrip (s : List Char) : List Char := s.dropWhile isPyWs

/-- Python `str.rstrip()`. -/
def pyRStrip (s : List Char) : List Char := (s.reverse.dropWhile isPyWs).reverse

/-- Python `str.strip()`. -/
def pyStrip (s : List Char) : List Char := pyRStrip (pyLStrip s)

/-! ### Model of `json.loads` (CPython `json` module, strict mode)

All parsing functions work on `List Char` and report failure as
`Except.error n` where `n` is the number of characters remaining at the
point of failure (converted to an absolute offset at the top level); the
offsets approximate CPython's `JSONDecodeError.pos`. -/

/-- Hexadecimal digit value (used by `\uXXXX` escapes; case-insensitive). -/
def hexVal? (c : Char) : Option Nat :=
  if '0' ≤ c ∧ c ≤ '9' then some (c.toNat - '0'.toNat)
  else if 'a' ≤ c ∧ c ≤ 'f' then some (c.toNat - 'a'.toNat + 10)
  else if 'A' ≤ c ∧ c ≤ 'F' then some (c.toNat - 'A'.toNat + 10)
  else none

/-- Prepend a decoded character to the result of a string-body parse. -/
def consDecoded (c : Char) (r : Except Nat (List Char × List Char)) :
    Except Nat (List Char × List Char) :=
  r.map (fun p => (c :: p.1, p.2))

/-- The single-character escape sequences of JSON strings and their
decoded characters. -/
def escChar? (e : Char) : Option Char :=
  if e = '"' then some '"'
  else if e = '\\' then some '\\'
  else if e = '/' then some '/'
  else if e = 'b' then some '\x08'
  else if e = 'f' then some '\x0c'
  else if e = 'n' then some '\n'
  else if e = 'r' then some '\r'
  else if e = 't' then some '\t'
  else none

/-- Four hexadecimal digits at the head of the input (the `XXXX` of a
`\uXXXX` escape), as a code unit plus the rest. -/
def parse4hex : List Char → Option (Nat × List Char)
  | h1 :: h2 :: h3 :: h4 :: rest =>
    match hexVal? h1, hexVal? h2, hexVal? h3, hexVal? h4 with
    | some a, some b, some c, some d => some (((a * 16 + b) * 16 + c) * 16 + d, rest)
    | _, _, _, _ => none
  | _ => none

/-- Decode one `\uXXXX` escape (the input starts after the `\u`): a
non-surrogate code unit yields its character; a high surrogate must be
followed by `\uXXXX` with a low surrogate and the pair is combined;
anything else is an error (see the header note on lone surrogates). -/
def pu (s : List Char) : Except Nat (Char × List Char) :=
  match parse4hex s with
  | none => .error s.length
  | some (code, rest3) =>
    if code < 0xd800 ∨ 0xdfff < code then .ok (Char.ofNat code, rest3)
    else if code ≤ 0xdbff then
      match rest3 with
      | '\\' :: 'u' :: t =>
        match parse4hex t with
        | some (lo, rest4) =>
          if 0xdc00 ≤ lo ∧ lo ≤ 0xdfff then
            .ok (Char.ofNat (0x10000 + (code - 0xd800) * 0x400 + (lo - 0xdc00)), rest4)
          else .error rest3.length
        | none => .error rest3.length
      | _ => .error rest3.length
    else .error rest3.length

/-- Parse the body of a JSON string literal (opening quote already
consumed), returning the decoded contents and the input after the closing
quote.  The first argument is fuel (structural anchor); `length + 1`
always suffices since every step consumes at least one character.
In strict mode (CPython default) an unescaped control character
(code < 0x20) is an error; `lax := true` additionally accepts literal
LF/CR/TAB as content characters, modelling the "well-formed except for
literal control characters inside string values" input class of the spec.
Escape sequences are decoded exactly as CPython does; surrogate pairs are
combined; a lone surrogate is modelled as a parse failure (header note). -/
def pstrBody (lax : Bool) : Nat → List Char → Except Nat (List Char × List Char)
  | 0, s => .error s.length
  | n + 1, s =>
    match s with
    | [] => .error 0
    | c :: rest =>
      if c = '"' then .ok ([], rest)
      else if c = '\\' then
        match rest with
        | [] => .error 0
        | e :: rest2 =>
          match escChar? e with
          | some dec => consDecoded dec (pstrBody lax n rest2)
          | none =>
            if e = 'u' then
              match pu rest2 with
              | .ok p => consDecoded p.1 (pstrBody lax n p.2)
              | .error p => .error p
            else .error (rest2.length + 1)
      else if c.toNat < 0x20 then
        if lax && (c = '\n' || c = '\r' || c = '\t') then
          consDecoded c (pstrBody lax n rest)
        else .error (rest.length + 1)
      else consDecoded c (pstrBody lax n rest)

/-- Greedy digit run (the longest digit prefix and the rest). -/
def digitSpan (s : List Char) : List Char × List Char :=
  (s.takeWhile Char.isDigit, s.dropWhile Char.isDigit)

/-- Integer part of the json number regex: `0 | [1-9][0-9]*`. -/
def pintPart : List Char → Option (List Char × List Char)
  | [] => none
  | c :: rest =>
    if c = '0' then some (['0'], rest)
    else if c.isDigit then
      let p := digitSpan rest
      some (c :: p.1, p.2)
    else none

/-- Optional fraction group `(\.\d+)?` of the json number regex. -/
def pfracPart (s : List Char) : List Char × List Char :=
  match s with
  | c :: rest =>
    if c = '.' then
      let p := digitSpan rest
      if p.1 = [] then ([], s) else ('.' :: p.1, p.2)
    else ([], s)
  | [] => ([], s)

/-- Optional exponent group `([eE][-+]?\d+)?` of the json number regex. -/
def pexpPart (s : List Char) : List Char × List Char :=
  match s with
  | e :: rest =>
    if e = 'e' || e = 'E' then
      match rest with
      | sgn :: rest2 =>
        if sgn = '+' || sgn = '-' then
          let p := digitSpan rest2
          if p.1 = [] then ([], s) else (e :: sgn :: p.1, p.2)
        else
          let p := digitSpan rest
          if p.1 = [] then ([], s) else (e :: p.1, p.2)
      | [] => ([], s)
    else ([], s)
  | [] => ([], s)

/-- Match CPython json's `NUMBER_RE` at the head of the input, returning the
matched lexeme and the rest. -/
def pnum : List Char → Option (List Char × List Char)
  | [] => none
  | c :: rest =>
    let core := if c = '-' then (pintPart rest).map (fun p => ('-' :: p.1, p.2))
                else pintPart (c :: rest)
    match core with
    | none => none
    | some (ds, r) =>
      let f := pfracPart r
      let e := pexpPart f.2
      some (ds ++ f.1 ++ e.1, e.2)

/-- Parse a number at the head of the input, as a `J` value. -/
def pnumE (s : List Char) : Except Nat (J × List Char) :=
  match pnum s with
  | some (lx, r) => .ok (J.num (String.mk lx), r)
  | none => .error s.length

/-- Match a fixed literal (`true` / `false` / `null` / `NaN` / `Infinity`). -/
def plit (lit : List Char) (v : J) (s : List Char) : Except Nat (J × List Char) :=
  if lit.isPrefixOf s then .ok (v, s.drop lit.length) else .error s.length

mutual

/-- Parse one JSON value at the head of the input (whitespace already
skipped by the caller), following CPython's `scan_once`. `n` is fuel;
`2 * length + 2` always suffices (see `jvalue_fuel`). -/
def jvalue (lax : Bool) : Nat → List Char → Except Nat (J × List Char)
  | 0, s => .error s.length
  | n + 1, s =>
    match s with
    | [] => .error 0
    | c :: rest =>
      if c = '"' then
        (pstrBody lax (rest.length + 1) rest).map (fun p => (J.str (String.mk p.1), p.2))
      else if c = '{' then
        match skipWs rest with
        | [] => .error 0
        | d :: r2 =>
          if d = '}' then .ok (J.obj [], r2)
          else if d = '"' then jmembers lax n r2 []
          else .error (d :: r2).length
      else if c = '[' then
        match skipWs rest with
        | [] => jelements lax n [] []
        | d :: r2 =>
          if d = ']' then .ok (J.arr [], r2)
          else jelements lax n (d :: r2) []
      else if c = 't' then plit "true".data (J.bool true) s
      else if c = 'f' then plit "false".data (J.bool false) s
      else if c = 'n' then plit "null".data J.null s
      else if c = 'N' then plit "NaN".data (J.num "NaN") s
      else if c = 'I' then plit "Infinity".data (J.num "Infinity") s
      else if c = '-' then
        if "-Infinity".data.isPrefixOf s then .ok (J.num "-Infinity", s.drop 9)
        else pnumE s
      else pnumE s

/-- Parse the elements of a non-empty array: a value is expected at the head
(whitespace already skipped). -/
def jelements (lax : Bool) : Nat → List Char → List J → Except Nat (J × List Char)
  | 0, s, _ => .error s.length
  | n + 1, s, acc =>
    match jvalue lax n s with
    | .error p => .error p
    | .ok (v, r) =>
      match skipWs r with
      | [] => .error 0
      | d :: r2 =>
        if d = ',' then jelements lax n (skipWs r2) (acc ++ [v])
        else if d = ']' then .ok (J.arr (acc ++ [v]), r2)
        else .error (d :: r2).length

/-- Parse the members of a non-empty object: the opening quote of the next
key has already been consumed. -/
def jmembers (lax : Bool) : Nat → List Char → List (String × J) →
    Except Nat (J × List Char)
  | 0, s, _ => .error s.length
  | n + 1, s, acc =>
    match pstrBody lax (s.length + 1) s with
    | .error p => .error p
    | .ok (kcs, r) =>
      match skipWs r with
      | [] => .error 0
      | d :: r2 =>
        if d = ':' then
          match jvalue lax n (skipWs r2) with
          | .error p => .error p
          | .ok (v, r3) =>
            match skipWs r3 with
            | [] => .error 0
            | d2 :: r4 =>
              if d2 = ',' then
                match skipWs r4 with
                | [] => .error 0
                | d3 :: r5 =>
                  if d3 = '"' then jmembers lax n r5 (acc ++ [(String.mk kcs, v)])
                  else .error (d3 :: r5).length
              else if d2 = '}' then .ok (J.obj (acc ++ [(String.mk kcs, v)]), r4)
              else .error (d2 :: r4).length
        else .error (d :: r2).length

end

/-- Model of `json.loads`: skip leading whitespace, parse one value, require
only whitespace afterwards ("Extra data" otherwise). An `error` carries the
approximate absolute character offset of the failure. -/
def jloads (lax : Bool) (s : List Char) : Except Nat J :=
  match jvalue lax (2 * s.length + 2) (skipWs s) with
  | .error p => .error (s.length - p)
  | .ok (v, r) =>
    match skipWs r with
    | [] => .ok v
    | r2 => .error (s.length - r2.length)

/-- The characters that can begin a successfully parsed JSON value
(dispatch set of `jvalue`). -/
def isStartChar (c : Char) : Bool :=
  c = '"' || c = '{' || c = '[' || c = 't' || c = 'f' || c = 'n' ||
  c = 'N' || c = 'I' || c = '-' || c.isDigit

/-- A remainder that cannot extend a number lexeme (or a literal):
empty, or starting with a character outside the number alphabet. -/
def notNumExt (r : List Char) : Bool :=
  match r with
  | [] => true
  | c :: _ => !(c.isDigit || c = '.' || c = 'e' || c = 'E' || c = '+' || c = '-')

/-! ### `create_error_study` (services/llm_providers/__init__.py) -/

/-- Model of `create_error_study`: the structurally complete error document. -/
def create_error_study (error_message : String) : J :=
  J.obj [
    ("error", J.bool true),
    ("purpose", J.str ("Error: " ++ error_message)),
    ("context", J.str "Unable to generate study at this time."),
    ("key_themes", J.arr [J.str "Error"]),
    ("study_flow", J.arr [J.obj [
      ("passage_section", J.str "N/A"),
      ("section_heading", J.str "Error"),
      ("observation_question", J.str "What does the text say?"),
      ("observation_answer", J.str "Please try again."),
      ("interpretation_question", J.str "What does it mean?"),
      ("interpretation_answer", J.str "Please try again."),
      ("connection", J.str "")
    ]]),
    ("summary", J.str error_message),
    ("application_questions", J.arr [J.str "Please try generating the study again."]),
    ("cross_references", J.arr []),
    ("prayer_prompt", J.str "Pray for understanding as you read God\x27s Word.")
  ]

/-! ### Python dict/truthiness helpers -/

/-- Python dict lookup on the parsed fields (duplicate keys: last wins,
as in a Python dict built by `json.loads`). -/
def lookupField : List (String × J) → String → Option J
  | [], _ => none
  | (k2, v) :: rest, k =>
    match lookupField rest k with
    | some w => some w
    | none => if k2 = k then some v else none

/-- Python truthiness of a number, given its lexeme. -/
def numTruthy (lx : String) : Bool :=
  if lx.data.contains 'N' || lx.data.contains 'I' then true
  else (lx.data.takeWhile (fun c => !(c = 'e' || c = 'E'))).any
    (fun c => '1' ≤ c && c ≤ '9')

/-- Python truthiness of a `J` value. -/
def pyTruthy : J → Bool
  | .null => false
  | .bool b => b
  | .num lx => numTruthy lx
  | .str s => !(s == "")
  | .arr l => !l.isEmpty
  | .obj l => !l.isEmpty

/-- Python `d.get(k)`: `none` models the `AttributeError` raised when the
value is not a dict; `some o` is the dict lookup result. -/
def pyGet (d : J) (k : String) : Option (Option J) :=
  match d with
  | .obj fs => some (lookupField fs k)
  | _ => none

/-- Truthiness of an `Option J` as tested by `if study.get("error"):`. -/
def pyTruthyOpt : Option J → Bool
  | none => false
  | some v => pyTruthy v

/-! ### `parse_json_response` (services/llm_providers/__init__.py)

The pipeline is split into named stage functions mirroring the successive
reassignments of `text` in the Python code. -/

/-- Python `text.split("\n")`. -/
def splitNl : List Char → List (List Char)
  | [] => [[]]
  | c :: rest =>
    if c = '\n' then [] :: splitNl rest
    else
      match splitNl rest with
      | l :: ls => (c :: l) :: ls
      | [] => [[c]]

/-- Python `"\n".join(lines)`. -/
def joinNl : List (List Char) → List Char
  | [] => []
  | [l] => l
  | l :: ls => l ++ '\n' :: joinNl ls

/-- Markdown-fence removal: drop the first line, and keep only the lines
before the first line whose strip is ````` ``` `````. -/
def dropFence (text : List Char) : List Char :=
  let lines := (splitNl text).drop 1
  let lines :=
    match lines.findIdx? (fun l => pyStrip l = ['\x60', '\x60', '\x60']) with
    | some i => lines.take i
    | none => lines
  joinNl lines

/-- The candidate text entering the direct-parse step: stripped input, with a
leading markdown fence removed. -/
def candidateText (response_text : List Char) : List Char :=
  let text := pyStrip response_text
  if ['\x60', '\x60', '\x60'].isPrefixOf text then dropFence text else text

/-- The regex step `re.search(r"\{[\s\S]*\}", text)`: narrow to the span
from the first `{` to the last `}`, when such a span exists. -/
def extractBraces (text : List Char) : List Char :=
  match text.findIdx? (fun c => c = '{') with
  | none => text
  | some i =>
    match text.reverse.findIdx? (fun c => c = '}') with
    | none => text
    | some rj =>
      let j := text.length - 1 - rj
      if i < j then (text.drop i).take (j - i + 1) else text

/-- The character-scanning automaton of `fix_newlines_in_strings`:
`inStr` is the "inside a quoted string" flag, `esc` the "escape pending"
flag; literal LF/CR/TAB inside a string are rewritten to two-character
escapes, everything else is copied. -/
def fixAux : Bool → Bool → List Char → List Char
  | _, _, [] => []
  | inStr, true, c :: rest => c :: fixAux inStr false rest
  | inStr, false, c :: rest =>
    if c = '\\' then c :: fixAux inStr true rest
    else if c = '"' then c :: fixAux (!inStr) false rest
    else if inStr && c = '\n' then '\\' :: 'n' :: fixAux inStr false rest
    else if inStr && c = '\r' then '\\' :: 'r' :: fixAux inStr false rest
    else if inStr && c = '\t' then '\\' :: 't' :: fixAux inStr false rest
    else c :: fixAux inStr false rest

/-- `fix_newlines_in_strings` starts the automaton outside a string. -/
def fix_newlines_in_strings (s : List Char) : List Char := fixAux false false s

/-- Removal of BOM and zero-width-space characters (`.replace` on all
occurrences). -/
def stripBomZw (s : List Char) : List Char :=
  s.filter (fun c => !(c = '\uFEFF' || c = '\u200B'))

/-- One bracket-balancing pass of the truncation repair: append the number
of unmatched `[` as `]`, then the number of unmatched `{` as `}` (the counts
are plain character counts over the whole text, including characters inside
string literals, exactly as in the source). -/
def closeBrackets (r : List Char) : List Char :=
  let bracketCount : Int := (r.count '{' : Int) - (r.count '}' : Int)
  let squareCount : Int := (r.count '[' : Int) - (r.count ']' : Int)
  r ++ List.replicate (max 0 squareCount).toNat ']'
    ++ List.replicate (max 0 bracketCount).toNat '}'

/-- The truncation-repair candidate: escape control characters, close
brackets, and if the total number of `"` characters is odd, append one `"`
and re-balance brackets. -/
def repairTruncated (text : List Char) : List Char :=
  let repaired := fix_newlines_in_strings text
  let repaired := closeBrackets repaired
  if repaired.count '"' % 2 = 1 then closeBrackets (repaired ++ ['"'])
  else repaired

/-- The error raised when every attempt fails: the offset reported by the
final parse attempt, plus the logged context window of the (post-regex)
candidate text. -/
structure JsonErr where
  pos : Nat
  ctx : List Char
deriving Repr

/-- Python `text[max(0, pos - 50) : pos + 50]`. -/
def ctxWindow (text : List Char) (pos : Nat) : List Char :=
  (text.drop (pos - 50)).take (pos + 50 - (pos - 50))

/-- The candidate text after the regex narrowing step (the value of `text`
for every attempt after the direct parse). -/
def extractedText (response_text : List Char) : List Char :=
  extractBraces (candidateText response_text)

/-- Model of `parse_json_response`: fence strip, direct parse, bracket-scoped
extraction, control-character escaping (+ BOM removal), line re-join, then
truncation repair; raises (returns `.error`) only when every attempt fails. -/
def parse_json_response (response_text : List Char) : Except JsonErr J :=
  match jloads false (candidateText response_text) with
  | .ok v => .ok v
  | .error _ =>
    match jloads false (stripBomZw (fix_newlines_in_strings (extractedText response_text))) with
    | .ok v => .ok v
    | .error _ =>
      match jloads false (joinNl (splitNl (extractedText response_text))) with
      | .ok v => .ok v
      | .error _ =>
        match jloads false (repairTruncated (extractedText response_text)) with
        | .ok v => .ok v
        | .error p => .error { pos := p, ctx := ctxWindow (extractedText response_text) p }

/-! ### Configuration (config.py) and provider availability

Each provider's `is_available` is `bool(<KEY>)` on the corresponding
environment value; `bool` of `None` or the empty string is `False`. -/

/-- The four API-key configuration values. -/
structure Config where
  groq_api_key : Option String
  openrouter_api_key : Option String
  google_api_key : Option String
  anthropic_api_key : Option String

/-- Python `bool(x)` for an optional string. -/
def pyBoolStr : Option String → Bool
  | none => false
  | some s => !(s == "")

/-- ASCII lower-casing of one character (model of `str.lower()`). -/
def lowerChar (c : Char) : Char :=
  if 'A' ≤ c ∧ c ≤ 'Z' then Char.ofNat (c.toNat + 32) else c

/-- Model of Python `str.lower()` (ASCII range; the provider names and
configuration values involved are ASCII). -/
def pyLower (s : String) : String := String.mk (s.data.map lowerChar)

/-- Python `model_override or self.model`: the override is used unless it is
`None` or empty (falsy). -/
def pyOrStr (o : Option String) (dflt : String) : String :=
  match o with
  | some s => if s == "" then dflt else s
  | none => dflt

/-! ### LLM Router (services/llm_router.py)

Each provider's `generate_study` performs network I/O, so at the router
level provider behaviour is modelled by an oracle
`String → GenOutcome` from provider name to outcome (the oracle closes
over the reference, passage text and requested model, which the router
passes through unchanged).  The router result is paired with the trace of
provider names on which `generate_study` was invoked, in order, so that
"no other provider is attempted" is a statement about the trace.
An exception escaping the router (possible in explicit-provider mode,
where the call is not wrapped in `try`) is modelled as `Except.error`. -/

/-- Outcome of one `provider.generate_study` call: a returned document, or a
raised exception. -/
inductive GenOutcome where
  | ret : J → GenOutcome
  | exn : String → GenOutcome

/-- `DEFAULT_PROVIDER_ORDER = ["groq", "openrouter", "gemini", "claude"]`. -/
def DEFAULT_PROVIDER_ORDER : List String := ["groq", "openrouter", "gemini", "claude"]

/-- The names for which `get_provider_by_name` returns a provider. -/
def KNOWN_PROVIDERS : List String := ["groq", "openrouter", "gemini", "claude"]

/-- `provider.is_available()` for the provider registered under `name`
(`bool(<KEY>)` of the matching configuration entry). -/
def provider_is_available (cfg : Config) (name : String) : Bool :=
  if name = "groq" then pyBoolStr cfg.groq_api_key
  else if name = "openrouter" then pyBoolStr cfg.openrouter_api_key
  else if name = "gemini" then pyBoolStr cfg.google_api_key
  else if name = "claude" then pyBoolStr cfg.anthropic_api_key
  else false

/-- `get_available_providers`: the static order filtered to the available
providers. -/
def get_available_providers (cfg : Config) : List String :=
  DEFAULT_PROVIDER_ORDER.filter (provider_is_available cfg)

/-- The frontend-to-backend provider name mapping
(`provider_mapping.get(name, name)`). -/
def provider_mapping (name : String) : String :=
  if name = "openrouter" then "openrouter"
  else if name = "anthropic" then "claude"
  else if name = "google" then "gemini"
  else if name = "claude" then "claude"
  else if name = "gemini" then "gemini"
  else if name = "groq" then "groq"
  else name

/-- The aggregate error message when no provider is configured. -/
def noProvidersMsg : String :=
  "No LLM providers configured. Please add at least one API key (GROQ_API_KEY, OPENROUTER_API_KEY, GOOGLE_API_KEY, or ANTHROPIC_API_KEY) to your .env file."

/-- The aggregate error message when every candidate fails. -/
def allFailedMsg : String :=
  "All LLM providers failed. Please try again later or check your API keys."

/-- The auto-mode fallback loop of `generate_study_with_fallback`:
try each provider in order inside `try/except`; an error-flagged document,
a non-dict result (whose `.get` raises `AttributeError`), or an exception
advances to the next provider; the first success is returned. -/
def routerLoop (oracle : String → GenOutcome) :
    List String → (J × String) × List String
  | [] => ((create_error_study allFailedMsg, "error"), [])
  | name :: rest =>
    match oracle name with
    | .exn _ =>
      let r := routerLoop oracle rest
      (r.1, name :: r.2)
    | .ret study =>
      match pyGet study "error" with
      | none =>
        let r := routerLoop oracle rest
        (r.1, name :: r.2)
      | some errv =>
        if pyTruthyOpt errv then
          let r := routerLoop oracle rest
          (r.1, name :: r.2)
        else ((study, name), [name])

/-- The `effective_provider` computation: a non-empty frontend override is
normalized through the alias table; otherwise a global `LLM_PROVIDER` that
is non-empty and not "auto" is used (lower-cased, not normalized). -/
def effectiveProviderOf (llm_provider : String)
    (requested_provider : Option String) : Option String :=
  let fromEnv : Option String :=
    if llm_provider ≠ "" ∧ pyLower llm_provider ≠ "auto" then
      some (pyLower llm_provider)
    else none
  match requested_provider with
  | some rp => if rp ≠ "" then some (provider_mapping (pyLower rp)) else fromEnv
  | none => fromEnv

/-- Model of `generate_study_with_fallback`.  `llm_provider` is the global
`LLM_PROVIDER` configuration string; `requested_provider` the optional
frontend override.  Returns ((document, provider_name), trace). -/
def generate_study_with_fallback (cfg : Config) (llm_provider : String)
    (oracle : String → GenOutcome) (requested_provider : Option String) :
    Except String ((J × String) × List String) :=
  match effectiveProviderOf llm_provider requested_provider with
  | some eff =>
    if ¬ (KNOWN_PROVIDERS.contains eff) then
      .ok ((create_error_study ("Unknown provider: " ++ eff), "error"), [])
    else if ¬ provider_is_available cfg eff then
      .ok ((create_error_study ("Provider " ++ eff ++ " not configured"), "error"), [])
    else
      match oracle eff with
      | .ret study => .ok ((study, eff), [eff])
      | .exn m => .error m
  | none =>
    let providers := get_available_providers cfg
    if providers.isEmpty then
      .ok ((create_error_study noProvidersMsg, "error"), [])
    else .ok (routerLoop oracle providers)

/-! ### The four concrete providers (services/llm_providers/*.py)

Each provider's single network call is modelled by an outcome oracle that
takes the effective model identifier (so which model is requested is
observable) and closes over the prompt built from the reference and
passage.  Each `generate_study` returns the document together with the
list of models on which a network call was issued (one entry per call).
The Python `str(e)` of a `JSONDecodeError` is abbreviated by
`pyJsonErrStr`. -/

/-- Rendering of a `JSONDecodeError` used inside error messages. -/
def pyJsonErrStr (e : JsonErr) : String :=
  "JSONDecodeError at char " ++ toString e.pos

/-- Outcome of a Groq / Gemini network call: response text or exception. -/
inductive SimpleNet where
  | ok : String → SimpleNet
  | exn : String → SimpleNet

/-- Outcome of an OpenRouter call: text, HTTP status failure, or exception. -/
inductive ORNet where
  | ok : String → ORNet
  | httpErr : Nat → ORNet
  | exn : String → ORNet

/-- Outcome of a Claude call: (text, stop_reason, output_tokens), API error,
or other exception. -/
inductive ClaudeNet where
  | ok : String → String → Nat → ClaudeNet
  | apiErr : String → ClaudeNet
  | exn : String → ClaudeNet

/-- `GroqProvider.model`. -/
def groq_model : String := "llama-3.3-70b-versatile"

/-- `OpenRouterProvider.model`. -/
def openrouter_model : String := "meta-llama/llama-3.2-3b-instruct:free"

/-- `GeminiProvider.model`. -/
def gemini_model : String := "gemini-2.0-flash"

/-- `ClaudeProvider.model`. -/
def claude_model : String := "claude-haiku-4-5-20251001"

/-- `GroqProvider.generate_study`. -/
def groq_generate_study (cfg : Config) (net : String → SimpleNet)
    (model_override : Option String) : J × List String :=
  if ¬ pyBoolStr cfg.groq_api_key then
    (create_error_study "Groq API key not configured", [])
  else
    let effective_model := pyOrStr model_override groq_model
    match net effective_model with
    | .ok text =>
      match parse_json_response text.data with
      | .ok study => (study, [effective_model])
      | .error e =>
        (create_error_study ("Failed to parse Groq response: " ++ pyJsonErrStr e),
         [effective_model])
    | .exn m => (create_error_study ("groq error: " ++ m), [effective_model])

/-- `OpenRouterProvider.generate_study`. -/
def openrouter_generate_study (cfg : Config) (net : String → ORNet)
    (model_override : Option String) : J × List String :=
  if ¬ pyBoolStr cfg.openrouter_api_key then
    (create_error_study "OpenRouter API key not configured", [])
  else
    let effective_model := pyOrStr model_override openrouter_model
    match net effective_model with
    | .ok text =>
      match parse_json_response text.data with
      | .ok study => (study, [effective_model])
      | .error e =>
        (create_error_study ("Failed to parse OpenRouter response: " ++ pyJsonErrStr e),
         [effective_model])
    | .httpErr status =>
      (create_error_study ("OpenRouter API error: " ++ toString status),
       [effective_model])
    | .exn m => (create_error_study ("openrouter error: " ++ m), [effective_model])

/-- `GeminiProvider.generate_study`. -/
def gemini_generate_study (cfg : Config) (net : String → SimpleNet)
    (model_override : Option String) : J × List String :=
  if ¬ pyBoolStr cfg.google_api_key then
    (create_error_study "Google API key not configured", [])
  else
    let effective_model := pyOrStr model_override gemini_model
    match net effective_model with
    | .ok text =>
      match parse_json_response text.data with
      | .ok study => (study, [effective_model])
      | .error e =>
        (create_error_study ("Failed to parse Gemini response: " ++ pyJsonErrStr e),
         [effective_model])
    | .exn m => (create_error_study ("gemini error: " ++ m), [effective_model])

/-- `ClaudeProvider.generate_study` (including the truncated-response branch
taken when `stop_reason == "max_tokens"`). -/
def claude_generate_study (cfg : Config) (net : String → ClaudeNet)
    (model_override : Option String) : J × List String :=
  if ¬ pyBoolStr cfg.anthropic_api_key then
    (create_error_study "Anthropic API key not configured", [])
  else
    let effective_model := pyOrStr model_override claude_model
    match net effective_model with
    | .ok text stop_reason output_tokens =>
      if stop_reason == "max_tokens" then
        match parse_json_response text.data with
        | .ok study => (study, [effective_model])
        | .error _ =>
          (create_error_study ("Response truncated (" ++ toString output_tokens
              ++ " tokens). Try a shorter passage or fewer verses."),
           [effective_model])
      else
        match parse_json_response text.data with
        | .ok study => (study, [effective_model])
        | .error e =>
          (create_error_study ("Failed to parse Claude response: " ++ pyJsonErrStr e),
           [effective_model])
    | .apiErr m => (create_error_study ("Claude API error: " ++ m), [effective_model])
    | .exn m => (create_error_study ("claude error: " ++ m), [effective_model])

/-! ### Legacy cache-backed generation path (services/claude_api.py)

This is the function the application routes (`main.py`) actually call for
study generation; it is the only place in the repository where the study
result cache is consulted and populated.  The sqlite-backed
`get_cached_study` / `cache_study` pair is modelled as a key-value
association list threaded through explicitly (`cache_study` is
`INSERT OR REPLACE`). -/

/-- `get_cached_study`: key-value lookup by reference. -/
def cacheGet : List (String × J) → String → Option J
  | [], _ => none
  | (k, v) :: rest, r => if k = r then some v else cacheGet rest r

/-- `cache_study`: `INSERT OR REPLACE` keyed by reference. -/
def cachePut (cache : List (String × J)) (reference : String) (study : J) :
    List (String × J) :=
  (cache.filter (fun p => !(p.1 == reference))) ++ [(reference, study)]

/-- Python `text.split("```")`. -/
def splitFence : List Char → List (List Char)
  | [] => [[]]
  | '\x60' :: '\x60' :: '\x60' :: rest => [] :: splitFence rest
  | c :: rest =>
    match splitFence rest with
    | l :: ls => (c :: l) :: ls
    | [] => [[c]]

/-- The hard-coded "API key not configured" document of `claude_api`. -/
def claude_api_no_key_doc : J :=
  J.obj [
    ("error", J.bool true),
    ("purpose_statement", J.str "Configure your API key to generate studies"),
    ("context", J.str "API key not configured"),
    ("key_themes", J.arr [J.str "Please add ANTHROPIC_API_KEY to your .env file"]),
    ("summary", J.str "Get your API key from console.anthropic.com"),
    ("observation_questions", J.arr [J.obj [("question", J.str "What does the text say?"), ("sample_answer", J.str "Read the passage carefully.")]]),
    ("interpretation_questions", J.arr [J.obj [("question", J.str "What does it mean?"), ("sample_answer", J.str "Consider the context and meaning.")]]),
    ("application_questions", J.arr [J.obj [("question", J.str "How does it apply to your life?")]]),
    ("cross_references", J.arr []),
    ("prayer_prompt", J.str "Pray for understanding as you read God\x27s Word.")
  ]

/-- The `claude_api` error document for a `json.JSONDecodeError`. -/
def claude_api_parse_err_doc (pos : Nat) : J :=
  J.obj [
    ("error", J.bool true),
    ("purpose_statement", J.str "Retry generating the study"),
    ("context", J.str ("Error parsing AI response: JSONDecodeError at char " ++ toString pos)),
    ("key_themes", J.arr [J.str "Error generating study"]),
    ("summary", J.str "Please try refreshing the page."),
    ("observation_questions", J.arr [J.obj [("question", J.str "What does the text say?"), ("sample_answer", J.str "Read the passage carefully.")]]),
    ("interpretation_questions", J.arr [J.obj [("question", J.str "What does it mean?"), ("sample_answer", J.str "Consider the context and meaning.")]]),
    ("application_questions", J.arr [J.obj [("question", J.str "How does it apply to your life?")]]),
    ("cross_references", J.arr []),
    ("prayer_prompt", J.str "Pray for understanding as you read God\x27s Word.")
  ]

/-- The `claude_api` error document for an `anthropic.APIError`. -/
def claude_api_api_err_doc (m : String) : J :=
  J.obj [
    ("error", J.bool true),
    ("purpose_statement", J.str "Check your API configuration"),
    ("context", J.str ("API error: " ++ m)),
    ("key_themes", J.arr [J.str "Error connecting to AI service"]),
    ("summary", J.str "Please check your API key and try again."),
    ("observation_questions", J.arr [J.obj [("question", J.str "What does the text say?"), ("sample_answer", J.str "Read the passage carefully.")]]),
    ("interpretation_questions", J.arr [J.obj [("question", J.str "What does it mean?"), ("sample_answer", J.str "Consider the context and meaning.")]]),
    ("application_questions", J.arr [J.obj [("question", J.str "How does it apply to your life?")]]),
    ("cross_references", J.arr []),
    ("prayer_prompt", J.str "Pray for understanding as you read God\x27s Word.")
  ]

/-- The `claude_api` error document for any other exception. -/
def claude_api_unexpected_err_doc (m : String) : J :=
  J.obj [
    ("error", J.bool true),
    ("purpose_statement", J.str "Investigate the error and try again"),
    ("context", J.str ("Unexpected error: " ++ m)),
    ("key_themes", J.arr [J.str "Error generating study"]),
    ("summary", J.str "An unexpected error occurred."),
    ("observation_questions", J.arr [J.obj [("question", J.str "What does the text say?"), ("sample_answer", J.str "Read the passage carefully.")]]),
    ("interpretation_questions", J.arr [J.obj [("question", J.str "What does it mean?"), ("sample_answer", J.str "Consider the context and meaning.")]]),
    ("application_questions", J.arr [J.obj [("question", J.str "How does it apply to your life?")]]),
    ("cross_references", J.arr []),
    ("prayer_prompt", J.str "Pray for understanding as you read God\x27s Word.")
  ]

/-- The response-text cleaning of `claude_api.generate_study`: strip, then
if the text starts with a fence, take the part between the first two
fences, drop a leading "json" label, and strip again. -/
def legacy_clean_response (raw : List Char) : List Char :=
  let response_text := pyStrip raw
  if ['\x60', '\x60', '\x60'].isPrefixOf response_text then
    let t := ((splitFence response_text).drop 1).headD []
    let t := if "json".data.isPrefixOf t then t.drop 4 else t
    pyStrip t
  else response_text

/-- Outcome of the single Anthropic call of `claude_api.generate_study`. -/
inductive LegacyNet where
  | ok : String → LegacyNet
  | apiErr : String → LegacyNet
  | exn : String → LegacyNet

/-- Model of `claude_api.generate_study`: cache lookup first (returning the
cached document on a hit); on a miss, one Claude call with the fixed model;
the raw text is fence-stripped and parsed with plain `json.loads` (not the
repair pipeline), and a successful parse is written to the cache before
being returned.  Returns (document, updated cache). -/
def claude_api_generate_study (anthropic_api_key : Option String)
    (net : LegacyNet) (cache : List (String × J)) (reference : String) :
    J × List (String × J) :=
  match cacheGet cache reference with
  | some cached => (cached, cache)
  | none =>
    if ¬ pyBoolStr anthropic_api_key then (claude_api_no_key_doc, cache)
    else
      match net with
      | .ok raw =>
        match jloads false (legacy_clean_response raw.data) with
        | .ok study => (study, cachePut cache reference study)
        | .error p => (claude_api_parse_err_doc p, cache)
      | .apiErr m => (claude_api_api_err_doc m, cache)
      | .exn m => (claude_api_unexpected_err_doc m, cache)

/-- A successful candidate outcome in the auto-mode loop: a returned
document that is a dict (so `.get("error")` does not raise) whose error
flag is falsy.  An exception, a non-dict result, or a truthy error flag all
advance the loop. -/
def goodOutcome : GenOutcome → Bool
  | .ret d =>
    match pyGet d "error" with
    | none => false
    | some errv => !(pyTruthyOpt errv)
  | .exn _ => false

/-- Contiguous-sublist search. -/
def listInfixB : List Char → List Char → Bool
  | pat, [] => pat.isEmpty
  | pat, l@(_ :: rest) => pat.isPrefixOf l || listInfixB pat rest

/-- Case-insensitive "the message mentions this name". -/
def msgMentions (name msg : String) : Bool :=
  listInfixB (name.data.map lowerChar) (msg.data.map lowerChar)

/-! ## Theorems -/

/-! ### C10: the error-document constructor -/

/-- **C10** (counterexample): the claim asserts placeholder entries in
*every* list-typed field, including `cross_references`; but at the concrete
message "boom" (as for every message) `create_error_study` sets
`cross_references` to the *empty* list, so the claim as stated is false. -/
theorem c10_counterexample :
    ¬ ∃ x xs, pyGet (create_error_study "boom") "cross_references"
        = some (some (J.arr (x :: xs))) := by
  rintro ⟨x, xs, h⟩
  have h0 : pyGet (create_error_study "boom") "cross_references"
      = some (some (J.arr [])) := rfl
  rw [h0] at h
  simp at h

/-- **C10** (amended): for every message, `create_error_study` returns a
structurally complete document with `error=true`, the message embedded in
the `purpose` and `summary` fields, placeholder entries in the list-typed
fields `key_themes`, `study_flow` and `application_questions`, and an
*empty* `cross_references` list. -/
theorem c10_amended (msg : String) :
    pyGet (create_error_study msg) "error" = some (some (J.bool true)) ∧
    pyGet (create_error_study msg) "purpose" = some (some (J.str ("Error: " ++ msg))) ∧
    pyGet (create_error_study msg) "summary" = some (some (J.str msg)) ∧
    pyGet (create_error_study msg) "context"
      = some (some (J.str "Unable to generate study at this time.")) ∧
    pyGet (create_error_study msg) "key_themes" = some (some (J.arr [J.str "Error"])) ∧
    (∃ section1, pyGet (create_error_study msg) "study_flow"
      = some (some (J.arr [section1]))) ∧
    (∃ q1, pyGet (create_error_study msg) "application_questions"
      = some (some (J.arr [q1]))) ∧
    pyGet (create_error_study msg) "cross_references" = some (some (J.arr [])) ∧
    (∃ p1, pyGet (create_error_study msg) "prayer_prompt" = some (some (J.str p1))) :=
  ⟨rfl, rfl, rfl, rfl, rfl, ⟨_, rfl⟩, ⟨_, rfl⟩, rfl, ⟨_, rfl⟩⟩

/-! ### C3: explicit-provider mode -/

/-- **C3**: in explicit-provider mode (the effective provider resolves to
`eff`, via the alias table for a caller-supplied name or from a non-"auto"
global configuration), an unknown name yields an error document naming the
provider, and a known but unavailable provider yields an error document
naming it as not configured; in both cases the invocation trace is empty —
`generate_study` is never called on any provider, so no fallback occurs. -/
theorem c3_explicit_provider_no_fallback
    (cfg : Config) (llm_provider : String) (oracle : String → GenOutcome)
    (requested_provider : Option String) (eff : String)
    (heff : effectiveProviderOf llm_provider requested_provider = some eff) :
    (KNOWN_PROVIDERS.contains eff = false →
      generate_study_with_fallback cfg llm_provider oracle requested_provider
        = .ok ((create_error_study ("Unknown provider: " ++ eff), "error"), [])) ∧
    (KNOWN_PROVIDERS.contains eff = true →
      provider_is_available cfg eff = false →
      generate_study_with_fallback cfg llm_provider oracle requested_provider
        = .ok ((create_error_study ("Provider " ++ eff ++ " not configured"), "error"), [])) := by
  constructor
  · intro hunknown
    have hm : eff ∉ KNOWN_PROVIDERS := by simpa using hunknown
    simp [generate_study_with_fallback, heff, hm]
  · intro hknown hunavail
    have hm : eff ∈ KNOWN_PROVIDERS := by simpa using hknown
    simp [generate_study_with_fallback, heff, hm, hunavail]

/-- **C3** (witness): the alias `"Anthropic"` normalizes to `claude`; with
no API key configured the router returns the "not configured" error document
and an empty invocation trace. -/
theorem c3_witness :
    effectiveProviderOf "auto" (some "Anthropic") = some "claude" ∧
    generate_study_with_fallback ⟨none, none, none, none⟩ "auto"
        (fun _ => .exn "unused") (some "Anthropic")
      = .ok ((create_error_study "Provider claude not configured", "error"), []) :=
  ⟨rfl,
   (c3_explicit_provider_no_fallback ⟨none, none, none, none⟩ "auto"
      (fun _ => .exn "unused") (some "Anthropic") "claude" rfl).2 rfl rfl⟩


/-! ### C1: auto-mode fallback -/

/-- If every candidate outcome is bad, the loop tries all of them and
returns the aggregate error document. -/
theorem routerLoop_all_fail (oracle : String → GenOutcome) :
    ∀ cands : List String, (∀ c ∈ cands, goodOutcome (oracle c) = false) →
      routerLoop oracle cands = ((create_error_study allFailedMsg, "error"), cands) := by
  intro cands
  induction cands with
  | nil => intro _; rfl
  | cons name rest ih =>
    intro h
    have hn := h name (by simp)
    have hr := ih (fun c hc => h c (by simp [hc]))
    cases ho : oracle name with
    | exn m => simp [routerLoop, ho, hr]
    | ret d =>
      rw [ho] at hn
      simp only [goodOutcome] at hn
      cases hg : pyGet d "error" with
      | none => simp [routerLoop, ho, hg, hr]
      | some errv =>
        rw [hg] at hn
        simp only [Bool.not_eq_false'] at hn
        simp [routerLoop, ho, hg, hn, hr]

/-- The loop returns the first good candidate, invoking exactly the
candidates up to and including it. -/
theorem routerLoop_first_success (oracle : String → GenOutcome)
    (name : String) (post : List String) (d : J)
    (ho : oracle name = .ret d) (hgood : goodOutcome (.ret d) = true) :
    ∀ pre : List String, (∀ c ∈ pre, goodOutcome (oracle c) = false) →
      routerLoop oracle (pre ++ name :: post) = ((d, name), pre ++ [name]) := by
  intro pre
  induction pre with
  | nil =>
    intro _
    rw [goodOutcome] at hgood
    cases hg : pyGet d "error" with
    | none => rw [hg] at hgood; simp at hgood
    | some errv =>
      rw [hg] at hgood
      simp only [Bool.not_eq_true'] at hgood
      simp [routerLoop, ho, hg, hgood]
  | cons c pre ih =>
    intro h
    have hc := h c (by simp)
    have hr := ih (fun b hb => h b (by simp [hb]))
    cases hoc : oracle c with
    | exn m => simp [routerLoop, hoc, hr]
    | ret dc =>
      rw [hoc] at hc
      simp only [goodOutcome] at hc
      cases hg : pyGet dc "error" with
      | none => simp [routerLoop, hoc, hg, hr]
      | some errv =>
        rw [hg] at hc
        simp only [Bool.not_eq_false'] at hc
        simp [routerLoop, hoc, hg, hc, hr]

/-- **C1**: in auto mode (the effective provider resolves to none), the
candidate list is the static order `groq, openrouter, gemini, claude`
filtered to available providers; if it is empty the router returns the
"no backend configured" error document without any invocation; otherwise
the first candidate whose `generate_study` result is a document with falsy
error flag is returned together with its name, with exactly the candidates
up to it invoked (exceptions and error documents both advance); and if
every candidate fails, the aggregate "all providers failed" error document
is returned after invoking all candidates (the "all failed" case presumes
a non-empty candidate list; with no candidates the "no backend" document is
returned instead, per the first conjunct). -/
theorem c1_auto_fallback
    (cfg : Config) (llm_provider : String) (oracle : String → GenOutcome)
    (requested_provider : Option String)
    (hauto : effectiveProviderOf llm_provider requested_provider = none) :
    (get_available_providers cfg = [] →
      generate_study_with_fallback cfg llm_provider oracle requested_provider
        = .ok ((create_error_study noProvidersMsg, "error"), [])) ∧
    (∀ pre name post d, get_available_providers cfg = pre ++ name :: post →
      (∀ c ∈ pre, goodOutcome (oracle c) = false) →
      oracle name = .ret d → goodOutcome (.ret d) = true →
      generate_study_with_fallback cfg llm_provider oracle requested_provider
        = .ok ((d, name), pre ++ [name])) ∧
    (get_available_providers cfg ≠ [] →
      (∀ c ∈ get_available_providers cfg, goodOutcome (oracle c) = false) →
      generate_study_with_fallback cfg llm_provider oracle requested_provider
        = .ok ((create_error_study allFailedMsg, "error"), get_available_providers cfg)) := by
  refine ⟨?_, ?_, ?_⟩
  · intro hempty
    simp [generate_study_with_fallback, hauto, hempty]
  · intro pre name post d hsplit hpre ho hgood
    have hne : (get_available_providers cfg).isEmpty = false := by
      rw [hsplit]; cases pre <;> simp
    simp only [generate_study_with_fallback, hauto, hne, Bool.false_eq_true,
      if_false]
    rw [hsplit, routerLoop_first_success oracle name post d ho hgood pre hpre]
  · intro hne hbad
    have hioe : (get_available_providers cfg).isEmpty = false := by
      simpa [List.isEmpty_iff] using hne
    simp only [generate_study_with_fallback, hauto, hioe, Bool.false_eq_true,
      if_false]
    rw [routerLoop_all_fail oracle _ hbad]

/-- **C1** (witness): three unavailable providers and one available
provider (claude) that succeeds: the returned name is `claude`, the
returned document is the provider document (error flag absent), and only
`claude` was invoked. -/
theorem c1_witness :
    effectiveProviderOf "auto" none = none ∧
    get_available_providers ⟨none, none, none, some "key"⟩ = [] ++ "claude" :: [] ∧
    generate_study_with_fallback ⟨none, none, none, some "key"⟩ "auto"
        (fun _ => .ret (J.obj [("purpose", J.str "ok")])) none
      = .ok ((J.obj [("purpose", J.str "ok")], "claude"), [] ++ ["claude"]) :=
  ⟨rfl, rfl,
   (c1_auto_fallback ⟨none, none, none, some "key"⟩ "auto"
      (fun _ => .ret (J.obj [("purpose", J.str "ok")])) none rfl).2.1
     [] "claude" [] (J.obj [("purpose", J.str "ok")]) rfl (by simp) rfl rfl⟩


/-! ### C2: truncation repair -/

/-- **C2** (evaluation at the failing input): the spec's positive example
works — `{"a": 1, "b": [1,2` is repaired by appending `]}` and parses — but
for a truncated object ending inside an unterminated string literal, such as
`{"a": "xy`, the source appends the closing braces *before* the closing
quote (the quote-parity check uses the total quote count and runs after the
first bracket-balancing pass), producing `{"a": "xy}"`, which does not
parse: `parse_json_response` raises instead of recovering, contradicting
the claim (and spec §8) that truncation repair of an object with an
unterminated final string must produce a parseable document. -/
theorem c2_truncation_repair_behaviour :
    parse_json_response "\x7b\"a\": 1, \"b\": [1,2".data
      = .ok (J.obj [("a", J.num "1"), ("b", J.arr [J.num "1", J.num "2"])]) ∧
    repairTruncated "\x7b\"a\": \"xy".data = "\x7b\"a\": \"xy\x7d\"".data ∧
    parse_json_response "\x7b\"a\": \"xy".data
      = .error { pos := 11, ctx := "\x7b\"a\": \"xy".data } :=
  ⟨rfl, rfl, rfl⟩


/-! ### C8: failure semantics of the repair pipeline -/

/-- **C8**: `parse_json_response` raises if and only if every recovery
attempt fails: the direct parse of the (fence-stripped) candidate, the
parse after bracket-scoped extraction + control-character escaping + BOM
removal, the parse of the re-joined lines, and the parse of the
truncation-repaired text.  On the failure path the raised error carries the
final attempt's approximate character offset together with the logged
context window of the candidate text around it; and a success is always the
result of one of the four actual parse attempts — never a partial or empty
fabrication. -/
theorem c8_error_iff_all_attempts_fail (rt : List Char) :
    ((∃ e, parse_json_response rt = .error e) ↔
      ((jloads false (candidateText rt)).isOk = false ∧
       (jloads false (stripBomZw (fix_newlines_in_strings (extractedText rt)))).isOk = false ∧
       (jloads false (joinNl (splitNl (extractedText rt)))).isOk = false ∧
       (jloads false (repairTruncated (extractedText rt))).isOk = false)) ∧
    (∀ e, parse_json_response rt = .error e →
      jloads false (repairTruncated (extractedText rt)) = .error e.pos ∧
      e.ctx = ctxWindow (extractedText rt) e.pos) ∧
    (∀ v, parse_json_response rt = .ok v →
      jloads false (candidateText rt) = .ok v ∨
      jloads false (stripBomZw (fix_newlines_in_strings (extractedText rt))) = .ok v ∨
      jloads false (joinNl (splitNl (extractedText rt))) = .ok v ∨
      jloads false (repairTruncated (extractedText rt)) = .ok v) := by
  unfold parse_json_response
  cases h1 : jloads false (candidateText rt) with
  | ok v => simp [Except.isOk, Except.toBool]
  | error p1 =>
    cases h2 : jloads false (stripBomZw (fix_newlines_in_strings (extractedText rt))) with
    | ok v => simp [Except.isOk, Except.toBool]
    | error p2 =>
      cases h3 : jloads false (joinNl (splitNl (extractedText rt))) with
      | ok v => simp [Except.isOk, Except.toBool]
      | error p3 =>
        cases h4 : jloads false (repairTruncated (extractedText rt)) with
        | ok v => simp [Except.isOk, Except.toBool]
        | error p4 =>
          refine ⟨by simp [Except.isOk, Except.toBool], ?_, by simp⟩
          intro e he
          simp only [Except.error.injEq] at he
          subst he
          exact ⟨rfl, rfl⟩

/-- **C8** (witness): on input `hello world` every attempt fails, an error
is raised, and it carries offset 0 with the surrounding context window. -/
theorem c8_witness :
    (∃ e, parse_json_response "hello world".data = .error e) ∧
    ((jloads false (candidateText "hello world".data)).isOk = false ∧
     (jloads false (stripBomZw (fix_newlines_in_strings (extractedText "hello world".data)))).isOk = false ∧
     (jloads false (joinNl (splitNl (extractedText "hello world".data)))).isOk = false ∧
     (jloads false (repairTruncated (extractedText "hello world".data))).isOk = false) ∧
    parse_json_response "hello world".data
      = .error { pos := 0, ctx := "hello world".data } :=
  ⟨⟨{ pos := 0, ctx := "hello world".data }, rfl⟩,
   (c8_error_iff_all_attempts_fail "hello world".data).1.mp
     ⟨{ pos := 0, ctx := "hello world".data }, rfl⟩,
   rfl⟩


/-! ### C4: the cache-consulting generation path -/

/-- **C4** (counterexample): the claim attributes cache consultation and
population to the fallback Router, but `generate_study_with_fallback` has
no cache access at all — it always returns the freshly generated document
(first conjunct; its type carries no cache and its result is the provider
document for every cache state).  The only cache-consulting structured
path is the legacy `claude_api.generate_study`, and on a miss it does
*not* try the ordered candidates: with Groq configured and Anthropic not,
the claim predicts the Groq document, but the cache-consulting path
returns its hard-coded key-missing error document without invoking any
backend (second conjunct). -/
theorem c4_counterexample :
    generate_study_with_fallback ⟨some "gk", none, none, none⟩ "auto"
        (fun _ => .ret (J.obj [("purpose", J.str "fresh")])) none
      = .ok ((J.obj [("purpose", J.str "fresh")], "groq"), ["groq"]) ∧
    claude_api_generate_study none (.exn "unused") [] "John 1:1"
      = (claude_api_no_key_doc, []) ∧
    pyGet claude_api_no_key_doc "error" = some (some (J.bool true)) :=
  ⟨rfl, rfl, rfl⟩

/-- **C4** (amended): the result cache is consulted and populated by the
legacy cache-backed path `claude_api.generate_study`, not by the Router:
on a hit the cached document is returned unchanged with no backend call;
on a miss with a configured key, a successfully parsed response is written
to the cache (keyed by the reference) before being returned, and a parse
failure returns an error document without caching.
`generate_study_with_fallback` itself performs no cache access. -/
theorem c4_amended (key : Option String) (net : LegacyNet)
    (cache : List (String × J)) (reference : String) :
    (∀ c, cacheGet cache reference = some c →
      claude_api_generate_study key net cache reference = (c, cache)) ∧
    (cacheGet cache reference = none → pyBoolStr key = true →
      ∀ raw study, net = .ok raw →
        jloads false (legacy_clean_response raw.data) = .ok study →
        claude_api_generate_study key net cache reference
          = (study, cachePut cache reference study)) ∧
    (cacheGet cache reference = none → pyBoolStr key = true →
      ∀ raw p, net = .ok raw →
        jloads false (legacy_clean_response raw.data) = .error p →
        claude_api_generate_study key net cache reference
          = (claude_api_parse_err_doc p, cache)) := by
  refine ⟨?_, ?_, ?_⟩
  · intro c hc
    simp [claude_api_generate_study, hc]
  · intro hmiss hkey raw study hnet hparse
    subst hnet
    simp [claude_api_generate_study, hmiss, hkey, hparse]
  · intro hmiss hkey raw p hnet hparse
    subst hnet
    simp [claude_api_generate_study, hmiss, hkey, hparse]

/-- **C4** (witness): a cache hit returns the cached document unchanged. -/
theorem c4_witness :
    cacheGet [("John 1:1", J.str "cached")] "John 1:1" = some (J.str "cached") ∧
    claude_api_generate_study (some "k") (.exn "unused")
        [("John 1:1", J.str "cached")] "John 1:1"
      = (J.str "cached", [("John 1:1", J.str "cached")]) :=
  ⟨rfl,
   (c4_amended (some "k") (.exn "unused") [("John 1:1", J.str "cached")]
      "John 1:1").1 (J.str "cached") rfl⟩

/-! ### C9: provider-level error handling -/

/-- **C9** (counterexample): on Claude's truncated-response path
(`stop_reason == "max_tokens"` with a response the repair parser cannot
recover), the provider returns an error document whose message does not
carry the provider name in any form — contradicting the claim that every
transport/backend/parse error yields an error document carrying the
provider name. -/
theorem c9_counterexample :
    claude_generate_study ⟨none, none, none, some "k"⟩
        (fun _ => .ok "\x7b\"a\": " "max_tokens" 1234) none
      = (create_error_study
          "Response truncated (1234 tokens). Try a shorter passage or fewer verses.",
         ["claude-haiku-4-5-20251001"]) ∧
    msgMentions "claude"
      "Response truncated (1234 tokens). Try a shorter passage or fewer verses."
      = false ∧
    pyGet (create_error_study
        "Response truncated (1234 tokens). Try a shorter passage or fewer verses.")
      "error" = some (some (J.bool true)) :=
  ⟨rfl, rfl, rfl⟩


/-- **C9** (amended): no concrete provider's `generate_study` ever raises —
each embedded function is total and returns a document on every network
outcome.  When the provider is unavailable, its configuration-error
document is returned with no network call (empty call trace).  When
available, exactly one network call is issued, using the model override
when given (and non-empty) and the provider default otherwise.  A
successfully parsed response is returned as the repair parser produced it.
Every failure path returns `create_error_study` of a message carrying the
error detail, and the message carries the provider name on all
transport/backend/parse error paths *except* Claude's truncated-response
recovery path, whose message reports the truncation and suggests a shorter
passage without naming the provider. -/
theorem c9_amended (cfg : Config) (snet gnet : String → SimpleNet)
    (ornet : String → ORNet) (cnet : String → ClaudeNet) (mo : Option String) :
    (pyBoolStr cfg.groq_api_key = false →
      groq_generate_study cfg snet mo
        = (create_error_study "Groq API key not configured", [])) ∧
    (pyBoolStr cfg.groq_api_key = true →
      (groq_generate_study cfg snet mo).2 = [pyOrStr mo groq_model] ∧
      (∀ t s, snet (pyOrStr mo groq_model) = .ok t →
        parse_json_response t.data = .ok s →
        (groq_generate_study cfg snet mo).1 = s) ∧
      (∀ t e, snet (pyOrStr mo groq_model) = .ok t →
        parse_json_response t.data = .error e →
        (groq_generate_study cfg snet mo).1
          = create_error_study ("Failed to parse Groq response: " ++ pyJsonErrStr e) ∧
        msgMentions "groq" ("Failed to parse Groq response: " ++ pyJsonErrStr e) = true) ∧
      (∀ m, snet (pyOrStr mo groq_model) = .exn m →
        (groq_generate_study cfg snet mo).1 = create_error_study ("groq error: " ++ m) ∧
        msgMentions "groq" ("groq error: " ++ m) = true)) ∧
    (pyBoolStr cfg.openrouter_api_key = false →
      openrouter_generate_study cfg ornet mo
        = (create_error_study "OpenRouter API key not configured", [])) ∧
    (pyBoolStr cfg.openrouter_api_key = true →
      (openrouter_generate_study cfg ornet mo).2 = [pyOrStr mo openrouter_model] ∧
      (∀ t s, ornet (pyOrStr mo openrouter_model) = .ok t →
        parse_json_response t.data = .ok s →
        (openrouter_generate_study cfg ornet mo).1 = s) ∧
      (∀ t e, ornet (pyOrStr mo openrouter_model) = .ok t →
        parse_json_response t.data = .error e →
        (openrouter_generate_study cfg ornet mo).1
          = create_error_study ("Failed to parse OpenRouter response: " ++ pyJsonErrStr e) ∧
        msgMentions "openrouter"
          ("Failed to parse OpenRouter response: " ++ pyJsonErrStr e) = true) ∧
      (∀ status, ornet (pyOrStr mo openrouter_model) = .httpErr status →
        (openrouter_generate_study cfg ornet mo).1
          = create_error_study ("OpenRouter API error: " ++ toString status) ∧
        msgMentions "openrouter" ("OpenRouter API error: " ++ toString status) = true) ∧
      (∀ m, ornet (pyOrStr mo openrouter_model) = .exn m →
        (openrouter_generate_study cfg ornet mo).1
          = create_error_study ("openrouter error: " ++ m) ∧
        msgMentions "openrouter" ("openrouter error: " ++ m) = true)) ∧
    (pyBoolStr cfg.google_api_key = false →
      gemini_generate_study cfg gnet mo
        = (create_error_study "Google API key not configured", [])) ∧
    (pyBoolStr cfg.google_api_key = true →
      (gemini_generate_study cfg gnet mo).2 = [pyOrStr mo gemini_model] ∧
      (∀ t s, gnet (pyOrStr mo gemini_model) = .ok t →
        parse_json_response t.data = .ok s →
        (gemini_generate_study cfg gnet mo).1 = s) ∧
      (∀ t e, gnet (pyOrStr mo gemini_model) = .ok t →
        parse_json_response t.data = .error e →
        (gemini_generate_study cfg gnet mo).1
          = create_error_study ("Failed to parse Gemini response: " ++ pyJsonErrStr e) ∧
        msgMentions "gemini"
          ("Failed to parse Gemini response: " ++ pyJsonErrStr e) = true) ∧
      (∀ m, gnet (pyOrStr mo gemini_model) = .exn m →
        (gemini_generate_study cfg gnet mo).1 = create_error_study ("gemini error: " ++ m) ∧
        msgMentions "gemini" ("gemini error: " ++ m) = true)) ∧
    (pyBoolStr cfg.anthropic_api_key = false →
      claude_generate_study cfg cnet mo
        = (create_error_study "Anthropic API key not configured", [])) ∧
    (pyBoolStr cfg.anthropic_api_key = true →
      (claude_generate_study cfg cnet mo).2 = [pyOrStr mo claude_model] ∧
      (∀ t sr ot s, cnet (pyOrStr mo claude_model) = .ok t sr ot →
        parse_json_response t.data = .ok s →
        (claude_generate_study cfg cnet mo).1 = s) ∧
      (∀ t ot e, cnet (pyOrStr mo claude_model) = .ok t "max_tokens" ot →
        parse_json_response t.data = .error e →
        (claude_generate_study cfg cnet mo).1
          = create_error_study ("Response truncated (" ++ toString ot
              ++ " tokens). Try a shorter passage or fewer verses.")) ∧
      (∀ t sr ot e, cnet (pyOrStr mo claude_model) = .ok t sr ot →
        (sr == "max_tokens") = false →
        parse_json_response t.data = .error e →
        (claude_generate_study cfg cnet mo).1
          = create_error_study ("Failed to parse Claude response: " ++ pyJsonErrStr e) ∧
        msgMentions "claude"
          ("Failed to parse Claude response: " ++ pyJsonErrStr e) = true) ∧
      (∀ m, cnet (pyOrStr mo claude_model) = .apiErr m →
        (claude_generate_study cfg cnet mo).1
          = create_error_study ("Claude API error: " ++ m) ∧
        msgMentions "claude" ("Claude API error: " ++ m) = true) ∧
      (∀ m, cnet (pyOrStr mo claude_model) = .exn m →
        (claude_generate_study cfg cnet mo).1
          = create_error_study ("claude error: " ++ m) ∧
        msgMentions "claude" ("claude error: " ++ m) = true)) := by
  refine ⟨?_, ?_, ?_, ?_, ?_, ?_, ?_, ?_⟩
  · intro h; simp [groq_generate_study, h]
  · intro h
    refine ⟨?_, ?_, ?_, ?_⟩
    · cases hn : snet (pyOrStr mo groq_model) with
      | ok t =>
        cases hp : parse_json_response t.data <;>
          simp [groq_generate_study, h, hn, hp]
      | exn m => simp [groq_generate_study, h, hn]
    · intro t s hn hp; simp [groq_generate_study, h, hn, hp]
    · intro t e hn hp
      exact ⟨by simp [groq_generate_study, h, hn, hp], rfl⟩
    · intro m hn
      exact ⟨by simp [groq_generate_study, h, hn], rfl⟩
  · intro h; simp [openrouter_generate_study, h]
  · intro h
    refine ⟨?_, ?_, ?_, ?_, ?_⟩
    · cases hn : ornet (pyOrStr mo openrouter_model) with
      | ok t =>
        cases hp : parse_json_response t.data <;>
          simp [openrouter_generate_study, h, hn, hp]
      | httpErr status => simp [openrouter_generate_study, h, hn]
      | exn m => simp [openrouter_generate_study, h, hn]
    · intro t s hn hp; simp [openrouter_generate_study, h, hn, hp]
    · intro t e hn hp
      exact ⟨by simp [openrouter_generate_study, h, hn, hp], rfl⟩
    · intro status hn
      exact ⟨by simp [openrouter_generate_study, h, hn], rfl⟩
    · intro m hn
      exact ⟨by simp [openrouter_generate_study, h, hn], rfl⟩
  · intro h; simp [gemini_generate_study, h]
  · intro h
    refine ⟨?_, ?_, ?_, ?_⟩
    · cases hn : gnet (pyOrStr mo gemini_model) with
      | ok t =>
        cases hp : parse_json_response t.data <;>
          simp [gemini_generate_study, h, hn, hp]
      | exn m => simp [gemini_generate_study, h, hn]
    · intro t s hn hp; simp [gemini_generate_study, h, hn, hp]
    · intro t e hn hp
      exact ⟨by simp [gemini_generate_study, h, hn, hp], rfl⟩
    · intro m hn
      exact ⟨by simp [gemini_generate_study, h, hn], rfl⟩
  · intro h; simp [claude_generate_study, h]
  · intro h
    refine ⟨?_, ?_, ?_, ?_, ?_, ?_⟩
    · cases hn : cnet (pyOrStr mo claude_model) with
      | ok t sr ot =>
        cases hsr : (sr == "max_tokens") <;>
          cases hp : parse_json_response t.data <;>
            simp [claude_generate_study, h, hn, hsr, hp]
      | apiErr m => simp [claude_generate_study, h, hn]
      | exn m => simp [claude_generate_study, h, hn]
    · intro t sr ot s hn hp
      cases hsr : (sr == "max_tokens") <;>
        simp [claude_generate_study, h, hn, hsr, hp]
    · intro t ot e hn hp
      simp [claude_generate_study, h, hn, hp]
    · intro t sr ot e hn hsr hp
      exact ⟨by simp [claude_generate_study, h, hn, hsr, hp], rfl⟩
    · intro m hn
      exact ⟨by simp [claude_generate_study, h, hn], rfl⟩
    · intro m hn
      exact ⟨by simp [claude_generate_study, h, hn], rfl⟩

/-- **C9** (witness): a Groq transport exception yields the name-carrying
error document (and no raise), via the amended theorem at a concrete
configuration and oracle. -/
theorem c9_witness :
    (groq_generate_study ⟨some "gk", none, none, none⟩ (fun _ => .exn "boom") none).1
      = create_error_study ("groq error: " ++ "boom") ∧
    msgMentions "groq" ("groq error: " ++ "boom") = true :=
  ((c9_amended ⟨some "gk", none, none, none⟩ (fun _ => .exn "boom")
      (fun _ => .exn "x") (fun _ => .httpErr 500) (fun _ => .exn "y")
      none).2.1 rfl).2.2.2 "boom" rfl


/-! ### C6: markdown-fence stripping -/

/-- `splitNl` always produces at least one piece. -/
theorem splitNl_ne_nil (s : List Char) : splitNl s ≠ [] := by
  induction s with
  | nil => simp [splitNl]
  | cons c rest ih =>
    by_cases hc : c = '\n'
    · simp [splitNl, hc]
    · simp only [splitNl, if_neg hc]
      cases h : splitNl rest with
      | nil => exact absurd h ih
      | cons l ls => simp

/-- Splitting at an explicit separator concatenates the two splits. -/
theorem splitNl_sep (A B : List Char) :
    splitNl (A ++ '\n' :: B) = splitNl A ++ splitNl B := by
  induction A with
  | nil => simp [splitNl]
  | cons c rest ih =>
    by_cases hc : c = '\n'
    · simp [splitNl, hc, ih]
    · cases h : splitNl rest with
      | nil => exact absurd h (splitNl_ne_nil rest)
      | cons l ls => simp [splitNl, hc, ih, h]

/-- A newline-free text is a single line. -/
theorem splitNl_no_nl (A : List Char) (h : '\n' ∉ A) : splitNl A = [A] := by
  induction A with
  | nil => rfl
  | cons c rest ih =>
    have hc : c ≠ '\n' := fun e => h (e ▸ List.mem_cons_self c rest)
    have hrest : '\n' ∉ rest := fun e => h (List.mem_cons_of_mem c e)
    simp [splitNl, hc, ih hrest]

/-- Re-joining the split lines restores the text. -/
theorem joinNl_splitNl (s : List Char) : joinNl (splitNl s) = s := by
  induction s with
  | nil => rfl
  | cons c rest ih =>
    by_cases hc : c = '\n'
    · subst hc
      simp only [splitNl, if_pos rfl]
      cases h : splitNl rest with
      | nil => exact absurd h (splitNl_ne_nil rest)
      | cons l ls =>
        rw [h] at ih
        simp [joinNl, ih]
    · simp only [splitNl, if_neg hc]
      cases h : splitNl rest with
      | nil => exact absurd h (splitNl_ne_nil rest)
      | cons l ls =>
        rw [h] at ih
        cases ls with
        | nil => simp_all [joinNl]
        | cons l2 ls2 => simp_all [joinNl]

/-- `findIdx?` over an append whose left part has no match. -/
theorem findIdx?_append_none {α : Type} (p : α → Bool) (L M : List α)
    (h : ∀ x ∈ L, p x = false) :
    List.findIdx? p (L ++ M) = (List.findIdx? p M).map (· + L.length) := by
  induction L with
  | nil => simp
  | cons a L ih =>
    have ha := h a (List.mem_cons_self a L)
    have hL := ih (fun x hx => h x (List.mem_cons_of_mem a hx))
    simp only [List.cons_append, List.findIdx?_cons, ha, Bool.false_eq_true, if_false,
      List.findIdx?_succ, hL, Option.map_map]
    cases List.findIdx? p M with
    | none => simp
    | some v =>
      simp only [Option.map_some', Function.comp_apply, Option.some.injEq, List.length_cons]
      omega

/-- Left-stripping keeps a text whose first character is not whitespace. -/
theorem pyLStrip_cons_of_neg (c : Char) (A : List Char) (h : isPyWs c = false) :
    pyLStrip (c :: A) = c :: A := by
  simp [pyLStrip, List.dropWhile_cons, h]

/-- Right-stripping keeps a text whose last character is not whitespace. -/
theorem pyRStrip_append_singleton (A : List Char) (c : Char)
    (h : isPyWs c = false) : pyRStrip (A ++ [c]) = A ++ [c] := by
  simp [pyRStrip, List.reverse_append, List.dropWhile_cons, h]

/-- A fence-delimited text is already stripped. -/
theorem pyStrip_fence_wrapped (M : List Char) :
    pyStrip (('\x60' :: M) ++ ['\x60']) = ('\x60' :: M) ++ ['\x60'] := by
  unfold pyStrip
  rw [List.cons_append, pyLStrip_cons_of_neg _ _ (by decide), ← List.cons_append,
      pyRStrip_append_singleton _ _ (by decide)]

/-- The pipelines of two inputs with the same candidate text coincide. -/
theorem parse_json_response_congr (a b : List Char)
    (h : candidateText a = candidateText b) :
    parse_json_response a = parse_json_response b := by
  unfold parse_json_response extractedText
  rw [h]

/-- **C6**: for any inner text `T` (stripped, not itself fence-wrapped, and
containing no line that strips to a closing fence marker) and any
newline-free fence label, `parse_json_response` on the fence-wrapped text
drops the first line and everything from the closing fence on, and the
result equals `parse_json_response` of the unwrapped inner text. -/
theorem c6_fence_strip_transparent (label T : List Char)
    (hlabel : '\n' ∉ label)
    (hT1 : pyStrip T = T)
    (hT2 : (['\x60', '\x60', '\x60'].isPrefixOf T) = false)
    (hT3 : ∀ l ∈ splitNl T, pyStrip l ≠ ['\x60', '\x60', '\x60']) :
    parse_json_response
        (['\x60', '\x60', '\x60'] ++ label ++ '\n' :: T ++ '\n' :: ['\x60', '\x60', '\x60'])
      = parse_json_response T := by
  apply parse_json_response_congr
  have hW : (['\x60', '\x60', '\x60'] ++ label ++ '\n' :: T ++ '\n' :: ['\x60', '\x60', '\x60'])
      = ('\x60' :: ('\x60' :: '\x60' :: label ++ '\n' :: T ++ '\n' :: ['\x60', '\x60'])) ++ ['\x60'] := by
    simp
  have hA : '\n' ∉ ['\x60', '\x60', '\x60'] ++ label := by
    intro hmem
    rcases List.mem_append.mp hmem with hmem | hmem
    · exact absurd hmem (by decide)
    · exact hlabel hmem
  have hsplit : splitNl (['\x60', '\x60', '\x60'] ++ label ++ '\n' :: T ++ '\n' :: ['\x60', '\x60', '\x60'])
      = (['\x60', '\x60', '\x60'] ++ label) :: (splitNl T ++ [['\x60', '\x60', '\x60']]) := by
    rw [show (['\x60', '\x60', '\x60'] ++ label ++ '\n' :: T ++ '\n' :: ['\x60', '\x60', '\x60'])
        = (['\x60', '\x60', '\x60'] ++ label) ++ '\n' :: (T ++ '\n' :: ['\x60', '\x60', '\x60']) by simp]
    rw [splitNl_sep, splitNl_sep]
    rw [splitNl_no_nl (['\x60', '\x60', '\x60'] ++ label) hA,
        splitNl_no_nl ['\x60', '\x60', '\x60'] (by decide)]
    simp
  have hdrop : dropFence (['\x60', '\x60', '\x60'] ++ label ++ '\n' :: T ++ '\n' :: ['\x60', '\x60', '\x60'])
      = T := by
    unfold dropFence
    rw [hsplit]
    simp only [List.drop_succ_cons, List.drop_zero]
    rw [findIdx?_append_none _ (splitNl T) [['\x60', '\x60', '\x60']]
        (fun x hx => decide_eq_false (hT3 x hx))]
    rw [show List.findIdx? (fun l => decide (pyStrip l = ['\x60', '\x60', '\x60']))
        [['\x60', '\x60', '\x60']] = some 0 from rfl]
    simp only [Option.map_some', Nat.zero_add]
    rw [List.take_left]
    exact joinNl_splitNl T
  have hpref : (['\x60', '\x60', '\x60'].isPrefixOf
      (['\x60', '\x60', '\x60'] ++ label ++ '\n' :: T ++ '\n' :: ['\x60', '\x60', '\x60'])) = true := by
    simp [List.isPrefixOf_iff_prefix]
  have hcandW : candidateText
      (['\x60', '\x60', '\x60'] ++ label ++ '\n' :: T ++ '\n' :: ['\x60', '\x60', '\x60']) = T := by
    simp only [candidateText]
    rw [hW, pyStrip_fence_wrapped, ← hW, hpref]
    simp only [if_true]
    exact hdrop
  have hcandT : candidateText T = T := by
    simp only [candidateText]
    rw [hT1, hT2]
    simp
  rw [hcandW, hcandT]

/-- **C6** (witness): the spec's example — a labeled fence around an object
whose string value contains a literal newline — parses to the document with
the single two-line string value. -/
theorem c6_witness :
    parse_json_response
        (['\x60', '\x60', '\x60'] ++ "json".data
          ++ '\n' :: "\x7b\"a\": \"line1\nline2\"\x7d".data
          ++ '\n' :: ['\x60', '\x60', '\x60'])
      = .ok (J.obj [("a", J.str "line1\nline2")]) := by
  rw [c6_fence_strip_transparent "json".data "\x7b\"a\": \"line1\nline2\"\x7d".data
      (by decide) (by decide) (by decide) (by decide)]
  rfl


/-! ### Parser structure lemmas: the string body

A successful parse consumes a well-delimited prefix of the input: the
remainder is a suffix, the consumed part is non-empty with a known last
character, and re-running the parser on the consumed part followed by any
other remainder succeeds with the same value.  These lemmas drive the
claims about whitespace stripping (C7) and control-character escaping
(C5). -/

/-- `getLast?` skips a head in front of a non-empty tail. -/
theorem getLast?_cons_of_ne_nil (a : Char) (l : List Char) (h : l ≠ []) :
    (a :: l).getLast? = l.getLast? := by
  cases l with
  | nil => exact absurd rfl h
  | cons b t => exact List.getLast?_cons_cons

/-- Inversion for `consDecoded`. -/
theorem consDecoded_ok_iff (x : Char) (t : Except Nat (List Char × List Char))
    (cs r : List Char) :
    consDecoded x t = .ok (cs, r) ↔ ∃ cs', cs = x :: cs' ∧ t = .ok (cs', r) := by
  cases t with
  | error p => simp [consDecoded, Except.map]
  | ok p =>
    cases p with
    | mk a b =>
      simp only [consDecoded, Except.map, Except.ok.injEq, Prod.mk.injEq]
      constructor
      · rintro ⟨h1, h2⟩
        exact ⟨a, h1.symm, by simp [h2]⟩
      · rintro ⟨cs', hcs, h1, h2⟩
        exact ⟨by simp [hcs, h1], h2⟩

/-- `parse4hex` consumes exactly four characters. -/
theorem parse4hex_length (s : List Char) (code : Nat) (rest : List Char)
    (h : parse4hex s = some (code, rest)) : rest.length + 4 = s.length := by
  unfold parse4hex at h
  split at h
  · split at h <;> simp_all
  · simp at h

/-- Consumed-prefix decomposition and suffix invariance for `parse4hex`. -/
theorem parse4hex_suffix (s : List Char) (code : Nat) (rest : List Char)
    (h : parse4hex s = some (code, rest)) :
    ∃ p, s = p ++ rest ∧ p.length = 4 ∧ ∀ x, parse4hex (p ++ x) = some (code, x) := by
  unfold parse4hex at h
  split at h
  · rename_i h1 h2 h3 h4 rest'
    split at h
    · rename_i a b c d hx1 hx2 hx3 hx4
      simp only [Option.some.injEq, Prod.mk.injEq] at h
      obtain ⟨hcode, hrest⟩ := h
      subst hcode
      subst hrest
      refine ⟨[h1, h2, h3, h4], rfl, rfl, ?_⟩
      intro x
      simp [parse4hex, hx1, hx2, hx3, hx4]
    · simp at h
  · simp at h

/-- `pu` consumes at least four characters, and re-running it on the
consumed prefix with any other remainder yields the same character. -/
theorem pu_suffix (s : List Char) (ch : Char) (r : List Char)
    (h : pu s = .ok (ch, r)) :
    ∃ pre, s = pre ++ r ∧ 4 ≤ pre.length ∧ ∀ x, pu (pre ++ x) = .ok (ch, x) := by
  unfold pu at h
  split at h
  · simp at h
  · rename_i code rest3 hp4
    obtain ⟨p, hsp, hplen, hpre⟩ := parse4hex_suffix s code rest3 hp4
    split at h
    · rename_i hrange
      simp only [Except.ok.injEq, Prod.mk.injEq] at h
      obtain ⟨hch, hr⟩ := h
      subst hch
      subst hr
      refine ⟨p, hsp, by omega, ?_⟩
      intro x
      simp [pu, hpre x, hrange]
    · rename_i hrange
      split at h
      · rename_i hhi
        split at h
        · rename_i t
          split at h
          · rename_i lo rest4 hp4b
            obtain ⟨p2, hsp2, hplen2, hpre2⟩ := parse4hex_suffix t lo rest4 hp4b
            split at h
            · rename_i hlo
              simp only [Except.ok.injEq, Prod.mk.injEq] at h
              obtain ⟨hch, hr⟩ := h
              subst hch
              subst hr
              refine ⟨p ++ '\\' :: 'u' :: p2, ?_, ?_, ?_⟩
              · rw [hsp, hsp2]
                simp
              · simp
                omega
              · intro x
                rw [show (p ++ '\\' :: 'u' :: p2) ++ x = p ++ ('\\' :: 'u' :: (p2 ++ x)) by simp]
                simp [pu, hpre, hpre2 x, hrange, hhi, hlo]
            · simp at h
          · simp at h
        · simp at h
      · simp at h

/-- Like `pu_suffix`, but just the length bound. -/
theorem pu_lt (s : List Char) (ch : Char) (r : List Char)
    (h : pu s = .ok (ch, r)) : r.length < s.length := by
  obtain ⟨pre, hsp, hlen, _⟩ := pu_suffix s ch r h
  have := congrArg List.length hsp
  simp at this
  omega

/-- The string-body parser does not depend on the fuel once it exceeds the
input length. -/
theorem pstrBody_fuel (lax : Bool) :
    ∀ n, ∀ s : List Char, s.length < n → ∀ m, s.length < m →
      pstrBody lax n s = pstrBody lax m s := by
  intro n
  induction n with
  | zero =>
    intro s hs
    exact absurd hs (Nat.not_lt_zero _)
  | succ n ih =>
    intro s hs m hm
    cases m with
    | zero => exact absurd hm (Nat.not_lt_zero _)
    | succ m =>
      cases s with
      | nil => rfl
      | cons c rest =>
        simp only [List.length_cons] at hs hm
        simp only [pstrBody]
        by_cases hq : c = '"'
        · simp [hq]
        · by_cases hb : c = '\\'
          · simp only [if_neg hq, if_pos hb]
            cases rest with
            | nil => rfl
            | cons e rest2 =>
              simp only [List.length_cons] at hs hm
              cases hesc : escChar? e with
              | some dec =>
                simp only [hesc]
                rw [ih rest2 (by omega) m (by omega)]
              | none =>
                simp only [hesc]
                by_cases hu : e = 'u'
                · simp only [if_pos hu]
                  cases hpu : pu rest2 with
                  | ok pr =>
                    simp only [hpu]
                    have hlt := pu_lt rest2 pr.1 pr.2 (by rw [hpu])
                    rw [ih pr.2 (by omega) m (by omega)]
                  | error q => simp [hpu]
                · simp [hu]
          · simp only [if_neg hq, if_neg hb]
            by_cases hctl : c.toNat < 0x20
            · simp only [if_pos hctl]
              by_cases hlx : (lax && (c = '\n' || c = '\r' || c = '\t')) = true
              · simp only [hlx, if_true]
                rw [ih rest (by omega) m (by omega)]
              · simp only [Bool.not_eq_true] at hlx
                simp [hlx]
            · simp only [if_neg hctl]
              rw [ih rest (by omega) m (by omega)]


/-- Consumed-prefix decomposition and suffix invariance for the
string-body parser: a successful parse consumes a non-empty prefix ending
in the closing quote, and re-running the parser on that prefix with any
other remainder (and sufficient fuel) succeeds with the same contents. -/
theorem pstrBody_suffix (lax : Bool) :
    ∀ n s, s.length < n → ∀ cs r, pstrBody lax n s = .ok (cs, r) →
      ∃ c, s = c ++ r ∧ c ≠ [] ∧ c.getLast? = some '"' ∧
        ∀ r2 m, (c ++ r2).length < m → pstrBody lax m (c ++ r2) = .ok (cs, r2) := by
  intro n
  induction n with
  | zero =>
    intro s hs
    exact absurd hs (Nat.not_lt_zero _)
  | succ n ih =>
    intro s hs cs r h
    cases s with
    | nil => simp [pstrBody] at h
    | cons c rest =>
      simp only [List.length_cons] at hs
      simp only [pstrBody] at h
      by_cases hq : c = '"'
      · rw [if_pos hq] at h
        subst hq
        simp only [Except.ok.injEq, Prod.mk.injEq] at h
        obtain ⟨h1, h2⟩ := h
        subst h1
        subst h2
        refine ⟨['"'], rfl, by simp, rfl, ?_⟩
        intro r2 m hm
        cases m with
        | zero => simp at hm
        | succ m => simp [pstrBody]
      · rw [if_neg hq] at h
        by_cases hb : c = '\\'
        · rw [if_pos hb] at h
          subst hb
          cases rest with
          | nil => simp at h
          | cons e rest2 =>
            simp only [List.length_cons] at hs
            cases hesc : escChar? e with
            | some dec =>
              simp only [hesc] at h
              rw [consDecoded_ok_iff] at h
              obtain ⟨cs', rfl, hp⟩ := h
              obtain ⟨c', hd, hne, hl, hre⟩ := ih rest2 (by omega) cs' r hp
              refine ⟨'\\' :: e :: c', by simp [hd], by simp, ?_, ?_⟩
              · rw [getLast?_cons_of_ne_nil _ _ (by simp),
                    getLast?_cons_of_ne_nil _ _ hne]
                exact hl
              · intro r2 m hm
                cases m with
                | zero => simp at hm
                | succ m =>
                  simp only [List.cons_append, List.length_cons] at hm ⊢
                  simp only [pstrBody]
                  rw [if_neg (by decide), if_true, hesc]
                  rw [hre r2 m (by simp only [List.length_append] at hm ⊢; omega)]
                  rfl
            | none =>
              simp only [hesc] at h
              by_cases hu : e = 'u'
              · rw [if_pos hu] at h
                subst hu
                cases hpu : pu rest2 with
                | error q => rw [hpu] at h; simp at h
                | ok pr =>
                  simp only [hpu] at h
                  rw [consDecoded_ok_iff] at h
                  obtain ⟨cs', rfl, hp⟩ := h
                  obtain ⟨pre, hsp, hplen, hpre⟩ := pu_suffix rest2 pr.1 pr.2 hpu
                  have hlen2 : pr.2.length < n := by
                    have := congrArg List.length hsp
                    simp at this
                    omega
                  obtain ⟨c', hd, hne, hl, hre⟩ := ih pr.2 hlen2 cs' r hp
                  refine ⟨'\\' :: 'u' :: (pre ++ c'), ?_, by simp, ?_, ?_⟩
                  · simp [hsp, hd]
                  · rw [getLast?_cons_of_ne_nil _ _ (by simp),
                        getLast?_cons_of_ne_nil _ _ (by simp [hne]),
                        List.getLast?_append, hl]
                    rfl
                  · intro r2 m hm
                    cases m with
                    | zero => simp at hm
                    | succ m =>
                      simp only [List.cons_append, List.length_cons, List.length_append] at hm ⊢
                      simp only [pstrBody]
                      rw [if_neg (by decide), if_true]
                      simp only [show escChar? 'u' = none from rfl, if_true,
                        List.append_assoc, hpre (c' ++ r2)]
                      rw [hre r2 m (by simp only [List.length_append] at hm ⊢; omega)]
                      rfl
              · rw [if_neg hu] at h
                simp at h
        · rw [if_neg hb] at h
          by_cases hctl : c.toNat < 0x20
          · rw [if_pos hctl] at h
            by_cases hlx : (lax && (c = '\n' || c = '\r' || c = '\t')) = true
            · rw [if_pos hlx] at h
              rw [consDecoded_ok_iff] at h
              obtain ⟨cs', rfl, hp⟩ := h
              obtain ⟨c', hd, hne, hl, hre⟩ := ih rest (by omega) cs' r hp
              refine ⟨c :: c', by simp [hd], by simp, ?_, ?_⟩
              · rw [getLast?_cons_of_ne_nil _ _ hne]
                exact hl
              · intro r2 m hm
                cases m with
                | zero => simp at hm
                | succ m =>
                  simp only [List.cons_append, List.length_cons] at hm ⊢
                  simp only [pstrBody]
                  rw [if_neg hq, if_neg hb, if_pos hctl, if_pos hlx]
                  rw [hre r2 m (by simp only [List.length_append] at hm ⊢; omega)]
                  rfl
            · rw [if_neg hlx] at h
              simp at h
          · rw [if_neg hctl] at h
            rw [consDecoded_ok_iff] at h
            obtain ⟨cs', rfl, hp⟩ := h
            obtain ⟨c', hd, hne, hl, hre⟩ := ih rest (by omega) cs' r hp
            refine ⟨c :: c', by simp [hd], by simp, ?_, ?_⟩
            · rw [getLast?_cons_of_ne_nil _ _ hne]
              exact hl
            · intro r2 m hm
              cases m with
              | zero => simp at hm
              | succ m =>
                simp only [List.cons_append, List.length_cons] at hm ⊢
                simp only [pstrBody]
                rw [if_neg hq, if_neg hb, if_neg hctl]
                rw [hre r2 m (by simp only [List.length_append] at hm ⊢; omega)]
                rfl


/-! ### Parser structure lemmas: numbers and literals -/

/-- Unfolded characterization of `notNumExt`. -/
theorem notNumExt_head (r : List Char) (h : notNumExt r = true) :
    ∀ c ∈ r.head?, c.isDigit = false ∧ c ≠ '.' ∧ c ≠ 'e' ∧ c ≠ 'E' ∧
      c ≠ '+' ∧ c ≠ '-' := by
  intro c hc
  cases r with
  | nil => simp at hc
  | cons a t =>
    simp only [List.head?_cons, Option.mem_def, Option.some.injEq] at hc
    subst hc
    simp only [notNumExt, Bool.not_eq_true', Bool.or_eq_false_iff] at h
    obtain ⟨⟨⟨⟨⟨h1, h2⟩, h3⟩, h4⟩, h5⟩, h6⟩ := h
    refine ⟨h1, ?_, ?_, ?_, ?_, ?_⟩ <;> simp_all

/-- Elements of a `takeWhile` prefix satisfy the predicate. -/
theorem mem_takeWhile_sat (p : Char → Bool) (l : List Char) :
    ∀ a ∈ l.takeWhile p, p a = true :=
  fun _ ha => List.mem_takeWhile_imp ha

/-- The head of a `dropWhile` remainder falsifies the predicate. -/
theorem head_dropWhile_neg (p : Char → Bool) :
    ∀ l : List Char, ∀ a ∈ (l.dropWhile p).head?, p a = false := by
  intro l
  induction l with
  | nil => simp
  | cons c t ih =>
    intro a ha
    cases hp : p c with
    | true => rw [List.dropWhile_cons_of_pos hp] at ha; exact ih a ha
    | false =>
      have hn : ¬ p c = true := by simp [hp]
      rw [List.dropWhile_cons_of_neg hn] at ha
      simp only [List.head?_cons, Option.mem_def, Option.some.injEq] at ha
      subst ha
      exact hp

/-- `takeWhile` over a satisfying prefix followed by a falsifying head. -/
theorem takeWhile_all_append (p : Char → Bool) (d x : List Char)
    (hd : ∀ a ∈ d, p a = true) (hx : ∀ c ∈ x.head?, p c = false) :
    (d ++ x).takeWhile p = d := by
  induction d with
  | nil =>
    cases x with
    | nil => rfl
    | cons c t =>
      have hpc := hx c (by simp)
      have hn : ¬ p c = true := by simp [hpc]
      simp [List.takeWhile_cons_of_neg hn]
  | cons a d ih =>
    have ha := hd a (by simp)
    rw [List.cons_append, List.takeWhile_cons_of_pos ha]
    rw [ih (fun b hb => hd b (by simp [hb]))]

/-- `dropWhile` over a satisfying prefix followed by a falsifying head. -/
theorem dropWhile_all_append (p : Char → Bool) (d x : List Char)
    (hd : ∀ a ∈ d, p a = true) (hx : ∀ c ∈ x.head?, p c = false) :
    (d ++ x).dropWhile p = x := by
  induction d with
  | nil =>
    cases x with
    | nil => rfl
    | cons c t =>
      have hpc := hx c (by simp)
      have hn : ¬ p c = true := by simp [hpc]
      simp [List.dropWhile_cons_of_neg hn]
  | cons a d ih =>
    have ha := hd a (by simp)
    rw [List.cons_append, List.dropWhile_cons_of_pos ha]
    exact ih (fun b hb => hd b (by simp [hb]))

/-- A `getLast?` value of a list is one of its elements. -/
theorem getLast?_mem_char (l : List Char) (a : Char) (h : l.getLast? = some a) :
    a ∈ l :=
  List.mem_of_getLast?_eq_some h

/-- Consumed-prefix decomposition and suffix invariance for the integer
part of the number regex. -/
theorem pintPart_suffix (s ds r : List Char) (h : pintPart s = some (ds, r)) :
    s = ds ++ r ∧ ds ≠ [] ∧ (∀ a ∈ ds, a.isDigit = true) ∧
      ∀ r2, (∀ c ∈ r2.head?, c.isDigit = false) →
        pintPart (ds ++ r2) = some (ds, r2) := by
  cases s with
  | nil => simp [pintPart] at h
  | cons c rest =>
    simp only [pintPart] at h
    by_cases h0 : c = '0'
    · rw [if_pos h0] at h
      subst h0
      simp only [Option.some.injEq, Prod.mk.injEq] at h
      obtain ⟨h1, h2⟩ := h
      subst h1
      subst h2
      exact ⟨rfl, by simp, by simp, fun r2 _ => by simp [pintPart]⟩
    · rw [if_neg h0] at h
      by_cases hdig : c.isDigit = true
      · rw [if_pos hdig] at h
        simp only [digitSpan, Option.some.injEq, Prod.mk.injEq] at h
        obtain ⟨h1, h2⟩ := h
        subst h1
        subst h2
        refine ⟨by simp [List.takeWhile_append_dropWhile], by simp, ?_, ?_⟩
        · intro a ha
          simp only [List.mem_cons] at ha
          rcases ha with rfl | ha
          · exact hdig
          · exact mem_takeWhile_sat Char.isDigit rest a ha
        · intro r2 hr2
          have ht := takeWhile_all_append Char.isDigit
            (List.takeWhile Char.isDigit rest) r2
            (mem_takeWhile_sat Char.isDigit rest) hr2
          have hdp := dropWhile_all_append Char.isDigit
            (List.takeWhile Char.isDigit rest) r2
            (mem_takeWhile_sat Char.isDigit rest) hr2
          rw [List.cons_append]
          simp only [pintPart, digitSpan, if_neg h0, if_pos hdig,
            List.takeWhile_cons_of_pos hdig, List.dropWhile_cons_of_pos hdig,
            ht, hdp]
      · rw [if_neg hdig] at h
        simp at h


/-- `skipWs` drops a (possibly empty) prefix of JSON whitespace and stops
at the first non-whitespace character. -/
theorem skipWs_decomp (s : List Char) :
    ∃ w, s = w ++ skipWs s ∧ (∀ a ∈ w, isJsonWs a = true) ∧
      ∀ a ∈ (skipWs s).head?, isJsonWs a = false := by
  refine ⟨s.takeWhile isJsonWs, ?_, mem_takeWhile_sat isJsonWs s,
    head_dropWhile_neg isJsonWs s⟩
  simp [skipWs, List.takeWhile_append_dropWhile]

/-- Re-running `skipWs` over the same whitespace prefix with any tail that
does not start with whitespace gives that tail back. -/
theorem skipWs_all_append (w x : List Char)
    (hw : ∀ a ∈ w, isJsonWs a = true)
    (hx : ∀ c ∈ x.head?, isJsonWs c = false) : skipWs (w ++ x) = x :=
  dropWhile_all_append isJsonWs w x hw hx

/-- Consumed-prefix decomposition and suffix invariance for the optional
fraction group of the number regex. -/
theorem pfracPart_spec (s f r : List Char) (h : pfracPart s = (f, r)) :
    s = f ++ r ∧ (∀ a ∈ f.head?, a = '.') ∧
      (∀ a ∈ f.getLast?, a.isDigit = true) ∧
      (∀ a ∈ f, a.isDigit = true ∨ a = '.') ∧
      ∀ x, (∀ c ∈ x.head?, c.isDigit = false ∧ ¬ c = '.') →
        pfracPart (f ++ x) = (f, x) := by
  have hnil : ∀ x : List Char, (∀ c ∈ x.head?, c.isDigit = false ∧ ¬ c = '.') →
      pfracPart x = ([], x) := by
    intro x hx
    cases x with
    | nil => rfl
    | cons c t =>
      have := hx c (by simp)
      simp [pfracPart, this.2]
  cases s with
  | nil =>
    simp only [pfracPart, Prod.mk.injEq] at h
    obtain ⟨h1, h2⟩ := h
    subst h1
    subst h2
    exact ⟨rfl, by simp, by simp, by simp, fun x hx => hnil x hx⟩
  | cons c rest =>
    simp only [pfracPart, digitSpan] at h
    by_cases hdot : c = '.'
    · rw [if_pos hdot] at h
      subst hdot
      have hdig := mem_takeWhile_sat Char.isDigit rest
      by_cases hds : rest.takeWhile Char.isDigit = []
      · rw [if_pos hds] at h
        simp only [Prod.mk.injEq] at h
        obtain ⟨h1, h2⟩ := h
        subst h1
        subst h2
        exact ⟨rfl, by simp, by simp, by simp, fun x hx => hnil x hx⟩
      · rw [if_neg hds] at h
        simp only [Prod.mk.injEq] at h
        obtain ⟨h1, h2⟩ := h
        subst h1
        subst h2
        refine ⟨?_, by simp, ?_, ?_, ?_⟩
        · simp [List.takeWhile_append_dropWhile]
        · intro a ha
          rw [getLast?_cons_of_ne_nil _ _ hds] at ha
          exact hdig a (getLast?_mem_char _ a ha)
        · intro a ha
          rcases List.mem_cons.mp ha with rfl | ha
          · exact Or.inr rfl
          · exact Or.inl (hdig a ha)
        · intro x hx
          have hx2 : ∀ c ∈ x.head?, Char.isDigit c = false :=
            fun c hc => (hx c hc).1
          have ht := takeWhile_all_append Char.isDigit
            (rest.takeWhile Char.isDigit) x hdig hx2
          have hdp := dropWhile_all_append Char.isDigit
            (rest.takeWhile Char.isDigit) x hdig hx2
          obtain ⟨d, ds, hcons⟩ : ∃ d ds,
              rest.takeWhile Char.isDigit = d :: ds := by
            cases hc : rest.takeWhile Char.isDigit with
            | nil => exact absurd hc hds
            | cons d ds => exact ⟨d, ds, rfl⟩
          have hd_dig : d.isDigit = true := hdig d (by rw [hcons]; simp)
          rw [hcons] at ht hdp ⊢
          rw [List.cons_append, List.takeWhile_cons_of_pos hd_dig] at ht
          rw [List.cons_append, List.dropWhile_cons_of_pos hd_dig] at hdp
          simp only [List.cons.injEq, true_and] at ht
          simp only [List.cons_append, pfracPart, if_pos rfl, digitSpan]
          rw [List.takeWhile_cons_of_pos hd_dig,
            List.dropWhile_cons_of_pos hd_dig, ht, hdp]
          simp
    · rw [if_neg hdot] at h
      simp only [Prod.mk.injEq] at h
      obtain ⟨h1, h2⟩ := h
      subst h1
      subst h2
      exact ⟨rfl, by simp, by simp, by simp, fun x hx => hnil x hx⟩


/-- Consumed-prefix decomposition and suffix invariance for the optional
exponent group of the number regex. -/
theorem pexpPart_spec (s e r : List Char) (h : pexpPart s = (e, r)) :
    s = e ++ r ∧ (∀ a ∈ e.head?, a = 'e' ∨ a = 'E') ∧
      (∀ a ∈ e.getLast?, a.isDigit = true) ∧
      (∀ a ∈ e, a.isDigit = true ∨ a = 'e' ∨ a = 'E' ∨ a = '+' ∨ a = '-') ∧
      ∀ x, (∀ c ∈ x.head?, c.isDigit = false ∧ ¬ c = 'e' ∧ ¬ c = 'E') →
        pexpPart (e ++ x) = (e, x) := by
  have hnil : ∀ x : List Char,
      (∀ c ∈ x.head?, c.isDigit = false ∧ ¬ c = 'e' ∧ ¬ c = 'E') →
      pexpPart x = ([], x) := by
    intro x hx
    cases x with
    | nil => rfl
    | cons c t =>
      have := hx c (by simp)
      simp [pexpPart, this.2.1, this.2.2]
  cases s with
  | nil =>
    simp only [pexpPart, Prod.mk.injEq] at h
    obtain ⟨h1, h2⟩ := h
    subst h1
    subst h2
    exact ⟨rfl, by simp, by simp, by simp, fun x hx => hnil x hx⟩
  | cons c rest =>
    simp only [pexpPart, digitSpan] at h
    by_cases he : c = 'e' ∨ c = 'E'
    · have hcond : (decide (c = 'e') || decide (c = 'E')) = true := by
        rcases he with h1 | h1 <;> simp [h1]
      rw [hcond, if_pos rfl] at h
      cases rest with
      | nil =>
        simp only [Prod.mk.injEq] at h
        obtain ⟨h1, h2⟩ := h
        subst h1
        subst h2
        exact ⟨rfl, by simp, by simp, by simp, fun x hx => hnil x hx⟩
      | cons sgn rest2 =>
        dsimp only at h
        by_cases hsgn : sgn = '+' ∨ sgn = '-'
        · have hscond : (decide (sgn = '+') || decide (sgn = '-')) = true := by
            rcases hsgn with h1 | h1 <;> simp [h1]
          rw [hscond, if_pos rfl] at h
          have hdig := mem_takeWhile_sat Char.isDigit rest2
          by_cases hds : rest2.takeWhile Char.isDigit = []
          · rw [if_pos hds] at h
            simp only [Prod.mk.injEq] at h
            obtain ⟨h1, h2⟩ := h
            subst h1
            subst h2
            exact ⟨rfl, by simp, by simp, by simp, fun x hx => hnil x hx⟩
          · rw [if_neg hds] at h
            simp only [Prod.mk.injEq] at h
            obtain ⟨h1, h2⟩ := h
            subst h1
            subst h2
            refine ⟨?_, ?_, ?_, ?_, ?_⟩
            · simp [List.takeWhile_append_dropWhile]
            · intro a ha
              simp only [List.head?_cons, Option.mem_def,
                Option.some.injEq] at ha
              subst ha
              exact he
            · intro a ha
              rw [getLast?_cons_of_ne_nil _ _ (by simp),
                getLast?_cons_of_ne_nil _ _ hds] at ha
              exact hdig a (getLast?_mem_char _ a ha)
            · intro a ha
              rcases List.mem_cons.mp ha with rfl | ha
              · rcases he with hk | hk <;> subst hk <;> simp
              · rcases List.mem_cons.mp ha with rfl | ha
                · rcases hsgn with hk | hk <;> subst hk <;> simp
                · exact Or.inl (hdig a ha)
            · intro x hx
              have hx2 : ∀ d ∈ x.head?, Char.isDigit d = false :=
                fun d hd => (hx d hd).1
              have ht := takeWhile_all_append Char.isDigit
                (rest2.takeWhile Char.isDigit) x hdig hx2
              have hdp := dropWhile_all_append Char.isDigit
                (rest2.takeWhile Char.isDigit) x hdig hx2
              obtain ⟨d, ds, hcons⟩ : ∃ d ds,
                  rest2.takeWhile Char.isDigit = d :: ds := by
                cases hc : rest2.takeWhile Char.isDigit with
                | nil => exact absurd hc hds
                | cons d ds => exact ⟨d, ds, rfl⟩
              have hd_dig : d.isDigit = true := hdig d (by rw [hcons]; simp)
              rw [hcons] at ht hdp ⊢
              rw [List.cons_append, List.takeWhile_cons_of_pos hd_dig] at ht
              rw [List.cons_append, List.dropWhile_cons_of_pos hd_dig] at hdp
              simp only [List.cons.injEq, true_and] at ht
              simp only [List.cons_append, pexpPart, digitSpan]
              rw [hcond, if_pos rfl, hscond, if_pos rfl]
              rw [List.takeWhile_cons_of_pos hd_dig,
                List.dropWhile_cons_of_pos hd_dig, ht, hdp]
              simp
        · have hscond : (decide (sgn = '+') || decide (sgn = '-')) = false := by
            push_neg at hsgn
            simp [hsgn.1, hsgn.2]
          rw [hscond, if_neg (by decide)] at h
          have hdig := mem_takeWhile_sat Char.isDigit (sgn :: rest2)
          by_cases hds : (sgn :: rest2).takeWhile Char.isDigit = []
          · rw [if_pos hds] at h
            simp only [Prod.mk.injEq] at h
            obtain ⟨h1, h2⟩ := h
            subst h1
            subst h2
            exact ⟨rfl, by simp, by simp, by simp, fun x hx => hnil x hx⟩
          · rw [if_neg hds] at h
            simp only [Prod.mk.injEq] at h
            obtain ⟨h1, h2⟩ := h
            subst h1
            subst h2
            refine ⟨?_, ?_, ?_, ?_, ?_⟩
            · simp [List.takeWhile_append_dropWhile]
            · intro a ha
              simp only [List.head?_cons, Option.mem_def,
                Option.some.injEq] at ha
              subst ha
              exact he
            · intro a ha
              rw [getLast?_cons_of_ne_nil _ _ hds] at ha
              exact hdig a (getLast?_mem_char _ a ha)
            · intro a ha
              rcases List.mem_cons.mp ha with rfl | ha
              · rcases he with hk | hk <;> subst hk <;> simp
              · exact Or.inl (hdig a ha)
            · intro x hx
              have hx2 : ∀ d ∈ x.head?, Char.isDigit d = false :=
                fun d hd => (hx d hd).1
              have ht := takeWhile_all_append Char.isDigit
                ((sgn :: rest2).takeWhile Char.isDigit) x hdig hx2
              have hdp := dropWhile_all_append Char.isDigit
                ((sgn :: rest2).takeWhile Char.isDigit) x hdig hx2
              obtain ⟨d, ds, hcons⟩ : ∃ d ds,
                  (sgn :: rest2).takeWhile Char.isDigit = d :: ds := by
                cases hc : (sgn :: rest2).takeWhile Char.isDigit with
                | nil => exact absurd hc hds
                | cons d ds => exact ⟨d, ds, rfl⟩
              have hd_dig : d.isDigit = true := hdig d (by rw [hcons]; simp)
              have hdsgn : d = sgn := by
                have := hcons
                rw [List.takeWhile_cons] at this
                by_cases hp : Char.isDigit sgn = true
                · rw [if_pos (by rw [hp])] at this
                  exact (List.cons.injEq .. ▸ this).1.symm
                · rw [if_neg (by simp [hp])] at this
                  exact absurd this.symm (List.cons_ne_nil d ds)
              have hsd : (decide (d = '+') || decide (d = '-')) = false := by
                subst hdsgn
                push_neg at hsgn
                simp [hsgn.1, hsgn.2]
              rw [hcons] at ht hdp ⊢
              rw [List.cons_append, List.takeWhile_cons_of_pos hd_dig] at ht
              rw [List.cons_append, List.dropWhile_cons_of_pos hd_dig] at hdp
              simp only [List.cons.injEq, true_and] at ht
              simp only [List.cons_append, pexpPart, digitSpan]
              rw [hcond, if_pos rfl, hsd, if_neg (by decide)]
              rw [List.takeWhile_cons_of_pos hd_dig,
                List.dropWhile_cons_of_pos hd_dig, ht, hdp]
              simp
    · have hcond : (decide (c = 'e') || decide (c = 'E')) = false := by
        push_neg at he
        simp [he.1, he.2]
      rw [hcond, if_neg (by decide)] at h
      simp only [Prod.mk.injEq] at h
      obtain ⟨h1, h2⟩ := h
      subst h1
      subst h2
      exact ⟨rfl, by simp, by simp, by simp, fun x hx => hnil x hx⟩


/-- Propagate a head property through an append, by cases on whether the
left part is empty. -/
theorem head_append_cases (P : Char → Prop) (l x : List Char)
    (hl : ∀ a ∈ l.head?, P a) (hx : l = [] → ∀ a ∈ x.head?, P a) :
    ∀ a ∈ (l ++ x).head?, P a := by
  cases l with
  | nil => simpa using hx rfl
  | cons c t =>
    intro a ha
    simp only [List.cons_append, List.head?_cons, Option.mem_def,
      Option.some.injEq] at ha
    exact ha ▸ hl c (by simp)

/-- Propagate a last-element property through an append, by cases on
whether the right part is empty. -/
theorem getLast_append_cases (P : Char → Prop) (l x : List Char)
    (hx : ∀ a ∈ x.getLast?, P a) (hl : ∀ a ∈ l.getLast?, P a) :
    ∀ a ∈ (l ++ x).getLast?, P a := by
  intro a ha
  rw [List.getLast?_append] at ha
  cases hxe : x.getLast? with
  | none => rw [hxe, Option.none_or] at ha; exact hl a ha
  | some b =>
    rw [hxe, Option.or_some] at ha
    simp only [Option.mem_def, Option.some.injEq] at ha
    exact ha ▸ hx b (by rw [hxe]; rfl)

/-- Assembly facts shared by both sign cases of `pnum`: how the fraction
and exponent groups decompose the remainder after the integer part, the
digit at the end of the full lexeme, and the three rerun equations under a
remainder that cannot extend a number. -/
theorem pnum_assemble (ds rint : List Char)
    (hdig : ∀ a ∈ ds, a.isDigit = true)
    (hre : ∀ x, (∀ c ∈ x.head?, Char.isDigit c = false) →
      pintPart (ds ++ x) = some (ds, x)) :
    rint = (pfracPart rint).1 ++
        ((pexpPart (pfracPart rint).2).1 ++ (pexpPart (pfracPart rint).2).2) ∧
    (∀ a ∈ (ds ++ (pfracPart rint).1 ++
        (pexpPart (pfracPart rint).2).1).getLast?, a.isDigit = true) ∧
    (∀ a ∈ (pfracPart rint).1, a.isDigit = true ∨ a = '.') ∧
    (∀ a ∈ (pexpPart (pfracPart rint).2).1,
      a.isDigit = true ∨ a = 'e' ∨ a = 'E' ∨ a = '+' ∨ a = '-') ∧
    ∀ r2, notNumExt r2 = true →
      pintPart (ds ++ ((pfracPart rint).1 ++
          ((pexpPart (pfracPart rint).2).1 ++ r2))) =
        some (ds, (pfracPart rint).1 ++ ((pexpPart (pfracPart rint).2).1 ++ r2)) ∧
      pfracPart ((pfracPart rint).1 ++ ((pexpPart (pfracPart rint).2).1 ++ r2)) =
        ((pfracPart rint).1, (pexpPart (pfracPart rint).2).1 ++ r2) ∧
      pexpPart ((pexpPart (pfracPart rint).2).1 ++ r2) =
        ((pexpPart (pfracPart rint).2).1, r2) := by
  obtain ⟨hf1, hf2, hf3, hfAll, hf4⟩ :=
    pfracPart_spec rint (pfracPart rint).1 (pfracPart rint).2 rfl
  obtain ⟨he1, he2, he3, heAll, he4⟩ :=
    pexpPart_spec (pfracPart rint).2 (pexpPart (pfracPart rint).2).1
      (pexpPart (pfracPart rint).2).2 rfl
  refine ⟨?_, ?_, hfAll, heAll, ?_⟩
  · rw [← he1, ← hf1]
  · refine getLast_append_cases _ _ _ he3 ?_
    refine getLast_append_cases _ _ _ hf3 ?_
    intro a ha
    exact hdig a (getLast?_mem_char _ a ha)
  · intro r2 hnn
    have hr2 := notNumExt_head r2 hnn
    have hEx : ∀ c ∈ ((pexpPart (pfracPart rint).2).1 ++ r2).head?,
        Char.isDigit c = false ∧ ¬ c = '.' := by
      refine head_append_cases _ _ _ ?_ ?_
      · intro a ha
        rcases he2 a ha with h1 | h1 <;> subst h1 <;> exact ⟨by decide, by decide⟩
      · intro _ a ha
        obtain ⟨h1, h2, _⟩ := hr2 a ha
        exact ⟨h1, h2⟩
    have hFEx : ∀ c ∈ ((pfracPart rint).1 ++
        ((pexpPart (pfracPart rint).2).1 ++ r2)).head?, Char.isDigit c = false := by
      refine head_append_cases _ _ _ ?_ ?_
      · intro a ha
        have := hf2 a ha
        subst this
        decide
      · intro _ a ha
        exact (hEx a ha).1
    have hEcond : ∀ c ∈ r2.head?,
        Char.isDigit c = false ∧ ¬ c = 'e' ∧ ¬ c = 'E' := by
      intro c hc
      obtain ⟨h1, _, h3, h4, _⟩ := hr2 c hc
      exact ⟨h1, h3, h4⟩
    exact ⟨hre _ hFEx, hf4 _ hEx, he4 _ hEcond⟩


/-- Consumed-prefix decomposition and suffix invariance for the number
lexer: a successful match consumes a non-empty lexeme that starts with a
minus sign or a digit (a digit right after any minus sign), ends in a
digit, and re-running the lexer on that lexeme with any remainder that
cannot extend a number succeeds identically. -/
theorem pnum_spec (s lx r : List Char) (h : pnum s = some (lx, r)) :
    s = lx ++ r ∧ lx ≠ [] ∧
      (∀ a ∈ lx.head?, a = '-' ∨ a.isDigit = true) ∧
      (∀ a ∈ lx.getLast?, a.isDigit = true) ∧
      (∀ t, lx = '-' :: t → ∃ d t2, t = d :: t2 ∧ d.isDigit = true) ∧
      (∀ a ∈ lx, a.isDigit = true ∨ a = '.' ∨ a = 'e' ∨ a = 'E' ∨
        a = '+' ∨ a = '-') ∧
      ∀ r2, notNumExt r2 = true → pnum (lx ++ r2) = some (lx, r2) := by
  cases s with
  | nil => simp [pnum] at h
  | cons c rest =>
    simp only [pnum] at h
    by_cases hneg : c = '-'
    · rw [if_pos hneg] at h
      subst hneg
      cases hint : pintPart rest with
      | none => rw [hint] at h; simp at h
      | some p =>
        obtain ⟨ds, rint⟩ := p
        rw [hint] at h
        simp only [Option.map_some', Option.some.injEq, Prod.mk.injEq] at h
        obtain ⟨hlx, hr⟩ := h
        obtain ⟨hi1, hi2, hi3, hi4⟩ := pintPart_suffix rest ds rint hint
        obtain ⟨ha1, ha2, haF, haE, ha3⟩ := pnum_assemble ds rint hi3 hi4
        obtain ⟨d, ds2, hds⟩ : ∃ d ds2, ds = d :: ds2 := by
          cases hc : ds with
          | nil => exact absurd hc hi2
          | cons d ds2 => exact ⟨d, ds2, rfl⟩
        subst hlx
        subst hr
        refine ⟨?_, by simp, by simp, ?_, ?_, ?_, ?_⟩
        · simp only [List.cons_append, List.append_assoc]
          rw [← ha1, ← hi1]
        · intro a ha
          rw [List.cons_append, List.cons_append,
            getLast?_cons_of_ne_nil _ _ (by simp [hds])] at ha
          exact ha2 a ha
        · intro t ht
          simp only [List.cons_append, List.cons.injEq, true_and] at ht
          refine ⟨d, ds2 ++ ((pfracPart rint).1 ++ (pexpPart (pfracPart rint).2).1),
            ?_, hi3 d (by simp [hds])⟩
          rw [← ht, hds]
          simp [List.append_assoc]
        · intro a ha
          simp only [List.cons_append, List.mem_cons, List.mem_append] at ha
          rcases ha with rfl | ((ha | ha) | ha)
          · simp
          · exact Or.inl (hi3 a ha)
          · rcases haF a ha with hk | hk
            · exact Or.inl hk
            · simp [hk]
          · rcases haE a ha with hk | hk | hk | hk | hk <;> simp [hk]
        · intro r2 hnn
          obtain ⟨hb1, hb2, hb3⟩ := ha3 r2 hnn
          simp only [List.cons_append, List.append_assoc]
          simp only [pnum, if_pos rfl]
          rw [hb1]
          simp [hb2, hb3, List.append_assoc]
    · rw [if_neg hneg] at h
      cases hint : pintPart (c :: rest) with
      | none => rw [hint] at h; simp at h
      | some p =>
        obtain ⟨ds, rint⟩ := p
        rw [hint] at h
        simp only [Option.some.injEq, Prod.mk.injEq] at h
        obtain ⟨hlx, hr⟩ := h
        obtain ⟨hi1, hi2, hi3, hi4⟩ := pintPart_suffix (c :: rest) ds rint hint
        obtain ⟨ha1, ha2, haF, haE, ha3⟩ := pnum_assemble ds rint hi3 hi4
        obtain ⟨d, ds2, hds⟩ : ∃ d ds2, ds = d :: ds2 := by
          cases hc : ds with
          | nil => exact absurd hc hi2
          | cons d ds2 => exact ⟨d, ds2, rfl⟩
        have hd_dig : d.isDigit = true := hi3 d (by simp [hds])
        have hdne : ¬ d = '-' := by
          intro hdd
          rw [hdd] at hd_dig
          simp [Char.isDigit] at hd_dig
        subst hlx
        subst hr
        refine ⟨?_, ?_, ?_, ?_, ?_, ?_, ?_⟩
        · simp only [List.append_assoc]
          rw [← ha1, ← hi1]
        · simp [hds]
        · intro a ha
          rw [hds] at ha
          simp only [List.cons_append, List.head?_cons, Option.mem_def,
            Option.some.injEq] at ha
          exact ha ▸ Or.inr hd_dig
        · intro a ha
          exact ha2 a ha
        · intro t ht
          exfalso
          rw [hds] at ht
          simp only [List.cons_append, List.cons.injEq] at ht
          exact hdne ht.1
        · intro a ha
          simp only [List.mem_append] at ha
          rcases ha with (ha | ha) | ha
          · exact Or.inl (hi3 a ha)
          · rcases haF a ha with hk | hk
            · exact Or.inl hk
            · simp [hk]
          · rcases haE a ha with hk | hk | hk | hk | hk <;> simp [hk]
        · intro r2 hnn
          obtain ⟨hb1, hb2, hb3⟩ := ha3 r2 hnn
          rw [hds] at hb1 ⊢
          simp only [List.cons_append, List.append_assoc] at hb1 ⊢
          simp only [pnum, if_neg hdne]
          rw [hb1]
          simp [hb2, hb3, List.append_assoc]


/-- A successful literal match consumes exactly the literal, yields the
fixed value, and is insensitive to what follows the literal. -/
theorem plit_spec (lit : List Char) (v : J) (s : List Char) (w : J)
    (r : List Char) (h : plit lit v s = .ok (w, r)) :
    w = v ∧ s = lit ++ r ∧
      ∀ r2 : List Char, plit lit v (lit ++ r2) = .ok (v, r2) := by
  simp only [plit] at h
  by_cases hp : lit.isPrefixOf s = true
  · rw [if_pos hp] at h
    simp only [Except.ok.injEq, Prod.mk.injEq] at h
    obtain ⟨h1, h2⟩ := h
    obtain ⟨t, ht⟩ := List.isPrefixOf_iff_prefix.mp hp
    refine ⟨h1.symm, ?_, ?_⟩
    · rw [← h2, ← ht, List.drop_left]
    · intro r2
      simp only [plit]
      rw [if_pos (List.isPrefixOf_iff_prefix.mpr (List.prefix_append lit r2)),
        List.drop_left]
  · rw [if_neg hp] at h
    simp at h

/-- A digit has code point between 48 and 57. -/
theorem isDigit_toNat (c : Char) (h : c.isDigit = true) :
    48 ≤ c.toNat ∧ c.toNat ≤ 57 := by
  simp only [Char.isDigit, Bool.and_eq_true, decide_eq_true_eq] at h
  obtain ⟨h1, h2⟩ := h
  rw [ge_iff_le, UInt32.le_def, BitVec.le_def] at h1
  rw [UInt32.le_def, BitVec.le_def] at h2
  exact ⟨by simpa using h1, by simpa using h2⟩

/-- Membership characterisation of the Python whitespace class in terms of
code points. -/
theorem isPyWs_toNat (c : Char) (h : isPyWs c = true) :
    c.toNat = 0x20 ∨ c.toNat = 0x9 ∨ c.toNat = 0xa ∨ c.toNat = 0xb ∨
    c.toNat = 0xc ∨ c.toNat = 0xd ∨ c.toNat = 0x1c ∨ c.toNat = 0x1d ∨
    c.toNat = 0x1e ∨ c.toNat = 0x1f ∨ c.toNat = 0x85 ∨ c.toNat = 0xa0 ∨
    c.toNat = 0x1680 ∨ (0x2000 ≤ c.toNat ∧ c.toNat ≤ 0x200a) ∨
    c.toNat = 0x2028 ∨ c.toNat = 0x2029 ∨ c.toNat = 0x202f ∨
    c.toNat = 0x205f ∨ c.toNat = 0x3000 := by
  simp only [isPyWs, Bool.or_eq_true, Bool.and_eq_true, decide_eq_true_eq] at h
  tauto

/-- A digit is not Python whitespace. -/
theorem isPyWs_of_isDigit (c : Char) (h : c.isDigit = true) :
    isPyWs c = false := by
  cases hw : isPyWs c with
  | false => rfl
  | true =>
    exfalso
    obtain ⟨h1, h2⟩ := isDigit_toNat c h
    rcases isPyWs_toNat c hw with hk|hk|hk|hk|hk|hk|hk|hk|hk|hk|hk|hk|hk|hk|hk|hk|hk|hk|hk <;>
      omega

/-- A digit is not JSON whitespace. -/
theorem isJsonWs_of_isDigit (c : Char) (h : c.isDigit = true) :
    isJsonWs c = false := by
  cases hw : isJsonWs c with
  | false => rfl
  | true =>
    exfalso
    simp only [isJsonWs, Bool.or_eq_true, decide_eq_true_eq] at hw
    rcases hw with ((hk|hk)|hk)|hk <;> subst hk <;> simp [Char.isDigit] at h

/-- JSON whitespace is Python whitespace. -/
theorem isPyWs_of_isJsonWs (c : Char) (h : isJsonWs c = true) :
    isPyWs c = true := by
  simp only [isJsonWs, Bool.or_eq_true, decide_eq_true_eq] at h
  rcases h with ((hk|hk)|hk)|hk <;> subst hk <;> decide

/-- A value-start character is not Python whitespace. -/
theorem isPyWs_of_isStartChar (c : Char) (h : isStartChar c = true) :
    isPyWs c = false := by
  simp only [isStartChar, Bool.or_eq_true, decide_eq_true_eq] at h
  rcases h with ((((((((hk|hk)|hk)|hk)|hk)|hk)|hk)|hk)|hk)|hk
  case inr => exact isPyWs_of_isDigit c hk
  all_goals subst hk <;> decide

/-- A value-start character is not JSON whitespace. -/
theorem isJsonWs_of_isStartChar (c : Char) (h : isStartChar c = true) :
    isJsonWs c = false := by
  simp only [isStartChar, Bool.or_eq_true, decide_eq_true_eq] at h
  rcases h with ((((((((hk|hk)|hk)|hk)|hk)|hk)|hk)|hk)|hk)|hk
  case inr => exact isJsonWs_of_isDigit c hk
  all_goals subst hk <;> decide

/-- A value-start character is not a backtick. -/
theorem ne_backtick_of_isStartChar (c : Char) (h : isStartChar c = true) :
    ¬ c = '\x60' := by
  simp only [isStartChar, Bool.or_eq_true, decide_eq_true_eq] at h
  intro hb
  subst hb
  rcases h with ((((((((hk|hk)|hk)|hk)|hk)|hk)|hk)|hk)|hk)|hk <;>
    simp_all [Char.isDigit]

/-- A character outside the number alphabet at the head (or an empty list)
witnesses `notNumExt`. -/
theorem notNumExt_of_head (l : List Char)
    (h : ∀ a ∈ l.head?, a.isDigit = false ∧ ¬ a = '.' ∧ ¬ a = 'e' ∧
      ¬ a = 'E' ∧ ¬ a = '+' ∧ ¬ a = '-') : notNumExt l = true := by
  cases l with
  | nil => rfl
  | cons c t =>
    obtain ⟨h1, h2, h3, h4, h5, h6⟩ := h c (by simp)
    simp [notNumExt, h1, h2, h3, h4, h5, h6]

/-- JSON whitespace cannot extend a number lexeme. -/
theorem numStop_of_isJsonWs (a : Char) (h : isJsonWs a = true) :
    a.isDigit = false ∧ ¬ a = '.' ∧ ¬ a = 'e' ∧ ¬ a = 'E' ∧
      ¬ a = '+' ∧ ¬ a = '-' := by
  simp only [isJsonWs, Bool.or_eq_true, decide_eq_true_eq] at h
  rcases h with ((hk|hk)|hk)|hk <;> subst hk <;> decide

/-- `skipWs` is the identity when the input does not start with JSON
whitespace. -/
theorem skipWs_eq_self (s : List Char)
    (h : ∀ a ∈ s.head?, isJsonWs a = false) : skipWs s = s := by
  cases s with
  | nil => rfl
  | cons c t =>
    have := h c (by simp)
    simp only [skipWs]
    rw [List.dropWhile_cons_of_neg (by simp [this])]

/-- A list whose `dropWhile` is empty is all-satisfying. -/
theorem all_of_dropWhile_nil (p : Char → Bool) :
    ∀ l : List Char, l.dropWhile p = [] → ∀ a ∈ l, p a = true := by
  intro l
  induction l with
  | nil => simp
  | cons c t ih =>
    intro hd a ha
    cases hp : p c with
    | false => rw [List.dropWhile_cons_of_neg (by simp [hp])] at hd; simp at hd
    | true =>
      rw [List.dropWhile_cons_of_pos hp] at hd
      simp only [List.mem_cons] at ha
      rcases ha with rfl | ha
      · exact hp
      · exact ih hd a ha

/-- A non-empty prefix of a cons starts with the same head. -/
theorem head_of_append_cons (c1 r r2 : List Char) (d : Char)
    (h : c1 ++ r = d :: r2) (hne : c1 ≠ []) :
    ∃ t, c1 = d :: t ∧ t ++ r = r2 := by
  cases c1 with
  | nil => exact absurd rfl hne
  | cons a t =>
    simp only [List.cons_append, List.cons.injEq] at h
    exact ⟨t, by rw [h.1], h.2⟩

/-- A digit is none of the `jvalue` dispatch characters. -/
theorem isDigit_dispatch (a : Char) (h : a.isDigit = true) :
    ¬ a = '"' ∧ ¬ a = '{' ∧ ¬ a = '[' ∧ ¬ a = 't' ∧ ¬ a = 'f' ∧
      ¬ a = 'n' ∧ ¬ a = 'N' ∧ ¬ a = 'I' ∧ ¬ a = '-' := by
  refine ⟨?_, ?_, ?_, ?_, ?_, ?_, ?_, ?_, ?_⟩ <;>
    (intro hh; subst hh; exact absurd h (by decide))

/-- A property of the head of a cons. -/
theorem head_cons_prop (P : Char → Prop) (c : Char) (t : List Char)
    (h : P c) : ∀ a ∈ (c :: t).head?, P a := by
  intro a ha
  simp only [List.head?_cons, Option.mem_def, Option.some.injEq] at ha
  exact ha ▸ h

/-- A property of the last element of a cons with non-empty tail. -/
theorem getLast_cons_prop (P : Char → Prop) (c : Char) (t : List Char)
    (hne : t ≠ []) (h : ∀ a ∈ t.getLast?, P a) :
    ∀ a ∈ (c :: t).getLast?, P a := by
  intro a ha
  rw [getLast?_cons_of_ne_nil _ _ hne] at ha
  exact h a ha

/-- A property of a known last element. -/
theorem getLast_some_prop (P : Char → Prop) (t : List Char) (x : Char)
    (hl : t.getLast? = some x) (h : P x) : ∀ a ∈ t.getLast?, P a := by
  intro a ha
  rw [hl] at ha
  simp only [Option.mem_def, Option.some.injEq] at ha
  exact ha ▸ h

/-- Consumed-prefix decomposition and suffix/fuel invariance for the three
mutually recursive parsers: a successful parse consumes a non-empty prefix
that (for `jvalue`) starts with a value-start character and (for all
three) ends in a non-whitespace character, and re-running the parser on
that prefix with any remainder that cannot extend a number, under any
fuel larger than twice the prefix length, succeeds identically. -/
theorem parse_suffix (lax : Bool) : ∀ n : Nat,
    (∀ s v r, jvalue lax n s = .ok (v, r) →
      ∃ c, s = c ++ r ∧ c ≠ [] ∧
        (∀ a ∈ c.head?, isStartChar a = true) ∧
        (∀ a ∈ c.getLast?, isPyWs a = false) ∧
        ∀ r2 m, notNumExt r2 = true → 2 * c.length < m →
          jvalue lax m (c ++ r2) = .ok (v, r2)) ∧
    (∀ s acc v r, jelements lax n s acc = .ok (v, r) →
      ∃ c, s = c ++ r ∧ c ≠ [] ∧
        (∀ a ∈ c.getLast?, isPyWs a = false) ∧
        ∀ r2 m, notNumExt r2 = true → 2 * c.length < m →
          jelements lax m (c ++ r2) acc = .ok (v, r2)) ∧
    (∀ s acc v r, jmembers lax n s acc = .ok (v, r) →
      ∃ c, s = c ++ r ∧ c ≠ [] ∧
        (∀ a ∈ c.getLast?, isPyWs a = false) ∧
        ∀ r2 m, notNumExt r2 = true → 2 * c.length < m →
          jmembers lax m (c ++ r2) acc = .ok (v, r2)) := by
  intro n
  induction n with
  | zero =>
    refine ⟨?_, ?_, ?_⟩
    · intro s v r h; simp [jvalue] at h
    · intro s acc v r h; simp [jelements] at h
    · intro s acc v r h; simp [jmembers] at h
  | succ n ih =>
    obtain ⟨ihv, ihe, ihm⟩ := ih
    refine ⟨?_, ?_, ?_⟩
    · -- jvalue
      intro s v r h
      cases s with
      | nil => simp [jvalue] at h
      | cons c rest =>
        simp only [jvalue] at h
        by_cases hq : c = '"'
        · rw [if_pos hq] at h
          subst hq
          cases hps : pstrBody lax (rest.length + 1) rest with
          | error p => rw [hps] at h; simp [Except.map] at h
          | ok pk =>
            obtain ⟨cs, rr⟩ := pk
            rw [hps] at h
            simp only [Except.map, Except.ok.injEq, Prod.mk.injEq] at h
            obtain ⟨hv, hr⟩ := h
            subst hv
            subst hr
            obtain ⟨cS, hdS, hneS, hlS, hreS⟩ :=
              pstrBody_suffix lax (rest.length + 1) rest (by omega) cs rr hps
            refine ⟨'"' :: cS, by simp [hdS], by simp,
              head_cons_prop _ _ _ (by decide), ?_, ?_⟩
            · exact getLast_cons_prop _ _ _ hneS
                (getLast_some_prop _ _ _ hlS (by decide))
            · intro r2 m hnn hm
              cases m with
              | zero => omega
              | succ k =>
                simp only [List.cons_append, jvalue]
                rw [hreS r2 ((cS ++ r2).length + 1) (Nat.lt_succ_self _)]
                rfl
        · rw [if_neg hq] at h
          by_cases hob : c = '{'
          · rw [if_pos hob] at h
            subst hob
            obtain ⟨w, hweq, hwws, hwhead⟩ := skipWs_decomp rest
            cases hsw : skipWs rest with
            | nil => rw [hsw] at h; simp at h
            | cons d r2 =>
              rw [hsw] at h
              dsimp only at h
              have hweq2 : rest = w ++ (d :: r2) := by rw [hweq, hsw]
              by_cases hd : d = '}'
              · rw [if_pos hd] at h
                subst hd
                simp only [Except.ok.injEq, Prod.mk.injEq] at h
                obtain ⟨hv, hr⟩ := h
                subst hv
                subst hr
                refine ⟨'{' :: (w ++ ['}']), ?_, by simp,
                  head_cons_prop _ _ _ (by decide), ?_, ?_⟩
                · simp [hweq2, List.append_assoc]
                · exact getLast_cons_prop _ _ _ (by simp)
                    (getLast_some_prop _ _ _ (List.getLast?_concat w) (by decide))
                · intro r2n m hnn hm
                  cases m with
                  | zero => omega
                  | succ k =>
                    simp only [List.cons_append, List.append_assoc,
                      List.nil_append, jvalue]
                    rw [if_true]
                    rw [skipWs_all_append w ('}' :: r2n) hwws
                      (head_cons_prop _ _ _ (by decide))]
                    rfl
              · rw [if_neg hd] at h
                by_cases hdq : d = '"'
                · rw [if_pos hdq] at h
                  subst hdq
                  obtain ⟨cm, hdm, hnem, hlm, hrem⟩ := ihm r2 [] v r h
                  have hweq3 : rest = w ++ ('"' :: (cm ++ r)) := by
                    rw [hweq2, hdm]
                  refine ⟨'{' :: (w ++ ('"' :: cm)), ?_, by simp,
                    head_cons_prop _ _ _ (by decide), ?_, ?_⟩
                  · simp [hweq3, List.append_assoc]
                  · refine getLast_cons_prop _ _ _ (by simp) ?_
                    intro a ha
                    rw [List.getLast?_append_of_ne_nil _ (by simp),
                      getLast?_cons_of_ne_nil _ _ hnem] at ha
                    exact hlm a ha
                  · intro r2n m hnn hm
                    cases m with
                    | zero => omega
                    | succ k =>
                      have hbound : 2 * cm.length < k := by
                        simp only [List.length_cons, List.length_append] at hm
                        omega
                      simp only [List.cons_append, List.append_assoc,
                        List.nil_append, jvalue]
                      rw [if_true]
                      rw [skipWs_all_append w ('"' :: (cm ++ r2n)) hwws
                        (head_cons_prop _ _ _ (by decide))]
                      show jmembers lax k (cm ++ r2n) [] = Except.ok (v, r2n)
                      exact hrem r2n k hnn hbound
                · rw [if_neg hdq] at h
                  simp at h
          · rw [if_neg hob] at h
            by_cases hoa : c = '['
            · rw [if_pos hoa] at h
              subst hoa
              obtain ⟨w, hweq, hwws, hwhead⟩ := skipWs_decomp rest
              cases hsw : skipWs rest with
              | nil =>
                rw [hsw] at h
                dsimp only at h
                obtain ⟨ce, hde, hnee, _, _⟩ := ihe [] [] v r h
                exact absurd (List.append_eq_nil.mp hde.symm).1 hnee
              | cons d r2 =>
                rw [hsw] at h
                dsimp only at h
                have hweq2 : rest = w ++ (d :: r2) := by rw [hweq, hsw]
                have hdh : isJsonWs d = false := hwhead d (by rw [hsw]; simp)
                by_cases hd : d = ']'
                · rw [if_pos hd] at h
                  subst hd
                  simp only [Except.ok.injEq, Prod.mk.injEq] at h
                  obtain ⟨hv, hr⟩ := h
                  subst hv
                  subst hr
                  refine ⟨'[' :: (w ++ [']']), ?_, by simp,
                    head_cons_prop _ _ _ (by decide), ?_, ?_⟩
                  · simp [hweq2, List.append_assoc]
                  · exact getLast_cons_prop _ _ _ (by simp)
                      (getLast_some_prop _ _ _ (List.getLast?_concat w) (by decide))
                  · intro r2n m hnn hm
                    cases m with
                    | zero => omega
                    | succ k =>
                      simp only [List.cons_append, List.append_assoc,
                        List.nil_append, jvalue]
                      rw [if_true]
                      rw [skipWs_all_append w (']' :: r2n) hwws
                        (head_cons_prop _ _ _ (by decide))]
                      rfl
                · rw [if_neg hd] at h
                  obtain ⟨ce, hde, hnee, hle, hree⟩ := ihe (d :: r2) [] v r h
                  obtain ⟨ct, hce, hctr⟩ := head_of_append_cons ce r r2 d hde.symm hnee
                  have hweq3 : rest = w ++ (ce ++ r) := by rw [hweq2, hde]
                  refine ⟨'[' :: (w ++ ce), ?_, by simp,
                    head_cons_prop _ _ _ (by decide), ?_, ?_⟩
                  · simp [hweq3, List.append_assoc]
                  · refine getLast_cons_prop _ _ _ (by simp [hnee]) ?_
                    intro a ha
                    rw [List.getLast?_append_of_ne_nil _ hnee] at ha
                    exact hle a ha
                  · intro r2n m hnn hm
                    cases m with
                    | zero => omega
                    | succ k =>
                      have hbound : 2 * ce.length < k := by
                        simp only [List.length_cons, List.length_append] at hm
                        omega
                      simp only [List.cons_append, List.append_assoc, jvalue]
                      rw [if_true]
                      have hhead2 : ∀ a ∈ (ce ++ r2n).head?, isJsonWs a = false := by
                        rw [hce]
                        simp only [List.cons_append]
                        exact head_cons_prop _ _ _ hdh
                      rw [skipWs_all_append w (ce ++ r2n) hwws hhead2]
                      rw [hce]
                      simp only [List.cons_append]
                      rw [if_neg hd]
                      rw [← List.cons_append, ← hce]
                      exact hree r2n k hnn hbound
            · rw [if_neg hoa] at h
              by_cases hlt : c = 't'
              · rw [if_pos hlt] at h
                subst hlt
                obtain ⟨hv, hs, hrep⟩ := plit_spec "true".data (J.bool true) _ v r h
                subst hv
                refine ⟨"true".data, hs, by decide,
                  (by intro a ha; simp at ha; subst ha; decide),
                  (by intro a ha; simp at ha; subst ha; decide), ?_⟩
                intro r2 m hnn hm
                cases m with
                | zero => omega
                | succ k =>
                  rw [show jvalue lax (k + 1) ("true".data ++ r2) =
                    plit "true".data (J.bool true) ("true".data ++ r2) from rfl]
                  rw [hrep r2]
              · rw [if_neg hlt] at h
                by_cases hlf : c = 'f'
                · rw [if_pos hlf] at h
                  subst hlf
                  obtain ⟨hv, hs, hrep⟩ := plit_spec "false".data (J.bool false) _ v r h
                  subst hv
                  refine ⟨"false".data, hs, by decide,
                    (by intro a ha; simp at ha; subst ha; decide),
                    (by intro a ha; simp at ha; subst ha; decide), ?_⟩
                  intro r2 m hnn hm
                  cases m with
                  | zero => omega
                  | succ k =>
                    rw [show jvalue lax (k + 1) ("false".data ++ r2) =
                      plit "false".data (J.bool false) ("false".data ++ r2) from rfl]
                    rw [hrep r2]
                · rw [if_neg hlf] at h
                  by_cases hln : c = 'n'
                  · rw [if_pos hln] at h
                    subst hln
                    obtain ⟨hv, hs, hrep⟩ := plit_spec "null".data J.null _ v r h
                    subst hv
                    refine ⟨"null".data, hs, by decide,
                      (by intro a ha; simp at ha; subst ha; decide),
                      (by intro a ha; simp at ha; subst ha; decide), ?_⟩
                    intro r2 m hnn hm
                    cases m with
                    | zero => omega
                    | succ k =>
                      rw [show jvalue lax (k + 1) ("null".data ++ r2) =
                        plit "null".data J.null ("null".data ++ r2) from rfl]
                      rw [hrep r2]
                  · rw [if_neg hln] at h
                    by_cases hlN : c = 'N'
                    · rw [if_pos hlN] at h
                      subst hlN
                      obtain ⟨hv, hs, hrep⟩ := plit_spec "NaN".data (J.num "NaN") _ v r h
                      subst hv
                      refine ⟨"NaN".data, hs, by decide,
                        (by intro a ha; simp at ha; subst ha; decide),
                        (by intro a ha; simp at ha; subst ha; decide), ?_⟩
                      intro r2 m hnn hm
                      cases m with
                      | zero => omega
                      | succ k =>
                        rw [show jvalue lax (k + 1) ("NaN".data ++ r2) =
                          plit "NaN".data (J.num "NaN") ("NaN".data ++ r2) from rfl]
                        rw [hrep r2]
                    · rw [if_neg hlN] at h
                      by_cases hlI : c = 'I'
                      · rw [if_pos hlI] at h
                        subst hlI
                        obtain ⟨hv, hs, hrep⟩ :=
                          plit_spec "Infinity".data (J.num "Infinity") _ v r h
                        subst hv
                        refine ⟨"Infinity".data, hs, by decide,
                          (by intro a ha; simp at ha; subst ha; decide),
                          (by intro a ha; simp at ha; subst ha; decide), ?_⟩
                        intro r2 m hnn hm
                        cases m with
                        | zero => omega
                        | succ k =>
                          rw [show jvalue lax (k + 1) ("Infinity".data ++ r2) =
                            plit "Infinity".data (J.num "Infinity")
                              ("Infinity".data ++ r2) from rfl]
                          rw [hrep r2]
                      · rw [if_neg hlI] at h
                        by_cases hneg : c = '-'
                        · rw [if_pos hneg] at h
                          subst hneg
                          by_cases hInf : ("-Infinity".data.isPrefixOf ('-' :: rest)) = true
                          · rw [if_pos hInf] at h
                            simp only [Except.ok.injEq, Prod.mk.injEq] at h
                            obtain ⟨hv, hr⟩ := h
                            subst hv
                            obtain ⟨t, ht⟩ := List.isPrefixOf_iff_prefix.mp hInf
                            have hrt : r = t := by
                              rw [← hr, ← ht, List.drop_left' (by decide)]
                            subst hrt
                            refine ⟨"-Infinity".data, ht.symm, by decide,
                              (by intro a ha; simp at ha; subst ha; decide),
                              (by intro a ha; simp at ha; subst ha; decide), ?_⟩
                            intro r2 m hnn hm
                            cases m with
                            | zero => omega
                            | succ k =>
                              rw [show jvalue lax (k + 1) ("-Infinity".data ++ r2) =
                                (if ("-Infinity".data.isPrefixOf
                                    ("-Infinity".data ++ r2)) = true then
                                  Except.ok (J.num "-Infinity",
                                    ("-Infinity".data ++ r2).drop 9)
                                else pnumE ("-Infinity".data ++ r2)) from rfl]
                              rw [if_pos (List.isPrefixOf_iff_prefix.mpr
                                (List.prefix_append _ r2))]
                              rw [List.drop_left' (by decide)]
                          · rw [if_neg hInf] at h
                            simp only [pnumE] at h
                            cases hpn : pnum ('-' :: rest) with
                            | none => rw [hpn] at h; simp at h
                            | some pl =>
                              obtain ⟨lx, rr⟩ := pl
                              rw [hpn] at h
                              dsimp only at h
                              simp only [Except.ok.injEq, Prod.mk.injEq] at h
                              obtain ⟨hv, hr⟩ := h
                              subst hv
                              subst hr
                              obtain ⟨hp1, hp2, hp3, hp4, hp5, hpAll, hp6⟩ :=
                                pnum_spec ('-' :: rest) lx rr hpn
                              obtain ⟨t, hlx_eq, _⟩ :=
                                head_of_append_cons lx rr rest '-' hp1.symm hp2
                              obtain ⟨d, t2, ht_eq, hd_dig⟩ := hp5 t hlx_eq
                              refine ⟨lx, hp1, hp2, ?_, ?_, ?_⟩
                              · intro a ha
                                rcases hp3 a ha with hk | hk
                                · subst hk; decide
                                · simp [isStartChar, hk]
                              · intro a ha
                                exact isPyWs_of_isDigit a (hp4 a ha)
                              · intro r2 m hnn hm
                                cases m with
                                | zero => omega
                                | succ k =>
                                  have hdI : ('I' == d) = false := by
                                    rw [beq_eq_false_iff_ne]
                                    intro hh
                                    rw [← hh] at hd_dig
                                    exact absurd hd_dig (by decide)
                                  have hpref : ("-Infinity".data.isPrefixOf (lx ++ r2)) = false := by
                                    rw [hlx_eq, ht_eq]
                                    simp only [List.cons_append]
                                    simp only [List.isPrefixOf]
                                    rw [hdI]
                                    simp
                                  have hstep : jvalue lax (k + 1) (lx ++ r2) =
                                      (if ("-Infinity".data.isPrefixOf (lx ++ r2)) = true then
                                        Except.ok (J.num "-Infinity", (lx ++ r2).drop 9)
                                      else pnumE (lx ++ r2)) := by
                                    rw [hlx_eq, ht_eq]
                                    rfl
                                  rw [hstep, hpref, if_neg (by decide)]
                                  simp only [pnumE]
                                  rw [hp6 r2 hnn]
                        · rw [if_neg hneg] at h
                          simp only [pnumE] at h
                          cases hpn : pnum (c :: rest) with
                          | none => rw [hpn] at h; simp at h
                          | some pl =>
                            obtain ⟨lx, rr⟩ := pl
                            rw [hpn] at h
                            dsimp only at h
                            simp only [Except.ok.injEq, Prod.mk.injEq] at h
                            obtain ⟨hv, hr⟩ := h
                            subst hv
                            subst hr
                            obtain ⟨hp1, hp2, hp3, hp4, hp5, hpAll, hp6⟩ :=
                              pnum_spec (c :: rest) lx rr hpn
                            obtain ⟨t, hlx_eq, _⟩ :=
                              head_of_append_cons lx rr rest c hp1.symm hp2
                            have hc_dig : c.isDigit = true := by
                              rcases hp3 c (by rw [hlx_eq]; simp) with hk | hk
                              · exact absurd hk hneg
                              · exact hk
                            refine ⟨lx, hp1, hp2, ?_, ?_, ?_⟩
                            · intro a ha
                              rcases hp3 a ha with hk | hk
                              · subst hk; decide
                              · simp [isStartChar, hk]
                            · intro a ha
                              exact isPyWs_of_isDigit a (hp4 a ha)
                            · intro r2 m hnn hm
                              cases m with
                              | zero => omega
                              | succ k =>
                                have hstep : jvalue lax (k + 1) (lx ++ r2) =
                                    pnumE (lx ++ r2) := by
                                  rw [hlx_eq]
                                  simp only [List.cons_append, jvalue]
                                  rw [if_neg hq, if_neg hob, if_neg hoa,
                                    if_neg hlt, if_neg hlf, if_neg hln,
                                    if_neg hlN, if_neg hlI, if_neg hneg]
                                rw [hstep]
                                simp only [pnumE]
                                rw [hp6 r2 hnn]
    · -- jelements
      intro s acc v r h
      simp only [jelements] at h
      cases hjv : jvalue lax n s with
      | error p => rw [hjv] at h; simp at h
      | ok pv =>
        obtain ⟨v1, r1⟩ := pv
        rw [hjv] at h
        dsimp only at h
        obtain ⟨c1, hd1, hne1, hhd1, hl1, hre1⟩ := ihv s v1 r1 hjv
        obtain ⟨w1, hw1eq, hw1ws, hw1head⟩ := skipWs_decomp r1
        cases hsw1 : skipWs r1 with
        | nil => rw [hsw1] at h; simp at h
        | cons d r2 =>
          rw [hsw1] at h
          dsimp only at h
          have hw1eq2 : r1 = w1 ++ (d :: r2) := by rw [hw1eq, hsw1]
          by_cases hdc : d = ','
          · rw [if_pos hdc] at h
            subst hdc
            obtain ⟨w2, hw2eq, hw2ws, hw2head⟩ := skipWs_decomp r2
            obtain ⟨c2, hd2, hne2, hl2, hre2⟩ := ihe (skipWs r2) (acc ++ [v1]) v r h
            have hw2eq2 : r2 = w2 ++ (c2 ++ r) := by rw [hw2eq, hd2]
            obtain ⟨e2, t2, hc2⟩ : ∃ e t, c2 = e :: t := by
              cases hc : c2 with
              | nil => exact absurd hc hne2
              | cons e t => exact ⟨e, t, rfl⟩
            have he2 : isJsonWs e2 = false := hw2head e2 (by rw [hd2, hc2]; simp)
            refine ⟨c1 ++ (w1 ++ (',' :: (w2 ++ c2))), ?_, by simp [hne1], ?_, ?_⟩
            · rw [hd1, hw1eq2, hw2eq2]
              simp [List.append_assoc]
            · intro a ha
              rw [List.getLast?_append_of_ne_nil _ (by simp),
                List.getLast?_append_of_ne_nil _ (by simp),
                getLast?_cons_of_ne_nil _ _ (by simp [hne2]),
                List.getLast?_append_of_ne_nil _ hne2] at ha
              exact hl2 a ha
            · intro r2n m hnn hm
              cases m with
              | zero => omega
              | succ k =>
                have hb1 : 2 * c1.length < k := by
                  simp only [List.length_append, List.length_cons] at hm
                  omega
                have hb2 : 2 * c2.length < k := by
                  simp only [List.length_append, List.length_cons] at hm
                  omega
                simp only [List.append_assoc, List.cons_append, jelements]
                have hnnX : notNumExt (w1 ++ (',' :: (w2 ++ (c2 ++ r2n)))) = true :=
                  notNumExt_of_head _ (head_append_cases _ w1 _
                    (fun a ha => numStop_of_isJsonWs a
                      (hw1ws a (List.mem_of_mem_head? ha)))
                    (fun _ => head_cons_prop _ _ _ (by decide)))
                rw [hre1 (w1 ++ (',' :: (w2 ++ (c2 ++ r2n)))) k hnnX hb1]
                dsimp only
                rw [skipWs_all_append w1 (',' :: (w2 ++ (c2 ++ r2n))) hw1ws
                  (head_cons_prop _ _ _ (by decide))]
                dsimp only
                rw [if_pos rfl]
                have hhead2 : ∀ a ∈ (c2 ++ r2n).head?, isJsonWs a = false := by
                  rw [hc2]
                  simp only [List.cons_append]
                  exact head_cons_prop _ _ _ he2
                rw [skipWs_all_append w2 (c2 ++ r2n) hw2ws hhead2]
                exact hre2 r2n k hnn hb2
          · by_cases hdb : d = ']'
            · rw [if_neg hdc, if_pos hdb] at h
              subst hdb
              simp only [Except.ok.injEq, Prod.mk.injEq] at h
              obtain ⟨hv, hr⟩ := h
              subst hv
              subst hr
              refine ⟨c1 ++ (w1 ++ [']']), ?_, by simp [hne1], ?_, ?_⟩
              · rw [hd1, hw1eq2]
                simp [List.append_assoc]
              · intro a ha
                rw [List.getLast?_append_of_ne_nil _ (by simp),
                  List.getLast?_concat] at ha
                simp only [Option.mem_def, Option.some.injEq] at ha
                exact ha ▸ (by decide)
              · intro r2n m hnn hm
                cases m with
                | zero => omega
                | succ k =>
                  have hb1 : 2 * c1.length < k := by
                    simp only [List.length_append, List.length_cons] at hm
                    omega
                  simp only [List.append_assoc, List.cons_append,
                    List.nil_append, jelements]
                  have hnnX : notNumExt (w1 ++ (']' :: r2n)) = true :=
                    notNumExt_of_head _ (head_append_cases _ w1 _
                      (fun a ha => numStop_of_isJsonWs a
                        (hw1ws a (List.mem_of_mem_head? ha)))
                      (fun _ => head_cons_prop _ _ _ (by decide)))
                  rw [hre1 (w1 ++ (']' :: r2n)) k hnnX hb1]
                  dsimp only
                  rw [skipWs_all_append w1 (']' :: r2n) hw1ws
                    (head_cons_prop _ _ _ (by decide))]
                  rfl
            · rw [if_neg hdc, if_neg hdb] at h
              simp at h
    · -- jmembers
      intro s acc v r h
      simp only [jmembers] at h
      cases hps : pstrBody lax (s.length + 1) s with
      | error p => rw [hps] at h; simp at h
      | ok pk =>
        obtain ⟨kcs, r1⟩ := pk
        rw [hps] at h
        dsimp only at h
        obtain ⟨ck, hdk, hnek, hlk, hrek⟩ :=
          pstrBody_suffix lax (s.length + 1) s (by omega) kcs r1 hps
        obtain ⟨w1, hw1eq, hw1ws, hw1head⟩ := skipWs_decomp r1
        cases hsw1 : skipWs r1 with
        | nil => rw [hsw1] at h; simp at h
        | cons d r2 =>
          rw [hsw1] at h
          dsimp only at h
          have hw1eq2 : r1 = w1 ++ (d :: r2) := by rw [hw1eq, hsw1]
          by_cases hdc : d = ':'
          · rw [if_pos hdc] at h
            subst hdc
            obtain ⟨w2, hw2eq, hw2ws, hw2head⟩ := skipWs_decomp r2
            cases hjv : jvalue lax n (skipWs r2) with
            | error p => rw [hjv] at h; simp at h
            | ok pv =>
              obtain ⟨v1, r3⟩ := pv
              rw [hjv] at h
              dsimp only at h
              obtain ⟨cv, hdv, hnev, hhdv, hlv, hrev⟩ := ihv (skipWs r2) v1 r3 hjv
              have hw2eq2 : r2 = w2 ++ (cv ++ r3) := by rw [hw2eq, hdv]
              obtain ⟨ev, tv, hcv⟩ : ∃ e t, cv = e :: t := by
                cases hc : cv with
                | nil => exact absurd hc hnev
                | cons e t => exact ⟨e, t, rfl⟩
              have hev : isJsonWs ev = false := hw2head ev (by rw [hdv, hcv]; simp)
              obtain ⟨w3, hw3eq, hw3ws, hw3head⟩ := skipWs_decomp r3
              cases hsw3 : skipWs r3 with
              | nil => rw [hsw3] at h; simp at h
              | cons d2 r4 =>
                rw [hsw3] at h
                dsimp only at h
                have hw3eq2 : r3 = w3 ++ (d2 :: r4) := by rw [hw3eq, hsw3]
                by_cases hd2c : d2 = ','
                · rw [if_pos hd2c] at h
                  subst hd2c
                  obtain ⟨w4, hw4eq, hw4ws, hw4head⟩ := skipWs_decomp r4
                  cases hsw4 : skipWs r4 with
                  | nil => rw [hsw4] at h; simp at h
                  | cons d3 r5 =>
                    rw [hsw4] at h
                    dsimp only at h
                    have hw4eq2 : r4 = w4 ++ (d3 :: r5) := by rw [hw4eq, hsw4]
                    by_cases hd3c : d3 = '"'
                    · rw [if_pos hd3c] at h
                      subst hd3c
                      obtain ⟨cm, hdm, hnem, hlm, hrem⟩ :=
                        ihm r5 (acc ++ [(String.mk kcs, v1)]) v r h
                      refine ⟨ck ++ (w1 ++ (':' :: (w2 ++ (cv ++ (w3 ++
                        (',' :: (w4 ++ ('"' :: cm)))))))), ?_, by simp [hnek], ?_, ?_⟩
                      · rw [hdk, hw1eq2, hw2eq2, hw3eq2, hw4eq2, hdm]
                        simp [List.append_assoc]
                      · intro a ha
                        rw [List.getLast?_append_of_ne_nil _ (by simp),
                          List.getLast?_append_of_ne_nil _ (by simp),
                          getLast?_cons_of_ne_nil _ _ (by simp),
                          List.getLast?_append_of_ne_nil _ (by simp),
                          List.getLast?_append_of_ne_nil _ (by simp),
                          List.getLast?_append_of_ne_nil _ (by simp),
                          getLast?_cons_of_ne_nil _ _ (by simp),
                          List.getLast?_append_of_ne_nil _ (by simp),
                          getLast?_cons_of_ne_nil _ _ hnem] at ha
                        exact hlm a ha
                      · intro r2n m hnn hm
                        cases m with
                        | zero => omega
                        | succ k =>
                          have hbv : 2 * cv.length < k := by
                            simp only [List.length_append, List.length_cons] at hm
                            omega
                          have hbm : 2 * cm.length < k := by
                            simp only [List.length_append, List.length_cons] at hm
                            omega
                          simp only [List.append_assoc, List.cons_append, jmembers]
                          rw [hrek (w1 ++ (':' :: (w2 ++ (cv ++ (w3 ++
                            (',' :: (w4 ++ ('"' :: (cm ++ r2n))))))))) _
                            (Nat.lt_succ_self _)]
                          dsimp only
                          rw [skipWs_all_append w1 _ hw1ws
                            (head_cons_prop _ _ _ (by decide))]
                          dsimp only
                          rw [if_pos rfl]
                          have hheadv2 : ∀ a ∈ (cv ++ (w3 ++ (',' :: (w4 ++
                              ('"' :: (cm ++ r2n)))))).head?, isJsonWs a = false := by
                            rw [hcv]
                            simp only [List.cons_append]
                            exact head_cons_prop _ _ _ hev
                          rw [skipWs_all_append w2 _ hw2ws hheadv2]
                          have hnnv : notNumExt (w3 ++ (',' :: (w4 ++
                              ('"' :: (cm ++ r2n))))) = true :=
                            notNumExt_of_head _ (head_append_cases _ w3 _
                              (fun a ha => numStop_of_isJsonWs a
                                (hw3ws a (List.mem_of_mem_head? ha)))
                              (fun _ => head_cons_prop _ _ _ (by decide)))
                          rw [hrev (w3 ++ (',' :: (w4 ++ ('"' :: (cm ++ r2n))))) k
                            hnnv hbv]
                          dsimp only
                          rw [skipWs_all_append w3 _ hw3ws
                            (head_cons_prop _ _ _ (by decide))]
                          dsimp only
                          rw [if_pos rfl]
                          rw [skipWs_all_append w4 _ hw4ws
                            (head_cons_prop _ _ _ (by decide))]
                          dsimp only
                          rw [if_pos rfl]
                          exact hrem r2n k hnn hbm
                    · rw [if_neg hd3c] at h
                      simp at h
                · by_cases hd2b : d2 = '}'
                  · rw [if_neg hd2c, if_pos hd2b] at h
                    subst hd2b
                    simp only [Except.ok.injEq, Prod.mk.injEq] at h
                    obtain ⟨hv, hr⟩ := h
                    subst hv
                    subst hr
                    refine ⟨ck ++ (w1 ++ (':' :: (w2 ++ (cv ++ (w3 ++ ['}']))))),
                      ?_, by simp [hnek], ?_, ?_⟩
                    · rw [hdk, hw1eq2, hw2eq2, hw3eq2]
                      simp [List.append_assoc]
                    · intro a ha
                      rw [List.getLast?_append_of_ne_nil _ (by simp),
                        List.getLast?_append_of_ne_nil _ (by simp),
                        getLast?_cons_of_ne_nil _ _ (by simp),
                        List.getLast?_append_of_ne_nil _ (by simp),
                        List.getLast?_append_of_ne_nil _ (by simp),
                        List.getLast?_concat] at ha
                      simp only [Option.mem_def, Option.some.injEq] at ha
                      exact ha ▸ (by decide)
                    · intro r2n m hnn hm
                      cases m with
                      | zero => omega
                      | succ k =>
                        have hbv : 2 * cv.length < k := by
                          simp only [List.length_append, List.length_cons] at hm
                          omega
                        simp only [List.append_assoc, List.cons_append,
                          List.nil_append, jmembers]
                        rw [hrek (w1 ++ (':' :: (w2 ++ (cv ++ (w3 ++
                          ('}' :: r2n)))))) _ (Nat.lt_succ_self _)]
                        dsimp only
                        rw [skipWs_all_append w1 _ hw1ws
                          (head_cons_prop _ _ _ (by decide))]
                        dsimp only
                        rw [if_pos rfl]
                        have hheadv2 : ∀ a ∈ (cv ++ (w3 ++ ('}' :: r2n))).head?,
                            isJsonWs a = false := by
                          rw [hcv]
                          simp only [List.cons_append]
                          exact head_cons_prop _ _ _ hev
                        rw [skipWs_all_append w2 _ hw2ws hheadv2]
                        have hnnv : notNumExt (w3 ++ ('}' :: r2n)) = true :=
                          notNumExt_of_head _ (head_append_cases _ w3 _
                            (fun a ha => numStop_of_isJsonWs a
                              (hw3ws a (List.mem_of_mem_head? ha)))
                            (fun _ => head_cons_prop _ _ _ (by decide)))
                        rw [hrev (w3 ++ ('}' :: r2n)) k hnnv hbv]
                        dsimp only
                        rw [skipWs_all_append w3 _ hw3ws
                          (head_cons_prop _ _ _ (by decide))]
                        dsimp only
                        rw [if_neg (by decide), if_pos rfl]
                  · rw [if_neg hd2c, if_neg hd2b] at h
                    simp at h
          · rw [if_neg hdc] at h
            simp at h

/-- `str.strip()` of a text made of a whitespace prefix, a core that
neither starts nor ends in Python whitespace, and a whitespace suffix, is
exactly the core. -/
theorem pyStrip_sandwich (w1 c w2 : List Char)
    (hw1 : ∀ a ∈ w1, isPyWs a = true) (hw2 : ∀ a ∈ w2, isPyWs a = true)
    (hh : ∀ a ∈ c.head?, isPyWs a = false)
    (hl : ∀ a ∈ c.getLast?, isPyWs a = false) (hc : c ≠ []) :
    pyStrip (w1 ++ (c ++ w2)) = c := by
  obtain ⟨e, t, hct⟩ : ∃ e t, c = e :: t := by
    cases hcc : c with
    | nil => exact absurd hcc hc
    | cons e t => exact ⟨e, t, rfl⟩
  have hlstrip : pyLStrip (w1 ++ (c ++ w2)) = c ++ w2 := by
    refine dropWhile_all_append isPyWs w1 (c ++ w2) hw1 ?_
    intro a ha
    rw [hct] at ha
    simp only [List.cons_append, List.head?_cons, Option.mem_def,
      Option.some.injEq] at ha
    exact ha ▸ hh e (by rw [hct]; simp)
  rw [pyStrip, hlstrip, pyRStrip, List.reverse_append]
  rw [dropWhile_all_append isPyWs w2.reverse c.reverse
    (fun a ha => hw2 a (List.mem_reverse.mp ha)) ?_]
  · exact List.reverse_reverse c
  · intro a ha
    rw [List.head?_reverse] at ha
    exact hl a ha

/-- `notNumExt` holds for the empty remainder. -/
theorem notNumExt_nil : notNumExt [] = true := rfl

/-- A successfully parsed JSON text decomposes as JSON whitespace around a
core that `jvalue` consumes entirely, and that core itself parses to the
same value. -/
theorem jloads_core (t : List Char) (v : J) (h : jloads false t = .ok v) :
    ∃ w1 c w2, t = w1 ++ (c ++ w2) ∧ c ≠ [] ∧
      (∀ a ∈ w1, isJsonWs a = true) ∧ (∀ a ∈ w2, isJsonWs a = true) ∧
      (∀ a ∈ c.head?, isStartChar a = true) ∧
      (∀ a ∈ c.getLast?, isPyWs a = false) ∧
      jloads false c = .ok v := by
  simp only [jloads] at h
  cases hjv : jvalue false (2 * t.length + 2) (skipWs t) with
  | error p => rw [hjv] at h; simp at h
  | ok pv =>
    obtain ⟨v1, r⟩ := pv
    rw [hjv] at h
    dsimp only at h
    cases hsw : skipWs r with
    | cons d r2 => rw [hsw] at h; simp at h
    | nil =>
      rw [hsw] at h
      dsimp only at h
      simp only [Except.ok.injEq] at h
      subst h
      obtain ⟨w1, hw1eq, hw1ws, hw1head⟩ := skipWs_decomp t
      obtain ⟨c, hd, hne, hhd, hlc, hre⟩ :=
        (parse_suffix false (2 * t.length + 2)).1 (skipWs t) v1 r hjv
      refine ⟨w1, c, r, by rw [hw1eq, hd], hne, hw1ws,
        all_of_dropWhile_nil isJsonWs r hsw, hhd, hlc, ?_⟩
      have hskip : skipWs c = c := by
        refine skipWs_eq_self c ?_
        intro a ha
        exact isJsonWs_of_isStartChar a (hhd a ha)
      simp only [jloads, hskip]
      have := hre [] (2 * c.length + 2) notNumExt_nil (by omega)
      rw [List.append_nil] at this
      rw [this]
      rfl

/-- The fence-strip test fails on a text that starts with a value-start
character, so `candidateText` is just `pyStrip`. -/
theorem candidateText_of_start (t c : List Char) (hstrip : pyStrip t = c)
    (hhd : ∀ a ∈ c.head?, isStartChar a = true) :
    candidateText t = c := by
  simp only [candidateText, hstrip]
  cases hcc : c with
  | nil => simp [List.isPrefixOf]
  | cons e tl =>
    have hs := hhd e (by rw [hcc]; simp)
    have hne : ¬ e = '\x60' := ne_backtick_of_isStartChar e hs
    have : (['\x60', '\x60', '\x60'].isPrefixOf (e :: tl)) = false := by
      simp only [List.isPrefixOf]
      have : ('\x60' == e) = false := by
        rw [beq_eq_false_iff_ne]
        exact fun hh => hne hh.symm
      rw [this]
      simp
    rw [this]
    simp

/-- C7: for every input text that is valid JSON (the strict `json.loads`
model parses it to `v`), the direct-parse step of `parse_json_response`
succeeds on the cleaned candidate text with the same value `v`, and the
whole repair pipeline returns exactly `v` — no repair step alters the
outcome for already-valid input. -/
theorem c7_valid_json_passthrough (t : List Char) (v : J)
    (h : jloads false t = .ok v) :
    jloads false (candidateText t) = .ok v ∧
      parse_json_response t = .ok v := by
  obtain ⟨w1, c, w2, hteq, hne, hw1, hw2, hhd, hlc, hcore⟩ := jloads_core t v h
  have hstrip : pyStrip t = c := by
    rw [hteq]
    exact pyStrip_sandwich w1 c w2
      (fun a ha => isPyWs_of_isJsonWs a (hw1 a ha))
      (fun a ha => isPyWs_of_isJsonWs a (hw2 a ha))
      (fun a ha => isPyWs_of_isStartChar a (hhd a ha)) hlc hne
  have hcand : candidateText t = c := candidateText_of_start t c hstrip hhd
  refine ⟨by rw [hcand]; exact hcore, ?_⟩
  simp only [parse_json_response, hcand, hcore]

/-- Witness for C7 at a concrete valid-JSON input with leading and trailing
whitespace. -/
theorem c7_witness :
    jloads false " [1, true] ".data =
      .ok (J.arr [J.num "1", J.bool true]) ∧
    parse_json_response " [1, true] ".data =
      .ok (J.arr [J.num "1", J.bool true]) :=
  ⟨rfl, (c7_valid_json_passthrough " [1, true] ".data
    (J.arr [J.num "1", J.bool true]) rfl).2⟩

/-! ### The control-character-escaping automaton: structure lemmas -/

/-- Outside an escape, a character that is neither a backslash, a quote,
nor one of the three rewritten control characters is copied unchanged and
leaves the automaton state alone. -/
theorem fixAux_cons_plain (i : Bool) (ch : Char) (z : List Char)
    (h1 : ¬ ch = '\\') (h2 : ¬ ch = '"') (h3 : ¬ ch = '\n')
    (h4 : ¬ ch = '\r') (h5 : ¬ ch = '\t') :
    fixAux i false (ch :: z) = ch :: fixAux i false z := by
  simp [fixAux, h1, h2, h3, h4, h5]

/-- Outside a string, every character other than a backslash or a quote is
copied unchanged. -/
theorem fixAux_false_cons (ch : Char) (z : List Char)
    (h1 : ¬ ch = '\\') (h2 : ¬ ch = '"') :
    fixAux false false (ch :: z) = ch :: fixAux false false z := by
  simp [fixAux, h1, h2]

/-- A run of characters that are all plain for the automaton is copied
verbatim, in any string state. -/
theorem fixAux_copy (z : List Char)
    (hz : ∀ a ∈ z, ¬ a = '\\' ∧ ¬ a = '"' ∧ ¬ a = '\n' ∧ ¬ a = '\r' ∧
      ¬ a = '\t') :
    ∀ (i : Bool) (y : List Char), fixAux i false (z ++ y) = z ++ fixAux i false y := by
  induction z with
  | nil => intro i y; rfl
  | cons c t ih =>
    intro i y
    obtain ⟨h1, h2, h3, h4, h5⟩ := hz c (by simp)
    rw [List.cons_append, fixAux_cons_plain i c _ h1 h2 h3 h4 h5,
      ih (fun a ha => hz a (by simp [ha])) i y]
    rfl

/-- JSON whitespace is copied verbatim by the automaton outside a string. -/
theorem fix_ws (w : List Char) (hw : ∀ a ∈ w, isJsonWs a = true) :
    ∀ y, fixAux false false (w ++ y) = w ++ fixAux false false y := by
  induction w with
  | nil => intro y; rfl
  | cons c t ih =>
    intro y
    have hc := hw c (by simp)
    simp only [isJsonWs, Bool.or_eq_true, decide_eq_true_eq] at hc
    have step : fixAux false false (c :: (t ++ y)) =
        c :: fixAux false false (t ++ y) := by
      rcases hc with ((hk | hk) | hk) | hk <;> subst hk <;>
        exact fixAux_false_cons _ _ (by decide) (by decide)
    rw [List.cons_append, step, ih (fun a ha => hw a (by simp [ha])) y]
    rfl

/-- Inside a string, a backslash and the following character are copied
verbatim (the escape-pending state consumes the second character). -/
theorem fixAux_esc_pair (i : Bool) (e : Char) (z : List Char) :
    fixAux i false ('\\' :: e :: z) = '\\' :: e :: fixAux i false z := rfl

/-- The four characters consumed by `parse4hex` are hexadecimal digits. -/
theorem parse4hex_chars (s : List Char) (code : Nat) (rest : List Char)
    (h : parse4hex s = some (code, rest)) :
    ∃ p, s = p ++ rest ∧ (∀ x, parse4hex (p ++ x) = some (code, x)) ∧
      ∀ a ∈ p, (hexVal? a).isSome = true := by
  unfold parse4hex at h
  split at h
  · rename_i h1 h2 h3 h4 rest'
    split at h
    · rename_i a b c d hx1 hx2 hx3 hx4
      simp only [Option.some.injEq, Prod.mk.injEq] at h
      obtain ⟨hcode, hrest⟩ := h
      subst hcode
      subst hrest
      refine ⟨[h1, h2, h3, h4], rfl, ?_, ?_⟩
      · intro x
        simp [parse4hex, hx1, hx2, hx3, hx4]
      · intro a ha
        simp only [List.mem_cons, List.not_mem_nil, or_false] at ha
        rcases ha with rfl | rfl | rfl | rfl <;>
          simp [hx1, hx2, hx3, hx4]
    · simp at h
  · simp at h

/-- A hexadecimal digit is plain for the escaping automaton. -/
theorem hexVal?_plain (c : Char) (h : (hexVal? c).isSome = true) :
    ¬ c = '\\' ∧ ¬ c = '"' ∧ ¬ c = '\n' ∧ ¬ c = '\r' ∧ ¬ c = '\t' := by
  refine ⟨?_, ?_, ?_, ?_, ?_⟩ <;>
    (intro hh; subst hh; exact absurd h (by decide))

/-- Like `pu_suffix`, with the additional fact that the consumed prefix is
copied verbatim by the escaping automaton in any string state. -/
theorem pu_shape (s : List Char) (ch : Char) (r : List Char)
    (h : pu s = .ok (ch, r)) :
    ∃ pre, s = pre ++ r ∧ 4 ≤ pre.length ∧
      (∀ x, pu (pre ++ x) = .ok (ch, x)) ∧
      ∀ (i : Bool) (y : List Char),
        fixAux i false (pre ++ y) = pre ++ fixAux i false y := by
  unfold pu at h
  split at h
  · simp at h
  · rename_i code rest3 hp4
    obtain ⟨p, hsp, hpre, hphex⟩ := parse4hex_chars s code rest3 hp4
    have hplen : p.length = 4 := by
      obtain ⟨p2, hsp2, hplen2, _⟩ := parse4hex_suffix s code rest3 hp4
      have : p ++ rest3 = p2 ++ rest3 := by rw [← hsp, ← hsp2]
      have := List.append_cancel_right this
      rw [this, hplen2]
    have hcopy : ∀ (i : Bool) (y : List Char),
        fixAux i false (p ++ y) = p ++ fixAux i false y :=
      fun i y => fixAux_copy p (fun a ha => hexVal?_plain a (hphex a ha)) i y
    split at h
    · rename_i hrange
      simp only [Except.ok.injEq, Prod.mk.injEq] at h
      obtain ⟨hch, hr⟩ := h
      subst hch
      subst hr
      refine ⟨p, hsp, by omega, ?_, hcopy⟩
      intro x
      simp [pu, hpre x, hrange]
    · rename_i hrange
      split at h
      · rename_i hhi
        split at h
        · rename_i t
          split at h
          · rename_i lo rest4 hp4b
            obtain ⟨p2, hsp2, hpre2, hphex2⟩ := parse4hex_chars t lo rest4 hp4b
            have hcopy2 : ∀ (i : Bool) (y : List Char),
                fixAux i false (p2 ++ y) = p2 ++ fixAux i false y :=
              fun i y => fixAux_copy p2
                (fun a ha => hexVal?_plain a (hphex2 a ha)) i y
            split at h
            · rename_i hlo
              simp only [Except.ok.injEq, Prod.mk.injEq] at h
              obtain ⟨hch, hr⟩ := h
              subst hch
              subst hr
              refine ⟨p ++ '\\' :: 'u' :: p2, ?_, ?_, ?_, ?_⟩
              · rw [hsp, hsp2]
                simp
              · simp
                omega
              · intro x
                rw [show (p ++ '\\' :: 'u' :: p2) ++ x =
                  p ++ ('\\' :: 'u' :: (p2 ++ x)) by simp]
                simp [pu, hpre, hpre2 x, hrange, hhi, hlo]
              · intro i y
                rw [show (p ++ '\\' :: 'u' :: p2) ++ y =
                  p ++ ('\\' :: 'u' :: (p2 ++ y)) by simp]
                rw [hcopy i ('\\' :: 'u' :: (p2 ++ y)), fixAux_esc_pair,
                  hcopy2 i y]
                simp
            · simp at h
          · simp at h
        · simp at h
      · simp at h

/-- Commutation of the escaping automaton with the string-body parser: a
lax parse of a string body (which may contain literal LF/CR/TAB) yields
contents that the STRICT parser recovers identically from the
automaton-rewritten body.  The automaton is applied starting inside a
string, and ends outside one (the closing quote toggles it back). -/
theorem fixstr_commute :
    ∀ n s, s.length < n → ∀ cs r, pstrBody true n s = .ok (cs, r) →
      ∃ c fc, s = c ++ r ∧
        (∀ y, fixAux true false (c ++ y) = fc ++ fixAux false false y) ∧
        fc ≠ [] ∧ fc.getLast? = some '"' ∧
        ∀ r2 m, (fc ++ r2).length < m →
          pstrBody false m (fc ++ r2) = .ok (cs, r2) := by
  intro n
  induction n with
  | zero =>
    intro s hs
    exact absurd hs (Nat.not_lt_zero _)
  | succ n ih =>
    intro s hs cs r h
    cases s with
    | nil => simp [pstrBody] at h
    | cons c rest =>
      simp only [List.length_cons] at hs
      simp only [pstrBody] at h
      by_cases hq : c = '"'
      · rw [if_pos hq] at h
        subst hq
        simp only [Except.ok.injEq, Prod.mk.injEq] at h
        obtain ⟨h1, h2⟩ := h
        subst h1
        subst h2
        refine ⟨['"'], ['"'], rfl, fun y => rfl, by simp, rfl, ?_⟩
        intro r2 m hm
        cases m with
        | zero => simp at hm
        | succ m => simp [pstrBody]
      · rw [if_neg hq] at h
        by_cases hb : c = '\\'
        · rw [if_pos hb] at h
          subst hb
          cases rest with
          | nil => simp at h
          | cons e rest2 =>
            simp only [List.length_cons] at hs
            cases hesc : escChar? e with
            | some dec =>
              simp only [hesc] at h
              rw [consDecoded_ok_iff] at h
              obtain ⟨cs', rfl, hp⟩ := h
              obtain ⟨c', fc', hd, hcomp, hne, hl, hre⟩ :=
                ih rest2 (by omega) cs' r hp
              refine ⟨'\\' :: e :: c', '\\' :: e :: fc', by simp [hd], ?_, by simp, ?_, ?_⟩
              · intro y
                rw [List.cons_append, List.cons_append, fixAux_esc_pair,
                  hcomp y]
                rfl
              · rw [getLast?_cons_of_ne_nil _ _ (by simp),
                    getLast?_cons_of_ne_nil _ _ hne]
                exact hl
              · intro r2 m hm
                cases m with
                | zero => simp at hm
                | succ m =>
                  simp only [List.cons_append, List.length_cons] at hm ⊢
                  simp only [pstrBody]
                  rw [if_neg (by decide), if_true, hesc]
                  rw [hre r2 m (by simp only [List.length_append] at hm ⊢; omega)]
                  rfl
            | none =>
              simp only [hesc] at h
              by_cases hu : e = 'u'
              · rw [if_pos hu] at h
                subst hu
                cases hpu : pu rest2 with
                | error q => rw [hpu] at h; simp at h
                | ok pr =>
                  simp only [hpu] at h
                  rw [consDecoded_ok_iff] at h
                  obtain ⟨cs', rfl, hp⟩ := h
                  obtain ⟨pre, hsp, hplen, hpre, hprecopy⟩ :=
                    pu_shape rest2 pr.1 pr.2 hpu
                  have hlen2 : pr.2.length < n := by
                    have := congrArg List.length hsp
                    simp at this
                    omega
                  obtain ⟨c', fc', hd, hcomp, hne, hl, hre⟩ :=
                    ih pr.2 hlen2 cs' r hp
                  refine ⟨'\\' :: 'u' :: (pre ++ c'), '\\' :: 'u' :: (pre ++ fc'),
                    ?_, ?_, by simp, ?_, ?_⟩
                  · simp [hsp, hd]
                  · intro y
                    rw [List.cons_append, List.cons_append, fixAux_esc_pair,
                      List.append_assoc, hprecopy true (c' ++ y), hcomp y]
                    simp
                  · rw [getLast?_cons_of_ne_nil _ _ (by simp),
                        getLast?_cons_of_ne_nil _ _ (by simp [hne]),
                        List.getLast?_append, hl]
                    rfl
                  · intro r2 m hm
                    cases m with
                    | zero => simp at hm
                    | succ m =>
                      simp only [List.cons_append, List.length_cons,
                        List.length_append] at hm ⊢
                      simp only [pstrBody]
                      rw [if_neg (by decide), if_true]
                      simp only [show escChar? 'u' = none from rfl, if_true,
                        List.append_assoc, hpre (fc' ++ r2)]
                      rw [hre r2 m (by simp only [List.length_append] at hm ⊢; omega)]
                      rfl
              · rw [if_neg hu] at h
                simp at h
        · rw [if_neg hb] at h
          by_cases hctl : c.toNat < 0x20
          · rw [if_pos hctl] at h
            by_cases hlx : (true && (c = '\n' || c = '\r' || c = '\t')) = true
            · rw [if_pos hlx] at h
              rw [consDecoded_ok_iff] at h
              obtain ⟨cs', rfl, hp⟩ := h
              obtain ⟨c', fc', hd, hcomp, hne, hl, hre⟩ :=
                ih rest (by omega) cs' r hp
              simp only [Bool.true_and, Bool.or_eq_true, decide_eq_true_eq] at hlx
              rcases hlx with (hc | hc) | hc
              all_goals subst hc
              · refine ⟨'\n' :: c', '\\' :: 'n' :: fc', by simp [hd], ?_,
                  by simp, ?_, ?_⟩
                · intro y
                  rw [List.cons_append,
                    show fixAux true false ('\n' :: (c' ++ y)) =
                      '\\' :: 'n' :: fixAux true false (c' ++ y) from rfl,
                    hcomp y]
                  rfl
                · rw [getLast?_cons_of_ne_nil _ _ (by simp),
                      getLast?_cons_of_ne_nil _ _ hne]
                  exact hl
                · intro r2 m hm
                  cases m with
                  | zero => simp at hm
                  | succ m =>
                    simp only [List.cons_append, List.length_cons] at hm ⊢
                    simp only [pstrBody]
                    rw [if_neg (by decide), if_true,
                      show escChar? 'n' = some '\n' from rfl]
                    rw [hre r2 m (by simp only [List.length_append] at hm ⊢; omega)]
                    rfl
              · refine ⟨'\r' :: c', '\\' :: 'r' :: fc', by simp [hd], ?_,
                  by simp, ?_, ?_⟩
                · intro y
                  rw [List.cons_append,
                    show fixAux true false ('\r' :: (c' ++ y)) =
                      '\\' :: 'r' :: fixAux true false (c' ++ y) from rfl,
                    hcomp y]
                  rfl
                · rw [getLast?_cons_of_ne_nil _ _ (by simp),
                      getLast?_cons_of_ne_nil _ _ hne]
                  exact hl
                · intro r2 m hm
                  cases m with
                  | zero => simp at hm
                  | succ m =>
                    simp only [List.cons_append, List.length_cons] at hm ⊢
                    simp only [pstrBody]
                    rw [if_neg (by decide), if_true,
                      show escChar? 'r' = some '\r' from rfl]
                    rw [hre r2 m (by simp only [List.length_append] at hm ⊢; omega)]
                    rfl
              · refine ⟨'\t' :: c', '\\' :: 't' :: fc', by simp [hd], ?_,
                  by simp, ?_, ?_⟩
                · intro y
                  rw [List.cons_append,
                    show fixAux true false ('\t' :: (c' ++ y)) =
                      '\\' :: 't' :: fixAux true false (c' ++ y) from rfl,
                    hcomp y]
                  rfl
                · rw [getLast?_cons_of_ne_nil _ _ (by simp),
                      getLast?_cons_of_ne_nil _ _ hne]
                  exact hl
                · intro r2 m hm
                  cases m with
                  | zero => simp at hm
                  | succ m =>
                    simp only [List.cons_append, List.length_cons] at hm ⊢
                    simp only [pstrBody]
                    rw [if_neg (by decide), if_true,
                      show escChar? 't' = some '\t' from rfl]
                    rw [hre r2 m (by simp only [List.length_append] at hm ⊢; omega)]
                    rfl
            · rw [if_neg hlx] at h
              simp at h
          · rw [if_neg hctl] at h
            rw [consDecoded_ok_iff] at h
            obtain ⟨cs', rfl, hp⟩ := h
            obtain ⟨c', fc', hd, hcomp, hne, hl, hre⟩ :=
              ih rest (by omega) cs' r hp
            have hnotnl : ¬ c = '\n' := fun hh => by rw [hh] at hctl; exact hctl (by decide)
            have hnotcr : ¬ c = '\r' := fun hh => by rw [hh] at hctl; exact hctl (by decide)
            have hnotht : ¬ c = '\t' := fun hh => by rw [hh] at hctl; exact hctl (by decide)
            refine ⟨c :: c', c :: fc', by simp [hd], ?_, by simp, ?_, ?_⟩
            · intro y
              rw [List.cons_append,
                fixAux_cons_plain true c _ hb hq hnotnl hnotcr hnotht, hcomp y]
              rfl
            · rw [getLast?_cons_of_ne_nil _ _ hne]
              exact hl
            · intro r2 m hm
              cases m with
              | zero => simp at hm
              | succ m =>
                simp only [List.cons_append, List.length_cons] at hm ⊢
                simp only [pstrBody]
                rw [if_neg hq, if_neg hb, if_neg hctl]
                rw [hre r2 m (by simp only [List.length_append] at hm ⊢; omega)]
                rfl

/-- A value-start character is not a closing bracket. -/
theorem ne_rbracket_of_isStartChar (c : Char) (h : isStartChar c = true) :
    ¬ c = ']' := by
  simp only [isStartChar, Bool.or_eq_true, decide_eq_true_eq] at h
  intro hb
  subst hb
  rcases h with ((((((((hk|hk)|hk)|hk)|hk)|hk)|hk)|hk)|hk)|hk <;>
    simp_all [Char.isDigit]

/-- Characters of a number lexeme are plain for the escaping automaton. -/
theorem numChar_plain (a : Char)
    (h : a.isDigit = true ∨ a = '.' ∨ a = 'e' ∨ a = 'E' ∨ a = '+' ∨ a = '-') :
    ¬ a = '\\' ∧ ¬ a = '"' ∧ ¬ a = '\n' ∧ ¬ a = '\r' ∧ ¬ a = '\t' := by
  rcases h with hk | hk | hk | hk | hk | hk
  · refine ⟨?_, ?_, ?_, ?_, ?_⟩ <;>
      (intro hh; subst hh; exact absurd hk (by decide))
  all_goals subst hk <;> decide

/-- At the outside-string state, a quote is copied and toggles the
automaton into the string state. -/
theorem fixAux_quote_open (z : List Char) :
    fixAux false false ('"' :: z) = '"' :: fixAux true false z := rfl

/-- Commutation of the escaping automaton with the three mutually
recursive parsers: a LAX parse (literal LF/CR/TAB accepted inside string
bodies) of a value yields a consumed prefix whose automaton image parses
STRICTLY to the very same value — escaping repairs the document without
changing any recovered content. -/
theorem fix_commute : ∀ n : Nat,
    (∀ s v r, jvalue true n s = .ok (v, r) →
      ∃ c fc, s = c ++ r ∧ c ≠ [] ∧
        (∀ y, fixAux false false (c ++ y) = fc ++ fixAux false false y) ∧
        fc ≠ [] ∧ (∀ a ∈ fc.head?, isStartChar a = true) ∧
        ∀ r2 m, notNumExt r2 = true → 2 * fc.length < m →
          jvalue false m (fc ++ r2) = .ok (v, r2)) ∧
    (∀ s acc v r, jelements true n s acc = .ok (v, r) →
      ∃ c fc, s = c ++ r ∧ c ≠ [] ∧
        (∀ y, fixAux false false (c ++ y) = fc ++ fixAux false false y) ∧
        fc ≠ [] ∧ (∀ a ∈ fc.head?, isStartChar a = true) ∧
        ∀ r2 m, notNumExt r2 = true → 2 * fc.length < m →
          jelements false m (fc ++ r2) acc = .ok (v, r2)) ∧
    (∀ s acc v r, jmembers true n s acc = .ok (v, r) →
      ∃ c fc, s = c ++ r ∧ c ≠ [] ∧
        (∀ y, fixAux true false (c ++ y) = fc ++ fixAux false false y) ∧
        fc ≠ [] ∧
        ∀ r2 m, notNumExt r2 = true → 2 * fc.length < m →
          jmembers false m (fc ++ r2) acc = .ok (v, r2)) := by
  intro n
  induction n with
  | zero =>
    refine ⟨?_, ?_, ?_⟩
    · intro s v r h; simp [jvalue] at h
    · intro s acc v r h; simp [jelements] at h
    · intro s acc v r h; simp [jmembers] at h
  | succ n ih =>
    obtain ⟨ihv, ihe, ihm⟩ := ih
    refine ⟨?_, ?_, ?_⟩
    · -- jvalue
      intro s v r h
      cases s with
      | nil => simp [jvalue] at h
      | cons c rest =>
        simp only [jvalue] at h
        by_cases hq : c = '"'
        · rw [if_pos hq] at h
          subst hq
          cases hps : pstrBody true (rest.length + 1) rest with
          | error p => rw [hps] at h; simp [Except.map] at h
          | ok pk =>
            obtain ⟨cs, rr⟩ := pk
            rw [hps] at h
            simp only [Except.map, Except.ok.injEq, Prod.mk.injEq] at h
            obtain ⟨hv, hr⟩ := h
            subst hv
            subst hr
            obtain ⟨cS, fcS, hdS, hcompS, hneS, hlS, hreS⟩ :=
              fixstr_commute (rest.length + 1) rest (by omega) cs rr hps
            refine ⟨'"' :: cS, '"' :: fcS, by simp [hdS], by simp, ?_, by simp,
              head_cons_prop _ _ _ (by decide), ?_⟩
            · intro y
              simp only [List.cons_append]
              rw [fixAux_quote_open, hcompS y]
            · intro r2 m hnn hm
              cases m with
              | zero => omega
              | succ k =>
                simp only [List.cons_append, jvalue]
                rw [hreS r2 ((fcS ++ r2).length + 1) (Nat.lt_succ_self _)]
                rfl
        · rw [if_neg hq] at h
          by_cases hob : c = '{'
          · rw [if_pos hob] at h
            subst hob
            obtain ⟨w, hweq, hwws, hwhead⟩ := skipWs_decomp rest
            cases hsw : skipWs rest with
            | nil => rw [hsw] at h; simp at h
            | cons d r2 =>
              rw [hsw] at h
              dsimp only at h
              have hweq2 : rest = w ++ (d :: r2) := by rw [hweq, hsw]
              by_cases hd : d = '}'
              · rw [if_pos hd] at h
                subst hd
                simp only [Except.ok.injEq, Prod.mk.injEq] at h
                obtain ⟨hv, hr⟩ := h
                subst hv
                subst hr
                refine ⟨'{' :: (w ++ ['}']), '{' :: (w ++ ['}']), ?_, by simp, ?_,
                  by simp, head_cons_prop _ _ _ (by decide), ?_⟩
                · simp [hweq2, List.append_assoc]
                · intro y
                  simp only [List.cons_append, List.append_assoc,
                    List.nil_append]
                  rw [fixAux_false_cons '{' _ (by decide) (by decide),
                    fix_ws w hwws,
                    fixAux_false_cons '}' _ (by decide) (by decide)]
                · intro r2n m hnn hm
                  cases m with
                  | zero => omega
                  | succ k =>
                    simp only [List.cons_append, List.append_assoc,
                      List.nil_append, jvalue]
                    rw [if_true]
                    rw [skipWs_all_append w ('}' :: r2n) hwws
                      (head_cons_prop _ _ _ (by decide))]
                    rfl
              · rw [if_neg hd] at h
                by_cases hdq : d = '"'
                · rw [if_pos hdq] at h
                  subst hdq
                  obtain ⟨cm, fcm, hdm, hnemc, hcompm, hnem, hrem⟩ :=
                    ihm r2 [] v r h
                  have hweq3 : rest = w ++ ('"' :: (cm ++ r)) := by
                    rw [hweq2, hdm]
                  refine ⟨'{' :: (w ++ ('"' :: cm)), '{' :: (w ++ ('"' :: fcm)),
                    ?_, by simp, ?_, by simp,
                    head_cons_prop _ _ _ (by decide), ?_⟩
                  · simp [hweq3, List.append_assoc]
                  · intro y
                    simp only [List.cons_append, List.append_assoc]
                    rw [fixAux_false_cons '{' _ (by decide) (by decide),
                      fix_ws w hwws, fixAux_quote_open, hcompm y]
                  · intro r2n m hnn hm
                    cases m with
                    | zero => omega
                    | succ k =>
                      have hbound : 2 * fcm.length < k := by
                        simp only [List.length_cons, List.length_append] at hm
                        omega
                      simp only [List.cons_append, List.append_assoc,
                        List.nil_append, jvalue]
                      rw [if_true]
                      rw [skipWs_all_append w ('"' :: (fcm ++ r2n)) hwws
                        (head_cons_prop _ _ _ (by decide))]
                      show jmembers false k (fcm ++ r2n) [] = Except.ok (v, r2n)
                      exact hrem r2n k hnn hbound
                · rw [if_neg hdq] at h
                  simp at h
          · rw [if_neg hob] at h
            by_cases hoa : c = '['
            · rw [if_pos hoa] at h
              subst hoa
              obtain ⟨w, hweq, hwws, hwhead⟩ := skipWs_decomp rest
              cases hsw : skipWs rest with
              | nil =>
                rw [hsw] at h
                dsimp only at h
                obtain ⟨ce, fce, hde, hneec, _⟩ := ihe [] [] v r h
                exact absurd (List.append_eq_nil.mp hde.symm).1 hneec
              | cons d r2 =>
                rw [hsw] at h
                dsimp only at h
                have hweq2 : rest = w ++ (d :: r2) := by rw [hweq, hsw]
                by_cases hd : d = ']'
                · rw [if_pos hd] at h
                  subst hd
                  simp only [Except.ok.injEq, Prod.mk.injEq] at h
                  obtain ⟨hv, hr⟩ := h
                  subst hv
                  subst hr
                  refine ⟨'[' :: (w ++ [']']), '[' :: (w ++ [']']), ?_, by simp,
                    ?_, by simp, head_cons_prop _ _ _ (by decide), ?_⟩
                  · simp [hweq2, List.append_assoc]
                  · intro y
                    simp only [List.cons_append, List.append_assoc,
                      List.nil_append]
                    rw [fixAux_false_cons '[' _ (by decide) (by decide),
                      fix_ws w hwws,
                      fixAux_false_cons ']' _ (by decide) (by decide)]
                  · intro r2n m hnn hm
                    cases m with
                    | zero => omega
                    | succ k =>
                      simp only [List.cons_append, List.append_assoc,
                        List.nil_append, jvalue]
                      rw [if_true]
                      rw [skipWs_all_append w (']' :: r2n) hwws
                        (head_cons_prop _ _ _ (by decide))]
                      rfl
                · rw [if_neg hd] at h
                  obtain ⟨ce, fce, hde, hneec, hcompe, hnee, hhde, hree⟩ :=
                    ihe (d :: r2) [] v r h
                  obtain ⟨ef, tf, hfce⟩ : ∃ e t, fce = e :: t := by
                    cases hc : fce with
                    | nil => exact absurd hc hnee
                    | cons e t => exact ⟨e, t, rfl⟩
                  have hef : isStartChar ef = true := hhde ef (by rw [hfce]; simp)
                  have hweq3 : rest = w ++ (ce ++ r) := by rw [hweq2, hde]
                  refine ⟨'[' :: (w ++ ce), '[' :: (w ++ fce), ?_, by simp, ?_,
                    by simp, head_cons_prop _ _ _ (by decide), ?_⟩
                  · simp [hweq3, List.append_assoc]
                  · intro y
                    simp only [List.cons_append, List.append_assoc]
                    rw [fixAux_false_cons '[' _ (by decide) (by decide),
                      fix_ws w hwws, hcompe y]
                  · intro r2n m hnn hm
                    cases m with
                    | zero => omega
                    | succ k =>
                      have hbound : 2 * fce.length < k := by
                        simp only [List.length_cons, List.length_append] at hm
                        omega
                      simp only [List.cons_append, List.append_assoc, jvalue]
                      rw [if_true]
                      have hhead2 : ∀ a ∈ (fce ++ r2n).head?, isJsonWs a = false := by
                        rw [hfce]
                        simp only [List.cons_append]
                        exact head_cons_prop _ _ _ (isJsonWs_of_isStartChar ef hef)
                      rw [skipWs_all_append w (fce ++ r2n) hwws hhead2]
                      rw [hfce]
                      simp only [List.cons_append]
                      rw [if_neg (ne_rbracket_of_isStartChar ef hef)]
                      rw [← List.cons_append, ← hfce]
                      exact hree r2n k hnn hbound
            · rw [if_neg hoa] at h
              by_cases hlt : c = 't'
              · rw [if_pos hlt] at h
                subst hlt
                obtain ⟨hv, hs, hrep⟩ := plit_spec "true".data (J.bool true) _ v r h
                subst hv
                refine ⟨"true".data, "true".data, hs, by decide, fun y => rfl,
                  by decide,
                  (by intro a ha; simp at ha; subst ha; decide), ?_⟩
                intro r2 m hnn hm
                cases m with
                | zero => omega
                | succ k =>
                  rw [show jvalue false (k + 1) ("true".data ++ r2) =
                    plit "true".data (J.bool true) ("true".data ++ r2) from rfl]
                  rw [hrep r2]
              · rw [if_neg hlt] at h
                by_cases hlf : c = 'f'
                · rw [if_pos hlf] at h
                  subst hlf
                  obtain ⟨hv, hs, hrep⟩ := plit_spec "false".data (J.bool false) _ v r h
                  subst hv
                  refine ⟨"false".data, "false".data, hs, by decide, fun y => rfl,
                    by decide,
                    (by intro a ha; simp at ha; subst ha; decide), ?_⟩
                  intro r2 m hnn hm
                  cases m with
                  | zero => omega
                  | succ k =>
                    rw [show jvalue false (k + 1) ("false".data ++ r2) =
                      plit "false".data (J.bool false) ("false".data ++ r2) from rfl]
                    rw [hrep r2]
                · rw [if_neg hlf] at h
                  by_cases hln : c = 'n'
                  · rw [if_pos hln] at h
                    subst hln
                    obtain ⟨hv, hs, hrep⟩ := plit_spec "null".data J.null _ v r h
                    subst hv
                    refine ⟨"null".data, "null".data, hs, by decide, fun y => rfl,
                      by decide,
                      (by intro a ha; simp at ha; subst ha; decide), ?_⟩
                    intro r2 m hnn hm
                    cases m with
                    | zero => omega
                    | succ k =>
                      rw [show jvalue false (k + 1) ("null".data ++ r2) =
                        plit "null".data J.null ("null".data ++ r2) from rfl]
                      rw [hrep r2]
                  · rw [if_neg hln] at h
                    by_cases hlN : c = 'N'
                    · rw [if_pos hlN] at h
                      subst hlN
                      obtain ⟨hv, hs, hrep⟩ := plit_spec "NaN".data (J.num "NaN") _ v r h
                      subst hv
                      refine ⟨"NaN".data, "NaN".data, hs, by decide, fun y => rfl,
                        by decide,
                        (by intro a ha; simp at ha; subst ha; decide), ?_⟩
                      intro r2 m hnn hm
                      cases m with
                      | zero => omega
                      | succ k =>
                        rw [show jvalue false (k + 1) ("NaN".data ++ r2) =
                          plit "NaN".data (J.num "NaN") ("NaN".data ++ r2) from rfl]
                        rw [hrep r2]
                    · rw [if_neg hlN] at h
                      by_cases hlI : c = 'I'
                      · rw [if_pos hlI] at h
                        subst hlI
                        obtain ⟨hv, hs, hrep⟩ :=
                          plit_spec "Infinity".data (J.num "Infinity") _ v r h
                        subst hv
                        refine ⟨"Infinity".data, "Infinity".data, hs, by decide,
                          fun y => rfl, by decide,
                          (by intro a ha; simp at ha; subst ha; decide), ?_⟩
                        intro r2 m hnn hm
                        cases m with
                        | zero => omega
                        | succ k =>
                          rw [show jvalue false (k + 1) ("Infinity".data ++ r2) =
                            plit "Infinity".data (J.num "Infinity")
                              ("Infinity".data ++ r2) from rfl]
                          rw [hrep r2]
                      · rw [if_neg hlI] at h
                        by_cases hneg : c = '-'
                        · rw [if_pos hneg] at h
                          subst hneg
                          by_cases hInf : ("-Infinity".data.isPrefixOf ('-' :: rest)) = true
                          · rw [if_pos hInf] at h
                            simp only [Except.ok.injEq, Prod.mk.injEq] at h
                            obtain ⟨hv, hr⟩ := h
                            subst hv
                            obtain ⟨t, ht⟩ := List.isPrefixOf_iff_prefix.mp hInf
                            have hrt : r = t := by
                              rw [← hr, ← ht, List.drop_left' (by decide)]
                            subst hrt
                            refine ⟨"-Infinity".data, "-Infinity".data, ht.symm,
                              by decide, fun y => rfl, by decide,
                              (by intro a ha; simp at ha; subst ha; decide), ?_⟩
                            intro r2 m hnn hm
                            cases m with
                            | zero => omega
                            | succ k =>
                              rw [show jvalue false (k + 1) ("-Infinity".data ++ r2) =
                                (if ("-Infinity".data.isPrefixOf
                                    ("-Infinity".data ++ r2)) = true then
                                  Except.ok (J.num "-Infinity",
                                    ("-Infinity".data ++ r2).drop 9)
                                else pnumE ("-Infinity".data ++ r2)) from rfl]
                              rw [if_pos (List.isPrefixOf_iff_prefix.mpr
                                (List.prefix_append _ r2))]
                              rw [List.drop_left' (by decide)]
                          · rw [if_neg hInf] at h
                            simp only [pnumE] at h
                            cases hpn : pnum ('-' :: rest) with
                            | none => rw [hpn] at h; simp at h
                            | some pl =>
                              obtain ⟨lx, rr⟩ := pl
                              rw [hpn] at h
                              dsimp only at h
                              simp only [Except.ok.injEq, Prod.mk.injEq] at h
                              obtain ⟨hv, hr⟩ := h
                              subst hv
                              subst hr
                              obtain ⟨hp1, hp2, hp3, hp4, hp5, hpAll, hp6⟩ :=
                                pnum_spec ('-' :: rest) lx rr hpn
                              obtain ⟨t, hlx_eq, _⟩ :=
                                head_of_append_cons lx rr rest '-' hp1.symm hp2
                              obtain ⟨d, t2, ht_eq, hd_dig⟩ := hp5 t hlx_eq
                              refine ⟨lx, lx, hp1, hp2,
                                (fun y => fixAux_copy lx
                                  (fun a ha => numChar_plain a (hpAll a ha))
                                  false y), hp2, ?_, ?_⟩
                              · intro a ha
                                rcases hp3 a ha with hk | hk
                                · subst hk; decide
                                · simp [isStartChar, hk]
                              · intro r2 m hnn hm
                                cases m with
                                | zero => omega
                                | succ k =>
                                  have hdI : ('I' == d) = false := by
                                    rw [beq_eq_false_iff_ne]
                                    intro hh
                                    rw [← hh] at hd_dig
                                    exact absurd hd_dig (by decide)
                                  have hpref : ("-Infinity".data.isPrefixOf (lx ++ r2)) = false := by
                                    rw [hlx_eq, ht_eq]
                                    simp only [List.cons_append]
                                    simp only [List.isPrefixOf]
                                    rw [hdI]
                                    simp
                                  have hstep : jvalue false (k + 1) (lx ++ r2) =
                                      (if ("-Infinity".data.isPrefixOf (lx ++ r2)) = true then
                                        Except.ok (J.num "-Infinity", (lx ++ r2).drop 9)
                                      else pnumE (lx ++ r2)) := by
                                    rw [hlx_eq, ht_eq]
                                    rfl
                                  rw [hstep, hpref, if_neg (by decide)]
                                  simp only [pnumE]
                                  rw [hp6 r2 hnn]
                        · rw [if_neg hneg] at h
                          simp only [pnumE] at h
                          cases hpn : pnum (c :: rest) with
                          | none => rw [hpn] at h; simp at h
                          | some pl =>
                            obtain ⟨lx, rr⟩ := pl
                            rw [hpn] at h
                            dsimp only at h
                            simp only [Except.ok.injEq, Prod.mk.injEq] at h
                            obtain ⟨hv, hr⟩ := h
                            subst hv
                            subst hr
                            obtain ⟨hp1, hp2, hp3, hp4, hp5, hpAll, hp6⟩ :=
                              pnum_spec (c :: rest) lx rr hpn
                            obtain ⟨t, hlx_eq, _⟩ :=
                              head_of_append_cons lx rr rest c hp1.symm hp2
                            have hc_dig : c.isDigit = true := by
                              rcases hp3 c (by rw [hlx_eq]; simp) with hk | hk
                              · exact absurd hk hneg
                              · exact hk
                            refine ⟨lx, lx, hp1, hp2,
                              (fun y => fixAux_copy lx
                                (fun a ha => numChar_plain a (hpAll a ha))
                                false y), hp2, ?_, ?_⟩
                            · intro a ha
                              rcases hp3 a ha with hk | hk
                              · subst hk; decide
                              · simp [isStartChar, hk]
                            · intro r2 m hnn hm
                              cases m with
                              | zero => omega
                              | succ k =>
                                have hstep : jvalue false (k + 1) (lx ++ r2) =
                                    pnumE (lx ++ r2) := by
                                  rw [hlx_eq]
                                  simp only [List.cons_append, jvalue]
                                  rw [if_neg hq, if_neg hob, if_neg hoa,
                                    if_neg hlt, if_neg hlf, if_neg hln,
                                    if_neg hlN, if_neg hlI, if_neg hneg]
                                rw [hstep]
                                simp only [pnumE]
                                rw [hp6 r2 hnn]
    · -- jelements
      intro s acc v r h
      simp only [jelements] at h
      cases hjv : jvalue true n s with
      | error p => rw [hjv] at h; simp at h
      | ok pv =>
        obtain ⟨v1, r1⟩ := pv
        rw [hjv] at h
        dsimp only at h
        obtain ⟨c1, fc1, hd1, hne1c, hcomp1, hne1, hhd1, hre1⟩ := ihv s v1 r1 hjv
        obtain ⟨w1, hw1eq, hw1ws, hw1head⟩ := skipWs_decomp r1
        cases hsw1 : skipWs r1 with
        | nil => rw [hsw1] at h; simp at h
        | cons d r2 =>
          rw [hsw1] at h
          dsimp only at h
          have hw1eq2 : r1 = w1 ++ (d :: r2) := by rw [hw1eq, hsw1]
          by_cases hdc : d = ','
          · rw [if_pos hdc] at h
            subst hdc
            obtain ⟨w2, hw2eq, hw2ws, hw2head⟩ := skipWs_decomp r2
            obtain ⟨c2, fc2, hd2, hne2c, hcomp2, hne2, hhd2, hre2⟩ :=
              ihe (skipWs r2) (acc ++ [v1]) v r h
            have hw2eq2 : r2 = w2 ++ (c2 ++ r) := by rw [hw2eq, hd2]
            obtain ⟨e2, t2, hc2⟩ : ∃ e t, fc2 = e :: t := by
              cases hc : fc2 with
              | nil => exact absurd hc hne2
              | cons e t => exact ⟨e, t, rfl⟩
            have he2 : isStartChar e2 = true := hhd2 e2 (by rw [hc2]; simp)
            refine ⟨c1 ++ (w1 ++ (',' :: (w2 ++ c2))),
              fc1 ++ (w1 ++ (',' :: (w2 ++ fc2))), ?_, by simp [hne1c], ?_,
              by simp [hne1], ?_, ?_⟩
            · rw [hd1, hw1eq2, hw2eq2]
              simp [List.append_assoc]
            · intro y
              simp only [List.append_assoc, List.cons_append]
              rw [hcomp1 (w1 ++ (',' :: (w2 ++ (c2 ++ y)))),
                fix_ws w1 hw1ws,
                fixAux_false_cons ',' _ (by decide) (by decide),
                fix_ws w2 hw2ws, hcomp2 y]
            · exact head_append_cases _ fc1 _ hhd1 (fun hemp => absurd hemp hne1)
            · intro r2n m hnn hm
              cases m with
              | zero => omega
              | succ k =>
                have hb1 : 2 * fc1.length < k := by
                  simp only [List.length_append, List.length_cons] at hm
                  omega
                have hb2 : 2 * fc2.length < k := by
                  simp only [List.length_append, List.length_cons] at hm
                  omega
                simp only [List.append_assoc, List.cons_append, jelements]
                have hnnX : notNumExt (w1 ++ (',' :: (w2 ++ (fc2 ++ r2n)))) = true :=
                  notNumExt_of_head _ (head_append_cases _ w1 _
                    (fun a ha => numStop_of_isJsonWs a
                      (hw1ws a (List.mem_of_mem_head? ha)))
                    (fun _ => head_cons_prop _ _ _ (by decide)))
                rw [hre1 (w1 ++ (',' :: (w2 ++ (fc2 ++ r2n)))) k hnnX hb1]
                dsimp only
                rw [skipWs_all_append w1 (',' :: (w2 ++ (fc2 ++ r2n))) hw1ws
                  (head_cons_prop _ _ _ (by decide))]
                dsimp only
                rw [if_pos rfl]
                have hhead2 : ∀ a ∈ (fc2 ++ r2n).head?, isJsonWs a = false := by
                  rw [hc2]
                  simp only [List.cons_append]
                  exact head_cons_prop _ _ _ (isJsonWs_of_isStartChar e2 he2)
                rw [skipWs_all_append w2 (fc2 ++ r2n) hw2ws hhead2]
                exact hre2 r2n k hnn hb2
          · by_cases hdb : d = ']'
            · rw [if_neg hdc, if_pos hdb] at h
              subst hdb
              simp only [Except.ok.injEq, Prod.mk.injEq] at h
              obtain ⟨hv, hr⟩ := h
              subst hv
              subst hr
              refine ⟨c1 ++ (w1 ++ [']']), fc1 ++ (w1 ++ [']']), ?_,
                by simp [hne1c], ?_, by simp [hne1], ?_, ?_⟩
              · rw [hd1, hw1eq2]
                simp [List.append_assoc]
              · intro y
                simp only [List.append_assoc, List.cons_append, List.nil_append]
                rw [hcomp1 (w1 ++ (']' :: y)), fix_ws w1 hw1ws,
                  fixAux_false_cons ']' _ (by decide) (by decide)]
              · exact head_append_cases _ fc1 _ hhd1 (fun hemp => absurd hemp hne1)
              · intro r2n m hnn hm
                cases m with
                | zero => omega
                | succ k =>
                  have hb1 : 2 * fc1.length < k := by
                    simp only [List.length_append, List.length_cons] at hm
                    omega
                  simp only [List.append_assoc, List.cons_append,
                    List.nil_append, jelements]
                  have hnnX : notNumExt (w1 ++ (']' :: r2n)) = true :=
                    notNumExt_of_head _ (head_append_cases _ w1 _
                      (fun a ha => numStop_of_isJsonWs a
                        (hw1ws a (List.mem_of_mem_head? ha)))
                      (fun _ => head_cons_prop _ _ _ (by decide)))
                  rw [hre1 (w1 ++ (']' :: r2n)) k hnnX hb1]
                  dsimp only
                  rw [skipWs_all_append w1 (']' :: r2n) hw1ws
                    (head_cons_prop _ _ _ (by decide))]
                  rfl
            · rw [if_neg hdc, if_neg hdb] at h
              simp at h
    · -- jmembers
      intro s acc v r h
      simp only [jmembers] at h
      cases hps : pstrBody true (s.length + 1) s with
      | error p => rw [hps] at h; simp at h
      | ok pk =>
        obtain ⟨kcs, r1⟩ := pk
        rw [hps] at h
        dsimp only at h
        obtain ⟨ck, fck, hdk, hcompk, hnek, hlkq, hrek⟩ :=
          fixstr_commute (s.length + 1) s (by omega) kcs r1 hps
        have hnekc : ck ≠ [] := by
          intro hemp
          rw [hemp] at hcompk
          have h0 := hcompk []
          simp only [List.nil_append] at h0
          rw [show fixAux true false [] = [] from rfl,
            show fixAux false false [] = [] from rfl, List.append_nil] at h0
          exact hnek h0.symm
        obtain ⟨w1, hw1eq, hw1ws, hw1head⟩ := skipWs_decomp r1
        cases hsw1 : skipWs r1 with
        | nil => rw [hsw1] at h; simp at h
        | cons d r2 =>
          rw [hsw1] at h
          dsimp only at h
          have hw1eq2 : r1 = w1 ++ (d :: r2) := by rw [hw1eq, hsw1]
          by_cases hdc : d = ':'
          · rw [if_pos hdc] at h
            subst hdc
            obtain ⟨w2, hw2eq, hw2ws, hw2head⟩ := skipWs_decomp r2
            cases hjv : jvalue true n (skipWs r2) with
            | error p => rw [hjv] at h; simp at h
            | ok pv =>
              obtain ⟨v1, r3⟩ := pv
              rw [hjv] at h
              dsimp only at h
              obtain ⟨cv, fcv, hdv, hnevc, hcompv, hnev, hhdv, hrev⟩ :=
                ihv (skipWs r2) v1 r3 hjv
              have hw2eq2 : r2 = w2 ++ (cv ++ r3) := by rw [hw2eq, hdv]
              obtain ⟨ev, tv, hcv⟩ : ∃ e t, fcv = e :: t := by
                cases hc : fcv with
                | nil => exact absurd hc hnev
                | cons e t => exact ⟨e, t, rfl⟩
              have hev : isStartChar ev = true := hhdv ev (by rw [hcv]; simp)
              obtain ⟨w3, hw3eq, hw3ws, hw3head⟩ := skipWs_decomp r3
              cases hsw3 : skipWs r3 with
              | nil => rw [hsw3] at h; simp at h
              | cons d2 r4 =>
                rw [hsw3] at h
                dsimp only at h
                have hw3eq2 : r3 = w3 ++ (d2 :: r4) := by rw [hw3eq, hsw3]
                by_cases hd2c : d2 = ','
                · rw [if_pos hd2c] at h
                  subst hd2c
                  obtain ⟨w4, hw4eq, hw4ws, hw4head⟩ := skipWs_decomp r4
                  cases hsw4 : skipWs r4 with
                  | nil => rw [hsw4] at h; simp at h
                  | cons d3 r5 =>
                    rw [hsw4] at h
                    dsimp only at h
                    have hw4eq2 : r4 = w4 ++ (d3 :: r5) := by rw [hw4eq, hsw4]
                    by_cases hd3c : d3 = '"'
                    · rw [if_pos hd3c] at h
                      subst hd3c
                      obtain ⟨cm, fcm, hdm, hnemc, hcompm, hnem, hrem⟩ :=
                        ihm r5 (acc ++ [(String.mk kcs, v1)]) v r h
                      refine ⟨ck ++ (w1 ++ (':' :: (w2 ++ (cv ++ (w3 ++
                        (',' :: (w4 ++ ('"' :: cm)))))))),
                        fck ++ (w1 ++ (':' :: (w2 ++ (fcv ++ (w3 ++
                        (',' :: (w4 ++ ('"' :: fcm)))))))), ?_,
                        by simp [hnekc], ?_, by simp [hnek], ?_⟩
                      · rw [hdk, hw1eq2, hw2eq2, hw3eq2, hw4eq2, hdm]
                        simp [List.append_assoc]
                      · intro y
                        simp only [List.append_assoc, List.cons_append]
                        rw [hcompk (w1 ++ (':' :: (w2 ++ (cv ++ (w3 ++
                            (',' :: (w4 ++ ('"' :: (cm ++ y)))))))))]
                        rw [fix_ws w1 hw1ws,
                          fixAux_false_cons ':' _ (by decide) (by decide),
                          fix_ws w2 hw2ws, hcompv (w3 ++
                            (',' :: (w4 ++ ('"' :: (cm ++ y))))),
                          fix_ws w3 hw3ws,
                          fixAux_false_cons ',' _ (by decide) (by decide),
                          fix_ws w4 hw4ws, fixAux_quote_open, hcompm y]
                      · intro r2n m hnn hm
                        cases m with
                        | zero => omega
                        | succ k =>
                          have hbv : 2 * fcv.length < k := by
                            simp only [List.length_append, List.length_cons] at hm
                            omega
                          have hbm : 2 * fcm.length < k := by
                            simp only [List.length_append, List.length_cons] at hm
                            omega
                          simp only [List.append_assoc, List.cons_append, jmembers]
                          rw [hrek (w1 ++ (':' :: (w2 ++ (fcv ++ (w3 ++
                            (',' :: (w4 ++ ('"' :: (fcm ++ r2n))))))))) _
                            (Nat.lt_succ_self _)]
                          dsimp only
                          rw [skipWs_all_append w1 _ hw1ws
                            (head_cons_prop _ _ _ (by decide))]
                          dsimp only
                          rw [if_pos rfl]
                          have hheadv2 : ∀ a ∈ (fcv ++ (w3 ++ (',' :: (w4 ++
                              ('"' :: (fcm ++ r2n)))))).head?, isJsonWs a = false := by
                            rw [hcv]
                            simp only [List.cons_append]
                            exact head_cons_prop _ _ _
                              (isJsonWs_of_isStartChar ev hev)
                          rw [skipWs_all_append w2 _ hw2ws hheadv2]
                          have hnnv : notNumExt (w3 ++ (',' :: (w4 ++
                              ('"' :: (fcm ++ r2n))))) = true :=
                            notNumExt_of_head _ (head_append_cases _ w3 _
                              (fun a ha => numStop_of_isJsonWs a
                                (hw3ws a (List.mem_of_mem_head? ha)))
                              (fun _ => head_cons_prop _ _ _ (by decide)))
                          rw [hrev (w3 ++ (',' :: (w4 ++ ('"' :: (fcm ++ r2n))))) k
                            hnnv hbv]
                          dsimp only
                          rw [skipWs_all_append w3 _ hw3ws
                            (head_cons_prop _ _ _ (by decide))]
                          dsimp only
                          rw [if_pos rfl]
                          rw [skipWs_all_append w4 _ hw4ws
                            (head_cons_prop _ _ _ (by decide))]
                          dsimp only
                          rw [if_pos rfl]
                          exact hrem r2n k hnn hbm
                    · rw [if_neg hd3c] at h
                      simp at h
                · by_cases hd2b : d2 = '}'
                  · rw [if_neg hd2c, if_pos hd2b] at h
                    subst hd2b
                    simp only [Except.ok.injEq, Prod.mk.injEq] at h
                    obtain ⟨hv, hr⟩ := h
                    subst hv
                    subst hr
                    refine ⟨ck ++ (w1 ++ (':' :: (w2 ++ (cv ++ (w3 ++ ['}']))))),
                      fck ++ (w1 ++ (':' :: (w2 ++ (fcv ++ (w3 ++ ['}']))))),
                      ?_, by simp [hnekc], ?_, by simp [hnek], ?_⟩
                    · rw [hdk, hw1eq2, hw2eq2, hw3eq2]
                      simp [List.append_assoc]
                    · intro y
                      simp only [List.append_assoc, List.cons_append,
                        List.nil_append]
                      rw [hcompk (w1 ++ (':' :: (w2 ++ (cv ++ (w3 ++
                          ('}' :: y))))))]
                      rw [fix_ws w1 hw1ws,
                        fixAux_false_cons ':' _ (by decide) (by decide),
                        fix_ws w2 hw2ws,
                        hcompv (w3 ++ ('}' :: y)),
                        fix_ws w3 hw3ws,
                        fixAux_false_cons '}' _ (by decide) (by decide)]
                    · intro r2n m hnn hm
                      cases m with
                      | zero => omega
                      | succ k =>
                        have hbv : 2 * fcv.length < k := by
                          simp only [List.length_append, List.length_cons] at hm
                          omega
                        simp only [List.append_assoc, List.cons_append,
                          List.nil_append, jmembers]
                        rw [hrek (w1 ++ (':' :: (w2 ++ (fcv ++ (w3 ++
                          ('}' :: r2n)))))) _ (Nat.lt_succ_self _)]
                        dsimp only
                        rw [skipWs_all_append w1 _ hw1ws
                          (head_cons_prop _ _ _ (by decide))]
                        dsimp only
                        rw [if_pos rfl]
                        have hheadv2 : ∀ a ∈ (fcv ++ (w3 ++ ('}' :: r2n))).head?,
                            isJsonWs a = false := by
                          rw [hcv]
                          simp only [List.cons_append]
                          exact head_cons_prop _ _ _
                            (isJsonWs_of_isStartChar ev hev)
                        rw [skipWs_all_append w2 _ hw2ws hheadv2]
                        have hnnv : notNumExt (w3 ++ ('}' :: r2n)) = true :=
                          notNumExt_of_head _ (head_append_cases _ w3 _
                            (fun a ha => numStop_of_isJsonWs a
                              (hw3ws a (List.mem_of_mem_head? ha)))
                            (fun _ => head_cons_prop _ _ _ (by decide)))
                        rw [hrev (w3 ++ ('}' :: r2n)) k hnnv hbv]
                        dsimp only
                        rw [skipWs_all_append w3 _ hw3ws
                          (head_cons_prop _ _ _ (by decide))]
                        dsimp only
                        rw [if_neg (by decide), if_pos rfl]
                  · rw [if_neg hd2c, if_neg hd2b] at h
                    simp at h
          · rw [if_neg hdc] at h
            simp at h

/-- C5: for every input text that is a well-formed document except for
literal LF/CR/TAB characters inside quoted string values (exactly the
inputs accepted by the lax parser), the control-character-escaping pass
makes the document parse successfully under the strict parser, and the
parse result — in particular every recovered string value, with those
characters present — is identical to the lax parse of the original text:
no characters are dropped. -/
theorem c5_ctrl_escape_reversible (s : List Char) (v : J)
    (h : jloads true s = .ok v) :
    jloads false (fix_newlines_in_strings s) = .ok v := by
  simp only [jloads] at h
  cases hjv : jvalue true (2 * s.length + 2) (skipWs s) with
  | error p => rw [hjv] at h; simp at h
  | ok pv =>
    obtain ⟨v1, r⟩ := pv
    rw [hjv] at h
    dsimp only at h
    cases hsw : skipWs r with
    | cons d r2 => rw [hsw] at h; simp at h
    | nil =>
      rw [hsw] at h
      dsimp only at h
      simp only [Except.ok.injEq] at h
      subst h
      obtain ⟨w1, hw1eq, hw1ws, hw1head⟩ := skipWs_decomp s
      obtain ⟨c, fc, hd, hnec, hcomp, hnef, hhdf, hre⟩ :=
        (fix_commute (2 * s.length + 2)).1 (skipWs s) v1 r hjv
      have hrws : ∀ a ∈ r, isJsonWs a = true :=
        all_of_dropWhile_nil isJsonWs r hsw
      have hfixr : fixAux false false r = r := by
        have := fix_ws r hrws []
        rwa [List.append_nil, show fixAux false false [] = [] from rfl,
          List.append_nil] at this
      have hfix : fix_newlines_in_strings s = w1 ++ (fc ++ r) := by
        rw [fix_newlines_in_strings]
        conv_lhs => rw [hw1eq, hd]
        rw [fix_ws w1 hw1ws (c ++ r), hcomp r, hfixr]
      obtain ⟨ef, tf, hfc⟩ : ∃ e t, fc = e :: t := by
        cases hc : fc with
        | nil => exact absurd hc hnef
        | cons e t => exact ⟨e, t, rfl⟩
      have hef : isStartChar ef = true := hhdf ef (by rw [hfc]; simp)
      rw [hfix]
      simp only [jloads]
      have hskip : skipWs (w1 ++ (fc ++ r)) = fc ++ r := by
        refine skipWs_all_append w1 (fc ++ r) hw1ws ?_
        rw [hfc]
        simp only [List.cons_append]
        exact head_cons_prop _ _ _ (isJsonWs_of_isStartChar ef hef)
      rw [hskip]
      have hnnr : notNumExt r = true :=
        notNumExt_of_head r
          (fun a ha => numStop_of_isJsonWs a (hrws a (List.mem_of_mem_head? ha)))
      have hlen : fc.length ≤ (w1 ++ (fc ++ r)).length := by
        simp [List.length_append]
        omega
      rw [hre r (2 * (w1 ++ (fc ++ r)).length + 2) hnnr (by omega)]
      dsimp only
      rw [hsw]

/-- Witness for C5 at a concrete document with a literal newline inside a
string value: the escaping pass makes it parse and the recovered string
still contains the newline. -/
theorem c5_witness :
    jloads true "\x7b\"a\": \"x\ny\"\x7d".data =
      .ok (J.obj [("a", J.str "x\ny")]) ∧
    jloads false (fix_newlines_in_strings "\x7b\"a\": \"x\ny\"\x7d".data) =
      .ok (J.obj [("a", J.str "x\ny")]) :=
  ⟨rfl, c5_ctrl_escape_reversible "\x7b\"a\": \"x\ny\"\x7d".data
    (J.obj [("a", J.str "x\ny")]) rfl⟩
end Scribby
